import Mathlib

/-!
# Virtual-Memory: buddy and slab allocator (`my_memory.c`)

A shallow embedding of `my_memory.c`.

* The three linked lists (`first_chunk`, `first_pair`, `first_slab`) are Lean lists
  in link order; a node pointer is the position of the node in its list.
* The global variables form the record `Mem`; every C function that touches
  them takes a `Mem` and returns the new one.
* `int` arithmetic on the caller's `size` is reduced to 32 bits (`wrap32`).
  Offsets and sizes stored in the lists are kept as exact integers.
* `void *` values are integers (byte addresses); `NULL` is `0` and the failure
  value `(void *) -1` is `-1`. Where `slab_free` compares pointers, a value below 0
  counts as an address at the top of the 64-bit address space (`addr`).
* The 0/1 flags `used`, `active` and `is_start` are `Bool`.
* A result `none` stands for an execution that the C standard leaves undefined:
  a dereference of `NULL` or of `(void *) -1`, a use of a freed node, the end of
  a non-void function reached without `return`, or a loop that does not end.
-/

namespace VirtualMemory

/-! ## Constants -/

/-- `#define N_OBJS_PER_SLAB 64` -/
abbrev N_OBJS_PER_SLAB : Int := 64

/-- `#define MIN_SIZE_ALLOC 1024` -/
abbrev MIN_SIZE_ALLOC : Int := 1024

/-- `#define MEM_SIZE 1024 * 1024` -/
abbrev MEM_SIZE : Int := 1024 * 1024

/-- `#define OFFSET 4` -/
abbrev OFFSET : Int := 4

/-- Reduction of an integer to the range of a 32-bit two's complement `int`. -/
def wrap32 (x : Int) : Int := (x + 2147483648) % 4294967296 - 2147483648

/-! ## Data structures -/

/-- `struct mem_chunk` without its link field. -/
structure Chunk where
  start_loc : Int
  chunk_size : Int
  used : Bool
  val_ptr : Int
deriving DecidableEq, Repr

/-- `struct buddy` without its link field. -/
structure Buddies where
  b1_loc : Int
  b2_loc : Int
  active : Bool
deriving DecidableEq, Repr

/-- `struct slab` without its link field. -/
structure Slab where
  ptr : Int
  chunk_size : Int
  allocated : Int
deriving DecidableEq, Repr

/-- The global variables of `my_memory.c`. -/
structure Mem where
  type : Int
  size : Int
  start_ptr : Int
  is_start : Bool
  first_chunk : List Chunk
  first_pair : List Buddies
  first_slab : List Slab
deriving DecidableEq, Repr

/-- The globals as they are initialised at program start. -/
def Mem.init : Mem :=
  { type := 0, size := 0, start_ptr := 0, is_start := true,
    first_chunk := [], first_pair := [], first_slab := [] }

/-- `setup`: records the strategy, the size argument and the region base. -/
def setup (malloc_type mem_size start_of_memory : Int) (m : Mem) : Mem :=
  { m with type := malloc_type, size := mem_size, start_ptr := start_of_memory }

/-! ## Utility -/

/-- `next_power_of_2`: the bit-smearing round-up on a 32-bit `int`. -/
def next_power_of_2 (num : Int) : Int :=
  let num := wrap32 (num - 1)
  let num := Int.lor num (num >>> 1)
  let num := Int.lor num (num >>> 2)
  let num := Int.lor num (num >>> 4)
  let num := Int.lor num (num >>> 8)
  let num := Int.lor num (num >>> 16)
  wrap32 (num + 1)

/-! ## Memory map primitives -/

/-- `create_chunk`. -/
def create_chunk (loc size : Int) (used : Bool) (ptr : Int) : Chunk :=
  { start_loc := loc, chunk_size := size, used := used, val_ptr := ptr }

/-- The `while` loop of `new_chunk`: `start` is the node the cursor is on and the
list argument is the chain behind it. -/
def new_chunk_walk (tmp : Chunk) (loc : Int) : Chunk → List Chunk → List Chunk
  | start, [] => [start, tmp]
  | start, nxt :: rest =>
    if nxt.start_loc < loc then start :: new_chunk_walk tmp loc nxt rest
    else start :: tmp :: nxt :: rest

/-- `new_chunk`: ordered insertion by `start_loc`. The list must not be empty
(the C code reads `(*first)->start_loc`). -/
def new_chunk (first : List Chunk) (loc size : Int) (used : Bool) (ptr : Int) :
    Option (List Chunk) :=
  match first with
  | [] => none
  | c :: rest =>
    if c.start_loc > loc then some (create_chunk loc size used ptr :: c :: rest)
    else some (new_chunk_walk (create_chunk loc size used ptr) loc c rest)

/-- The `while` loop shared by `find_chunk` and `remove_chunk`: position of the
first node whose `start_loc` is `loc`, counted from `i`. -/
def walk_loc (loc : Int) : List Chunk → Nat → Option Nat
  | [], _ => none
  | c :: rest, i => if c.start_loc ≠ loc then walk_loc loc rest (i + 1) else some i

/-- The `while` loop shared by the lookups by payload pointer: position of the
first node whose `val_ptr` is `ptr`, counted from `i`. -/
def walk_ptr (ptr : Int) : List Chunk → Nat → Option Nat
  | [], _ => none
  | c :: rest, i => if c.val_ptr ≠ ptr then walk_ptr ptr rest (i + 1) else some i

/-- `find_chunk`: the position of the node found, `none` for `(void *) -1`. -/
def find_chunk (first : List Chunk) (loc : Int) : Option Nat :=
  match first with
  | [] => none
  | c :: _ =>
    if c.start_loc = loc then some 0
    else
      match walk_loc loc first 0 with
      | none => none
      | some i =>
        match first[i]? with
        | none => none
        | some t => if t.start_loc ≠ MEM_SIZE then some i else none

/-- `find_chunk_by_ptr`: the position of the node found, `none` for `(void *) -1`. -/
def find_chunk_by_ptr (first : List Chunk) (ptr : Int) : Option Nat :=
  match first with
  | [] => none
  | c :: _ =>
    if c.val_ptr = ptr then some 0
    else
      match walk_ptr ptr first 0 with
      | none => none
      | some i =>
        match first[i]? with
        | none => none
        | some t => if t.start_loc ≠ MEM_SIZE then some i else none

/-- `mem_free`: clears `used` on the node found and returns the new list with
the node. `none` when the function ends without `return`. -/
def mem_free (first : List Chunk) (ptr : Int) : Option (List Chunk × Chunk) :=
  match first with
  | [] => none
  | c :: rest =>
    if c.val_ptr = ptr then some ({ c with used := false } :: rest, { c with used := false })
    else
      match walk_ptr ptr first 0 with
      | none => none
      | some i =>
        match first[i]? with
        | none => none
        | some t =>
          if t.start_loc ≠ MEM_SIZE then
            some (first.set i { t with used := false }, { t with used := false })
          else none

/-- `free_slab_chunk`: clears `used` on the node found, if any. -/
def free_slab_chunk (first : List Chunk) (ptr : Int) : List Chunk :=
  match first with
  | [] => []
  | c :: rest =>
    if c.val_ptr = ptr then { c with used := false } :: rest
    else
      match walk_ptr ptr first 0 with
      | none => first
      | some i =>
        match first[i]? with
        | none => first
        | some t =>
          if t.start_loc ≠ MEM_SIZE then first.set i { t with used := false } else first

/-- Position of the node that `remove_chunk` unlinks, if it unlinks one. -/
def remove_chunk_idx (first : List Chunk) (start_loc : Int) : Option Nat :=
  match first with
  | [] => none
  | c :: _ =>
    if c.start_loc = start_loc then some 0
    else
      match walk_loc start_loc first 0 with
      | none => none
      | some i =>
        match first[i]? with
        | none => none
        | some t => if t.start_loc ≠ MEM_SIZE then some i else none

/-- `remove_chunk`. -/
def remove_chunk (first : List Chunk) (start_loc : Int) : List Chunk :=
  match remove_chunk_idx first start_loc with
  | none => first
  | some i => first.eraseIdx i

/-! ## Buddy pair registry -/

/-- `create_buddies`. -/
def create_buddies (b1_loc b2_loc : Int) (active : Bool) : Buddies :=
  { b1_loc := b1_loc, b2_loc := b2_loc, active := active }

/-- The `while` loop of `new_buddies`. -/
def new_buddies_walk (tmp : Buddies) (b1_loc : Int) : Buddies → List Buddies → List Buddies
  | start, [] => [start, tmp]
  | start, nxt :: rest =>
    if nxt.b1_loc ≤ b1_loc then start :: new_buddies_walk tmp b1_loc nxt rest
    else start :: tmp :: nxt :: rest

/-- `new_buddies`: ordered insertion by `b1_loc`, behind equal keys. The registry
must not be empty (the C code reads `(*first_pair)->b1_loc`). -/
def new_buddies (first_pair : List Buddies) (b1_loc b2_loc : Int) (active : Bool) :
    Option (List Buddies) :=
  match first_pair with
  | [] => none
  | p :: rest =>
    if p.b1_loc > b1_loc then some (create_buddies b1_loc b2_loc active :: p :: rest)
    else some (new_buddies_walk (create_buddies b1_loc b2_loc active) b1_loc p rest)

/-! ## Slab registry -/

/-- `create_slab`. -/
def create_slab (ptr chunk_size allocated : Int) : Slab :=
  { ptr := ptr, chunk_size := chunk_size, allocated := allocated }

/-- The `while` loop of `new_slab`. -/
def new_slab_walk (tmp : Slab) (chunk_size : Int) : Slab → List Slab → List Slab
  | start, [] => [start, tmp]
  | start, nxt :: rest =>
    if nxt.chunk_size ≤ chunk_size then start :: new_slab_walk tmp chunk_size nxt rest
    else start :: tmp :: nxt :: rest

/-- `new_slab`: ordered insertion by `chunk_size`, behind equal keys. The registry
must not be empty. -/
def new_slab (first_slab : List Slab) (ptr chunk_size allocated : Int) : Option (List Slab) :=
  match first_slab with
  | [] => none
  | s :: rest =>
    if s.chunk_size > chunk_size then some (create_slab ptr chunk_size allocated :: s :: rest)
    else some (new_slab_walk (create_slab ptr chunk_size allocated) chunk_size s rest)

/-- The `while` loop of `find_slab`, counted from `i`. -/
def find_slab_walk (chunk_size : Int) : List Slab → Nat → Option Nat
  | [], _ => none
  | s :: rest, i =>
    if s.chunk_size ≠ chunk_size ∨ s.allocated = N_OBJS_PER_SLAB then
      find_slab_walk chunk_size rest (i + 1)
    else some i

/-- `find_slab`: the position of a slab of the class that is not full, `none`
for `(void *) -1`. -/
def find_slab (first_slab : List Slab) (chunk_size : Int) : Option Nat :=
  match first_slab with
  | [] => none
  | s :: _ =>
    if s.chunk_size = chunk_size ∧ s.allocated < N_OBJS_PER_SLAB then some 0
    else find_slab_walk chunk_size first_slab 0

/-- The `while` loop shared by the two branches of `remove_slab`, counted from `i`. -/
def walk_slab_ptr (ptr : Int) : List Slab → Nat → Option Nat
  | [], _ => none
  | s :: rest, i => if s.ptr ≠ ptr then walk_slab_ptr ptr rest (i + 1) else some i

/-- `remove_slab`: unlinks the first record whose block pointer is `ptr`. -/
def remove_slab (first_slab : List Slab) (ptr : Int) : List Slab :=
  match first_slab with
  | [] => []
  | s :: rest =>
    if s.ptr = ptr then rest
    else
      match walk_slab_ptr ptr first_slab 0 with
      | none => first_slab
      | some i => first_slab.eraseIdx i

/-! ## Buddy allocator -/

/-- The tiling loop of the first `buddy_system` call:
`while (p_loc + p_size <= MEM_SIZE)`. The block size is at least 1024 and doubles,
so 32 rounds are more than the loop can take. -/
def genesis_loop (start_ptr : Int) :
    Nat → Int → Int → List Chunk → Option (List Chunk)
  | 0, p_loc, p_size, first => if p_loc + p_size ≤ MEM_SIZE then none else some first
  | fuel + 1, p_loc, p_size, first =>
    if p_loc + p_size ≤ MEM_SIZE then
      match new_chunk first p_loc p_size false (start_ptr + p_loc) with
      | none => none
      | some first1 => genesis_loop start_ptr fuel (p_loc + p_size) (p_size * 2) first1
    else some first

/-- The pair recording loop of the first `buddy_system` call, run on the chain
behind the second chunk: `while (tmp != NULL && tmp->start_loc != MEM_SIZE)`. -/
def genesis_pairs (b1_loc : Int) : List Chunk → List Buddies → Option (List Buddies)
  | [], first_pair => some first_pair
  | tmp :: rest, first_pair =>
    if tmp.start_loc ≠ MEM_SIZE then
      match new_buddies first_pair b1_loc tmp.start_loc true with
      | none => none
      | some first_pair1 => genesis_pairs b1_loc rest first_pair1
    else some first_pair

/-- First loop of `find_hole`: marks the first free chunk of exactly `alloc_size`
bytes used. `none` when the loop ends without a match. -/
def find_exact (alloc_size start_ptr : Int) : List Chunk → Option (List Chunk × Int)
  | [] => none
  | c :: rest =>
    if c.chunk_size = alloc_size ∧ c.used = false then
      some ({ c with used := true, val_ptr := start_ptr + c.start_loc } :: rest,
        start_ptr + c.start_loc)
    else
      match find_exact alloc_size start_ptr rest with
      | none => none
      | some (l, p) => some (c :: l, p)

/-- The carving loop of `find_hole`: `while (p_loc + p_size <= next_loc)`.
`p_size` is at least 1024 and doubles, so 32 rounds are more than the loop can
take on 32-bit offsets. -/
def split_loop (start_ptr chunk_loc next_loc : Int) :
    Nat → Int → Int → List Chunk → List Buddies → Option (List Chunk × List Buddies)
  | 0, p_loc, p_size, first, first_pair =>
    if p_loc + p_size ≤ next_loc then none else some (first, first_pair)
  | fuel + 1, p_loc, p_size, first, first_pair =>
    if p_loc + p_size ≤ next_loc then
      match new_buddies first_pair chunk_loc p_loc true with
      | none => none
      | some first_pair1 =>
        match new_chunk first p_loc p_size false (start_ptr + p_loc) with
        | none => none
        | some first1 =>
          split_loop start_ptr chunk_loc next_loc fuel (p_loc + p_size) (p_size * 2)
            first1 first_pair1
    else some (first, first_pair)

/-- Second loop of `find_hole`. `pre` holds the nodes already passed, the last
argument is the chain from `tmp` on. -/
def find_split (alloc_size : Int) (m : Mem) : List Chunk → List Chunk → Option (Int × Mem)
  | _, [] => none
  | pre, tmp :: rest =>
    if tmp.start_loc = MEM_SIZE then some (-1, m)
    else if alloc_size > tmp.chunk_size ∨ tmp.used = true then
      find_split alloc_size m (pre ++ [tmp]) rest
    else
      match rest with
      | [] => none
      | nxt :: _ =>
        let chunk_loc := tmp.start_loc
        let next_loc := nxt.start_loc
        let new_ptr := m.start_ptr + chunk_loc
        let first1 :=
          pre ++ { tmp with chunk_size := alloc_size, used := true, val_ptr := new_ptr } :: rest
        let p_loc := chunk_loc + alloc_size
        match new_buddies m.first_pair chunk_loc p_loc true with
        | none => none
        | some first_pair1 =>
          match new_chunk first1 p_loc alloc_size false (m.start_ptr + p_loc) with
          | none => none
          | some first2 =>
            match split_loop m.start_ptr chunk_loc next_loc 32 (p_loc + alloc_size)
                (alloc_size * 2) first2 first_pair1 with
            | none => none
            | some (first3, first_pair3) =>
              some (new_ptr, { m with first_chunk := first3, first_pair := first_pair3 })

/-- `find_hole`: returns the start address of the block handed out, or `-1`. -/
def find_hole (alloc_size : Int) (m : Mem) : Option (Int × Mem) :=
  if alloc_size > MEM_SIZE then some (-1, m)
  else
    match find_exact alloc_size m.start_ptr m.first_chunk with
    | some (l, p) => some (p, { m with first_chunk := l })
    | none => find_split alloc_size m [] m.first_chunk

/-- The block size that both branches of `buddy_system` compute from `size`:
`next_power_of_2(size + OFFSET)`, raised to `MIN_SIZE_ALLOC` when it is smaller. -/
def allocation_size (size : Int) : Int :=
  if next_power_of_2 (wrap32 (size + OFFSET)) < MIN_SIZE_ALLOC then MIN_SIZE_ALLOC
  else next_power_of_2 (wrap32 (size + OFFSET))

/-- `buddy_system`. -/
def buddy_system (size : Int) (m : Mem) : Option (Int × Mem) :=
  if m.is_start = true then
    if size ≤ MEM_SIZE then
      let p_size := allocation_size size
      match genesis_loop m.start_ptr 32 p_size p_size
          [create_chunk 0 p_size true m.start_ptr] with
      | none => none
      | some first1 =>
        match new_chunk first1 MEM_SIZE 0 false 0 with
        | none => none
        | some [] => none
        | some (c0 :: rest) =>
          if c0.chunk_size ≤ MEM_SIZE / 2 then
            match rest with
            | [] => none
            | c1 :: rest2 =>
              match genesis_pairs c0.start_loc rest2
                  [create_buddies c0.start_loc c1.start_loc true] with
              | none => none
              | some first_pair1 =>
                some (m.start_ptr + OFFSET,
                  { m with is_start := false, first_chunk := c0 :: rest,
                           first_pair := first_pair1 })
          else
            some (m.start_ptr + OFFSET, { m with is_start := false, first_chunk := c0 :: rest })
    else none
  else
    match find_hole (allocation_size size) m with
    | none => none
    | some (alloc_pos, m1) =>
      if alloc_pos = -1 then some (alloc_pos, m1) else some (alloc_pos + OFFSET, m1)

/-- The scan of `buddy_free` that decides `can_merge`, run on the chain from `b1`. -/
def can_merge_scan (check_range : Int) : List Chunk → Bool
  | [] => true
  | iter :: rest =>
    if iter.start_loc < check_range then
      if iter.used = true then false else can_merge_scan check_range rest
    else true

/-- The removal loop of `buddy_free`, run on the chain behind `b1`; `i1` is the
position of `b1` in `first`. `none` when `remove_chunk` frees `b1` itself, which
the C code writes to afterwards. -/
def merge_loop (check_range : Int) : List Chunk → List Chunk → Nat → Option (List Chunk × Nat)
  | [], first, i1 => some (first, i1)
  | rm :: rest, first, i1 =>
    if rm.start_loc < check_range then
      match remove_chunk_idx first rm.start_loc with
      | none => merge_loop check_range rest first i1
      | some j =>
        if j = i1 then none
        else merge_loop check_range rest (first.eraseIdx j) (if j < i1 then i1 - 1 else i1)
    else some (first, i1)

/-- The coalescing loop of `buddy_free` over the pair registry:
`while (tmp != NULL && tmp->b1_loc <= loc)`. -/
def buddy_free_loop (loc : Int) :
    List Buddies → List Chunk → Option (List Buddies × List Chunk)
  | [], first => some ([], first)
  | tmp :: rest, first =>
    if tmp.b1_loc ≤ loc then
      if tmp.active = true then
        let check_range := tmp.b1_loc + (tmp.b2_loc - tmp.b1_loc) * 2
        match find_chunk first tmp.b1_loc with
        | none =>
          match buddy_free_loop loc rest first with
          | none => none
          | some (ps, first1) => some ({ tmp with active := false } :: ps, first1)
        | some i1 =>
          if can_merge_scan check_range (first.drop i1) = true then
            match merge_loop check_range (first.drop (i1 + 1)) first i1 with
            | none => none
            | some (first1, j1) =>
              match first1[j1]? with
              | none => none
              | some b1 =>
                match buddy_free_loop loc rest
                    (first1.set j1 { b1 with chunk_size := check_range }) with
                | none => none
                | some (ps, first2) => some ({ tmp with active := false } :: ps, first2)
          else
            match buddy_free_loop loc rest first with
            | none => none
            | some (ps, first1) => some (tmp :: ps, first1)
      else
        match buddy_free_loop loc rest first with
        | none => none
        | some (ps, first1) => some (tmp :: ps, first1)
    else some (tmp :: rest, first)

/-- `buddy_free`. -/
def buddy_free (ptr : Int) (m : Mem) : Option Mem :=
  match mem_free m.first_chunk (ptr - OFFSET) with
  | none => none
  | some (first1, freed_loc) =>
    match buddy_free_loop freed_loc.start_loc m.first_pair first1 with
    | none => none
    | some (ps, first2) => some { m with first_chunk := first2, first_pair := ps }

/-! ## Slab allocator -/

/-- The slot loop of the first `slab_alloc` call: `k` rounds are left and
`allocated` is the loop counter. The counter is `unsigned int`, so the C code forms
`2 * OFFSET + allocated * (size + OFFSET)` modulo `2 ^ 32` before it is stored in the
`int start_loc`. -/
def slab_genesis_loop (start_ptr size : Int) : Nat → Int → List Chunk → Option (List Chunk)
  | 0, _, first => some first
  | k + 1, allocated, first =>
    let start_loc := wrap32 (2 * OFFSET + allocated * wrap32 (size + OFFSET))
    match new_chunk first start_loc (wrap32 (size + OFFSET)) false (start_ptr + start_loc) with
    | none => none
    | some first1 => slab_genesis_loop start_ptr size k (allocated + 1) first1

/-- The slot loop of a later `slab_alloc` call: `k` rounds are left and
`start_loc` is the offset of the slot created last. `start_loc += size + OFFSET` adds
to an offset of the memory map, which is kept exact; `size + OFFSET` is reduced to
32 bits. -/
def slab_slots_loop (start_ptr size : Int) : Nat → Int → List Chunk → Option (List Chunk)
  | 0, _, first => some first
  | k + 1, start_loc, first =>
    let start_loc1 := start_loc + wrap32 (size + OFFSET)
    match new_chunk first start_loc1 (wrap32 (size + OFFSET)) false (start_ptr + start_loc1) with
    | none => none
    | some first1 => slab_slots_loop start_ptr size k start_loc1 first1

/-- The slot search of `slab_alloc`, run on the chain behind the block chunk:
`while (tmp->start_loc < check_range && tmp->used == 1)`, then the slot is marked
used. `none` when the chain ends (the C code reads `tmp->start_loc` at `NULL`). -/
def slab_scan (check_range : Int) : List Chunk → Option (List Chunk × Int)
  | [] => none
  | tmp :: rest =>
    if tmp.start_loc < check_range ∧ tmp.used = true then
      match slab_scan check_range rest with
      | none => none
      | some (l, p) => some (tmp :: l, p)
    else some ({ tmp with used := true } :: rest, tmp.val_ptr)

/-- The first call of `slab_alloc` (`is_start == 1`), behind the size check. -/
def slab_first (size alloc_size : Int) (m : Mem) : Option (Int × Mem) :=
  match buddy_system (wrap32 (alloc_size - OFFSET)) m with
  | none => none
  | some (ptr, m1) =>
    match new_slab [create_slab m1.start_ptr (wrap32 (size + OFFSET)) 1] 0 0 0 with
    | none => none
    | some first_slab1 =>
      match new_chunk m1.first_chunk (2 * OFFSET) (wrap32 (size + OFFSET)) true
          (m1.start_ptr + 2 * OFFSET) with
      | none => none
      | some first1 =>
        match slab_genesis_loop m1.start_ptr size 63 1 first1 with
        | none => none
        | some first2 =>
          some (ptr + OFFSET, { m1 with first_chunk := first2, first_slab := first_slab1 })

/-- The branch of `slab_alloc` that fills a slot of the record at position `ri`,
which `find_slab` returned. -/
def slab_take (m : Mem) (ri : Nat) : Option (Int × Mem) :=
  match m.first_slab[ri]? with
  | none => none
  | some rec =>
    match find_chunk_by_ptr m.first_chunk rec.ptr with
    | none => none
    | some i =>
      match m.first_chunk[i]? with
      | none => none
      | some blk =>
        match slab_scan (blk.start_loc + 2 * OFFSET + wrap32 (N_OBJS_PER_SLAB * rec.chunk_size))
            (m.first_chunk.drop (i + 1)) with
        | none => none
        | some (l, p) =>
          some (p, { m with
            first_chunk := m.first_chunk.take (i + 1) ++ l,
            first_slab := m.first_slab.set ri { rec with allocated := rec.allocated + 1 } })

/-- The branch of `slab_alloc` that acquires a new block (`find_slab` returned
`(void *) -1`). -/
def slab_grow (size alloc_size : Int) (m : Mem) : Option (Int × Mem) :=
  match buddy_system (wrap32 (alloc_size - OFFSET)) m with
  | none => none
  | some (ptr, m1) =>
    if ptr = -1 then some (ptr, m1)
    else
      match new_slab m1.first_slab (ptr - OFFSET) (wrap32 (size + OFFSET)) 1 with
      | none => none
      | some first_slab1 =>
        match find_chunk_by_ptr m1.first_chunk (ptr - OFFSET) with
        | none => none
        | some i =>
          match m1.first_chunk[i]? with
          | none => none
          | some a_chunk =>
            match new_chunk m1.first_chunk (a_chunk.start_loc + 2 * OFFSET)
                (wrap32 (size + OFFSET)) true (ptr + OFFSET) with
            | none => none
            | some first1 =>
              match slab_slots_loop m1.start_ptr size 63 (a_chunk.start_loc + 2 * OFFSET)
                  first1 with
              | none => none
              | some first2 =>
                some (ptr + OFFSET, { m1 with first_chunk := first2, first_slab := first_slab1 })

/-- The block size that `slab_alloc` computes from `size`:
`next_power_of_2((size + OFFSET) * N_OBJS_PER_SLAB)`. -/
def slab_block_size (size : Int) : Int :=
  next_power_of_2 (wrap32 (wrap32 (size + OFFSET) * N_OBJS_PER_SLAB))

/-- `slab_alloc`: the size check, then the first call, a slot of an existing slab,
or a new block. -/
def slab_alloc (size : Int) (m : Mem) : Option (Int × Mem) :=
  if slab_block_size size > MEM_SIZE then some (-1, m)
  else if m.is_start = true then slab_first size (slab_block_size size) m
  else
    match find_slab m.first_slab (wrap32 (size + OFFSET)) with
    | some ri => slab_take m ri
    | none => slab_grow size (slab_block_size size) m

/-- The value of a pointer in an unsigned comparison. A value below 0, that is the
pointer `(void *) -1` or a pointer sum that has passed address 0, lies at the top of the
64-bit address space. Values are not reduced at `2 ^ 64`: the region is taken to lie
below the top of the address space. -/
def addr (x : Int) : Int := if x < 0 then x + 18446744073709551616 else x

/-- The owner search loop of `slab_free`, counted from `i`. The bound
`rm->ptr + 2 * OFFSET + rm->chunk_size * N_OBJS_PER_SLAB` is a pointer sum whose last
term is an `int` product, reduced to 32 bits; the pointers are compared unsigned. -/
def slab_owner_walk (ptr : Int) : List Slab → Nat → Option Nat
  | [], _ => none
  | rm :: rest, i =>
    if ¬ (addr ptr > addr rm.ptr ∧
        addr ptr < addr (rm.ptr + 2 * OFFSET + wrap32 (rm.chunk_size * N_OBJS_PER_SLAB))) then
      slab_owner_walk ptr rest (i + 1)
    else some i

/-- The slot removal loop of `slab_free`: `k` rounds are left. -/
def slab_remove_loop (chunk_size : Int) : Nat → Int → List Chunk → List Chunk
  | 0, _, first => first
  | k + 1, remove_start, first =>
    slab_remove_loop chunk_size k (wrap32 (remove_start + chunk_size))
      (remove_chunk first remove_start)

/-- The part of `slab_free` behind the owner search: `ri` is the position of the
record `rm` that owns `ptr`. -/
def slab_release (ptr : Int) (m : Mem) (ri : Nat) : Option Mem :=
  match m.first_slab[ri]? with
  | none => none
  | some rm =>
    if rm.allocated > 1 then
      some { m with
        first_chunk := free_slab_chunk m.first_chunk ptr,
        first_slab := m.first_slab.set ri { rm with allocated := rm.allocated - 1 } }
    else if rm.allocated = 1 then
      match find_chunk_by_ptr m.first_chunk rm.ptr with
      | none => none
      | some i =>
        match m.first_chunk[i]? with
        | none => none
        | some remover =>
          match buddy_free (rm.ptr + OFFSET)
              { m with first_chunk :=
                  (slab_remove_loop rm.chunk_size 64 (remover.start_loc + 2 * OFFSET)
                    m.first_chunk) } with
          | none => none
          | some m1 => some { m1 with first_slab := remove_slab m1.first_slab rm.ptr }
    else some m

/-- `slab_free`: the owner search, then `slab_release` on the record found. -/
def slab_free (ptr : Int) (m : Mem) : Option Mem :=
  match m.first_slab with
  | [] => none
  | rm0 :: rest =>
    match (if addr ptr > addr rm0.ptr ∧
        addr ptr < addr (rm0.ptr + 2 * OFFSET + wrap32 (rm0.chunk_size * N_OBJS_PER_SLAB))
      then some 0 else slab_owner_walk ptr rest 1) with
    | none => some m
    | some ri => slab_release ptr m ri

/-! ## Entry points -/

/-- `my_malloc`: `none` when `type` is neither 0 nor 1 (no `return` is reached). -/
def my_malloc (size : Int) (m : Mem) : Option (Int × Mem) :=
  if m.type = 0 then buddy_system size m
  else if m.type = 1 then slab_alloc size m
  else none

/-- `my_free`. -/
def my_free (ptr : Int) (m : Mem) : Option Mem :=
  if m.type = 0 then buddy_free ptr m
  else if m.type = 1 then slab_free ptr m
  else some m

/-! ## Call sequences and predicates used in the statements -/

/-- One call of the public interface; `free k` frees the pointer that the `k`-th
allocation call of the sequence returned (counted from 0). -/
inductive Call where
  | malloc (size : Int)
  | free (k : Nat)
deriving DecidableEq, Repr

/-- Runs a sequence of calls; the list collects the pointers returned so far. -/
def run : List Call → Mem → List Int → Option (Mem × List Int)
  | [], m, ps => some (m, ps)
  | Call.malloc size :: rest, m, ps =>
    match my_malloc size m with
    | none => none
    | some (p, m1) => run rest m1 (ps ++ [p])
  | Call.free k :: rest, m, ps =>
    match ps[k]? with
    | none => none
    | some p =>
      match my_free p m with
      | none => none
      | some m1 => run rest m1 ps

/-- The chunks from `loc` on tile `[loc, MEM_SIZE)` in list order and the last
node is the sentinel at `MEM_SIZE`. -/
def tiled_from (loc : Int) : List Chunk → Bool
  | [] => false
  | [s] => decide (s.start_loc = MEM_SIZE ∧ loc = MEM_SIZE)
  | c :: rest => decide (c.start_loc = loc) && tiled_from (loc + c.chunk_size) rest

/-- Boundaries and used flags of a memory map. -/
def shape (first : List Chunk) : List (Int × Int × Bool) :=
  first.map (fun c => (c.start_loc, c.chunk_size, c.used))

/-- Size of the first chunk that starts at `loc`. -/
def size_at (loc : Int) (first : List Chunk) : Option Int :=
  (first.find? (fun c => decide (c.start_loc = loc))).map (fun c => c.chunk_size)

/-- `x` has bit `i` set exactly when `m` has a bit set among `i, ..., i + w`. -/
def Smeared (w m x : Nat) : Prop :=
  ∀ i, x.testBit i = true ↔ ∃ j, j ≤ w ∧ m.testBit (i + j) = true

/-- The five or-shift steps of `next_power_of_2` on a natural number. -/
def smear (m : Nat) : Nat :=
  let m := m ||| (m >>> 1)
  let m := m ||| (m >>> 2)
  let m := m ||| (m >>> 4)
  let m := m ||| (m >>> 8)
  m ||| (m >>> 16)

/-- The free chunks that the tiling loop of the first `buddy_system` call creates:
`k` chunks, the first at offset `p` with size `p`, each next one twice as far and
twice as large. -/
def rungs (start_ptr : Int) : Nat → Int → List Chunk
  | 0, _ => []
  | k + 1, p => ⟨p, p, false, start_ptr + p⟩ :: rungs start_ptr k (p * 2)

/-- The pairs that the first `buddy_system` call records for `rungs`. -/
def rung_pairs : Nat → Int → List Buddies
  | 0, _ => []
  | k + 1, p => ⟨0, p, true⟩ :: rung_pairs k (p * 2)

/-- The record of slot `i` of the slab whose block starts at offset `base`: class
size `c`, used flag `u`. -/
def slot (start_ptr c base : Int) (u : Bool) (i : Nat) : Chunk :=
  ⟨base + 8 + i * c, c, u, start_ptr + (base + 8 + i * c)⟩

/-- The records of the slots `lo, ..., lo + len - 1` of a slab, all with used flag `u`. -/
def slots (start_ptr c base : Int) (u : Bool) (lo len : Nat) : List Chunk :=
  (List.range' lo len).map (slot start_ptr c base u)

/-- The globals in slab mode while the first slab fills up: block size `A`, class
size `c`, `k` slots handed out, `tail` the chunks behind the first block. -/
def slab_mem1 (b sz c A : Int) (tail : List Chunk) (pairs : List Buddies) (k : Nat) : Mem :=
  { type := 1, size := sz, start_ptr := b, is_start := false,
    first_chunk := ⟨0, A, true, b⟩ ::
      (slots b c 0 true 0 k ++ (slots b c 0 false k (64 - k) ++ tail)),
    first_pair := pairs,
    first_slab := [⟨0, 0, 0⟩, ⟨b, c, k⟩] }

/-- The globals in slab mode after 65 allocations of one class and the free of the
first `j` pointers. -/
def slab_mem2 (b sz c A : Int) (tail : List Chunk) (pairs : List Buddies) (j : Nat) : Mem :=
  { type := 1, size := sz, start_ptr := b, is_start := false,
    first_chunk := ⟨0, A, true, b⟩ ::
      (slots b c 0 false 0 j ++ (slots b c 0 true j (64 - j) ++
        ⟨A, A, true, b + A⟩ :: (slots b c A true 0 1 ++ (slots b c A false 1 63 ++ tail)))),
    first_pair := pairs,
    first_slab := [⟨0, 0, 0⟩, ⟨b, c, 64 - (j : Int)⟩, ⟨b + A, c, 1⟩] }

/-- The globals in slab mode after 65 allocations of one class and the free of the
first 64 pointers. -/
def slab_mem3 (b sz c A : Int) (tail : List Chunk) (pairs : List Buddies) : Mem :=
  { type := 1, size := sz, start_ptr := b, is_start := false,
    first_chunk := ⟨0, A, false, b⟩ ::
      ⟨A, A, true, b + A⟩ :: (slots b c A true 0 1 ++ (slots b c A false 1 63 ++ tail)),
    first_pair := pairs,
    first_slab := [⟨0, 0, 0⟩, ⟨b + A, c, 1⟩] }

/-- Total size of the chunks of the map whose `start_loc` lies in `[lo, hi)`. -/
def span (first : List Chunk) (lo hi : Int) : Int :=
  ((first.filter (fun c => decide (lo ≤ c.start_loc ∧ c.start_loc < hi))).map
    (fun c => c.chunk_size)).sum

/-- The byte ranges `[p1, p1 + n1)` and `[p2, p2 + n2)` do not meet. -/
def ranges_disjoint (p1 n1 p2 n2 : Int) : Prop := p1 + n1 ≤ p2 ∨ p2 + n2 ≤ p1

/-- The globals with the copy `size` of the `mem_size` argument replaced. -/
def with_size (sz : Int) (m : Mem) : Mem := { m with size := sz }

/-- A call with its argument: `my_malloc(n)`, or `my_free(p)` for any pointer value. -/
inductive Op where
  | malloc (n : Int)
  | free (p : Int)
deriving DecidableEq, Repr

/-- Runs a sequence of calls with explicit arguments. -/
def exec : List Op → Mem → Option Mem
  | [], m => some m
  | Op.malloc n :: rest, m =>
    match my_malloc n m with
    | none => none
    | some (_, m1) => exec rest m1
  | Op.free p :: rest, m =>
    match my_free p m with
    | none => none
    | some m1 => exec rest m1

/-- Every record of the memory map has a non-negative `start_loc`. -/
def offsets_nonneg (first : List Chunk) : Prop := ∀ x ∈ first, 0 ≤ x.start_loc

/-- The slab registry starts with the dummy record, is sorted by `chunk_size`, and every
other record has a non-null block pointer and a positive class size. -/
def registry_ok (l : List Slab) : Prop :=
  ∃ rest, l = ⟨0, 0, 0⟩ :: rest ∧ (l.map (fun s => s.chunk_size)).Pairwise (· ≤ ·) ∧
    ∀ s ∈ rest, 0 < s.ptr ∧ 0 < s.chunk_size

/-- What holds of the globals in slab mode with region base `b`: before the first
allocation they are as `setup` left them, afterwards the registry and the offsets of the
memory map are in order. -/
def slab_inv (b sz : Int) (m : Mem) : Prop :=
  m.type = 1 ∧ m.start_ptr = b ∧ (m.is_start = true → m = setup 1 sz b Mem.init) ∧
    (m.is_start = false → registry_ok m.first_slab ∧ offsets_nonneg m.first_chunk)

/-! ## `next_power_of_2` -/

theorem smeared_zero (m : Nat) : Smeared 0 m m := by
  intro i
  constructor
  · intro h
    exact ⟨0, le_refl 0, by simpa using h⟩
  · rintro ⟨j, hj, h⟩
    have : j = 0 := by omega
    subst this
    simpa using h

theorem smeared_step {w m x : Nat} (d : Nat) (hd : d ≤ w + 1) (h : Smeared w m x) :
    Smeared (w + d) m (x ||| (x >>> d)) := by
  intro i
  rw [Nat.testBit_or, Nat.testBit_shiftRight, Bool.or_eq_true, h i, h (d + i)]
  constructor
  · rintro (⟨j, hj, hb⟩ | ⟨j, hj, hb⟩)
    · exact ⟨j, by omega, hb⟩
    · refine ⟨d + j, by omega, ?_⟩
      rw [← hb]
      congr 1
      omega
  · rintro ⟨j, hj, hb⟩
    by_cases hjw : j ≤ w
    · exact Or.inl ⟨j, hjw, hb⟩
    · refine Or.inr ⟨j - d, by omega, ?_⟩
      rw [← hb]
      congr 1
      omega

theorem smeared_full {m x : Nat} (hm : m < 2 ^ 32) (h : Smeared 31 m x) :
    x = 2 ^ m.size - 1 := by
  apply Nat.eq_of_testBit_eq
  intro i
  rw [Nat.testBit_two_pow_sub_one]
  have hs : m.size ≤ 32 := Nat.size_le.mpr hm
  by_cases hi : i < m.size
  · have hpos : 2 ^ (m.size - 1) ≤ m := Nat.lt_size.mp (by omega)
    have htop : ∃ t, m.size - 1 ≤ t ∧ m.testBit t = true := by
      by_contra hcon
      push_neg at hcon
      have := Nat.lt_pow_two_of_testBit m (fun t ht => by simpa using hcon t ht)
      omega
    obtain ⟨t, ht1, ht2⟩ := htop
    have ht3 : t < m.size := by
      by_contra hge
      have hlt : m < 2 ^ t :=
        lt_of_lt_of_le (Nat.lt_size_self m) (Nat.pow_le_pow_right (by norm_num) (by omega))
      rw [Nat.testBit_lt_two_pow hlt] at ht2
      exact Bool.false_ne_true ht2
    have : x.testBit i = true := by
      rw [h i]
      refine ⟨t - i, by omega, ?_⟩
      rw [← ht2]
      congr 1
      omega
    simp [this, hi]
  · have : x.testBit i = false := by
      by_contra hcon
      have hx : x.testBit i = true := by simpa using hcon
      obtain ⟨j, _, hb⟩ := (h i).mp hx
      have hlt : m < 2 ^ (i + j) :=
        lt_of_lt_of_le (Nat.lt_size_self m) (Nat.pow_le_pow_right (by norm_num) (by omega))
      rw [Nat.testBit_lt_two_pow hlt] at hb
      exact Bool.false_ne_true hb
    simp [this, hi]

theorem smear_eq (m : Nat) (hm : m < 2 ^ 32) : smear m = 2 ^ m.size - 1 := by
  apply smeared_full hm
  have h0 := smeared_zero m
  have h1 := smeared_step 1 (by omega) h0
  have h2 := smeared_step 2 (by omega) h1
  have h3 := smeared_step 4 (by omega) h2
  have h4 := smeared_step 8 (by omega) h3
  have h5 := smeared_step 16 (by omega) h4
  exact h5

theorem wrap32_of_range {x : Int} (h1 : -2147483648 ≤ x) (h2 : x < 2147483648) :
    wrap32 x = x := by
  unfold wrap32
  omega

theorem next_power_of_2_eq (n : Int) (h1 : 1 ≤ n) (h2 : n ≤ 1073741824) :
    next_power_of_2 n = ((2 ^ (n - 1).toNat.size : Nat) : Int) := by
  obtain ⟨m, rfl⟩ : ∃ m : Nat, n = (m : Int) + 1 := ⟨(n - 1).toNat, by omega⟩
  have hm : m < 2 ^ 30 := by norm_num; omega
  have hsz : m.size ≤ 30 := Nat.size_le.mpr hm
  have hpow : 2 ^ m.size ≤ 2 ^ 30 := Nat.pow_le_pow_right (by norm_num) hsz
  have hpos : 0 < 2 ^ m.size := Nat.pos_pow_of_pos _ (by norm_num)
  have hw : wrap32 ((m : Int) + 1 - 1) = (m : Int) := by
    rw [wrap32_of_range] <;> omega
  have hs : smear m = 2 ^ m.size - 1 := smear_eq m (lt_trans hm (by norm_num))
  have key : next_power_of_2 ((m : Int) + 1) = wrap32 (((smear m : Nat) : Int) + 1) := by
    unfold next_power_of_2
    simp only [hw]
    rfl
  have hm0 : (m : Int) + 1 - 1 = (m : Int) := by omega
  rw [key, hs, hm0, Int.toNat_ofNat]
  generalize 2 ^ m.size = P at hpow hpos
  have hc : (((P - 1 : Nat) : Int) + 1) = (P : Int) := by omega
  rw [hc, wrap32_of_range] <;> omega


theorem next_power_of_2_bounds (n : Int) (h1 : 1 ≤ n) (h2 : n ≤ 1073741824) :
    ∃ k : Nat, k ≤ 30 ∧ next_power_of_2 n = 2 ^ k ∧ n ≤ 2 ^ k ∧ (2 : Int) ^ k < 2 * n := by
  have heq := next_power_of_2_eq n h1 h2
  obtain ⟨m, rfl⟩ : ∃ m : Nat, n = (m : Int) + 1 := ⟨(n - 1).toNat, by omega⟩
  have hm0 : (m : Int) + 1 - 1 = (m : Int) := by omega
  rw [hm0, Int.toNat_ofNat] at heq
  have hm : m < 2 ^ 30 := by norm_num; omega
  have hsz : m.size ≤ 30 := Nat.size_le.mpr hm
  have hlt : m < 2 ^ m.size := Nat.lt_size_self m
  have hlow : 2 ^ m.size < 2 * (m + 1) := by
    rcases Nat.eq_zero_or_pos m.size with h0 | hpos
    · rw [h0]; omega
    · have hle : 2 ^ (m.size - 1) ≤ m := Nat.lt_size.mp (by omega)
      have hsplit : 2 ^ m.size = 2 * 2 ^ (m.size - 1) := by
        rw [← pow_succ']
        congr 1
        omega
      omega
  refine ⟨m.size, hsz, ?_, ?_, ?_⟩
  · rw [heq]; push_cast; rfl
  · have : ((m + 1 : Nat) : Int) ≤ ((2 ^ m.size : Nat) : Int) := by exact_mod_cast hlt
    push_cast at this
    exact this
  · have : ((2 ^ m.size : Nat) : Int) < ((2 * (m + 1) : Nat) : Int) := by exact_mod_cast hlow
    push_cast at this
    exact this

/-- C3. For every 32-bit `int` `n` with `1 ≤ n ≤ 2^30`, `next_power_of_2 n` is a power
of two, is at least `n`, is below `2 * n`, and is therefore the smallest power of two
that is at least `n`; `next_power_of_2` maps 1 to 1, 1024 to 1024 and 1025 to 2048. -/
theorem next_power_of_2_smallest (n : Int) (h1 : 1 ≤ n) (h2 : n ≤ 2 ^ 30) :
    (∃ k : Nat, next_power_of_2 n = 2 ^ k) ∧ n ≤ next_power_of_2 n ∧
    next_power_of_2 n < 2 * n ∧
    (∀ j : Nat, n ≤ 2 ^ j → next_power_of_2 n ≤ 2 ^ j) ∧
    next_power_of_2 1 = 1 ∧ next_power_of_2 1024 = 1024 ∧ next_power_of_2 1025 = 2048 := by
  obtain ⟨k, _, hk, hle, hlt⟩ := next_power_of_2_bounds n h1 (by norm_num at h2; exact h2)
  refine ⟨⟨k, hk⟩, by rw [hk]; exact hle, by rw [hk]; exact hlt, ?_, by decide, by decide,
    by decide⟩
  intro j hj
  rw [hk]
  have h3 : (2 : Int) ^ k < 2 ^ (j + 1) := by
    rw [pow_succ]
    omega
  have h4 : k < j + 1 := by
    by_contra hcon
    have : (2 : Int) ^ (j + 1) ≤ 2 ^ k := pow_le_pow_right₀ (by norm_num) (by omega)
    omega
  exact pow_le_pow_right₀ (by norm_num) (by omega)

theorem next_power_of_2_smallest_witness :
    (1 : Int) ≤ 1025 ∧ (1025 : Int) ≤ 2 ^ 30 ∧ (1025 : Int) ≤ next_power_of_2 1025 ∧
    next_power_of_2 1025 < 2 * 1025 :=
  ⟨by decide, by decide,
    (next_power_of_2_smallest 1025 (by decide) (by decide)).2.1,
    (next_power_of_2_smallest 1025 (by decide) (by decide)).2.2.1⟩

/-! ## Defects found by evaluation -/

/-- C1 (the code breaks it). In buddy mode with region base 65536, after three calls
`my_malloc(2000)` the memory map tiles `[0, 1048576)`, and after `my_free` of the third
pointer it does not: the merge of the pair `(4096, 6144)` stores the end offset 8192 as
the size of the chunk at 4096, which then overlaps the chunk at 8192. -/
theorem partition_broken_by_merge :
    (run [Call.malloc 2000, Call.malloc 2000, Call.malloc 2000]
        (setup 0 1048576 65536 Mem.init) []).map
      (fun r => tiled_from 0 r.1.first_chunk) = some true ∧
    (run [Call.malloc 2000, Call.malloc 2000, Call.malloc 2000, Call.free 2]
        (setup 0 1048576 65536 Mem.init) []).map
      (fun r => tiled_from 0 r.1.first_chunk) = some false ∧
    (run [Call.malloc 2000, Call.malloc 2000, Call.malloc 2000, Call.free 2]
        (setup 0 1048576 65536 Mem.init) []).map
      (fun r => (shape r.1.first_chunk).take 4) =
        some [(0, 2048, true), (2048, 2048, true), (4096, 8192, false), (8192, 8192, false)] := by
  refine ⟨by decide, by decide, by decide⟩

/-- C2 (the code breaks it). In buddy mode with region base 65536, after two calls
`my_malloc(2000)` the chunk at offset 4096 has size 4096; a third `my_malloc(2000)`
followed by `my_free` of its pointer leaves that chunk with size 8192, so the map does
not return to its shape before the allocation. -/
theorem round_trip_broken_by_merge :
    (run [Call.malloc 2000, Call.malloc 2000]
        (setup 0 1048576 65536 Mem.init) []).map
      (fun r => size_at 4096 r.1.first_chunk) = some (some 4096) ∧
    (run [Call.malloc 2000, Call.malloc 2000, Call.malloc 2000, Call.free 2]
        (setup 0 1048576 65536 Mem.init) []).map
      (fun r => size_at 4096 r.1.first_chunk) = some (some 8192) ∧
    (run [Call.malloc 2000, Call.malloc 2000]
        (setup 0 1048576 65536 Mem.init) []).map (fun r => shape r.1.first_chunk) ≠
    (run [Call.malloc 2000, Call.malloc 2000, Call.malloc 2000, Call.free 2]
        (setup 0 1048576 65536 Mem.init) []).map (fun r => shape r.1.first_chunk) := by
  refine ⟨by decide, by decide, by decide⟩

/-- C4 (the code breaks it). In buddy mode with region base 65536, the very first call
`my_malloc(1048576)` has the rounded size 2097152, above the capacity, and still
returns the pointer 65540 and records a used chunk of 2097152 bytes at offset 0; the
very first call `my_malloc(1048577)` reaches the end of `buddy_system` without a
`return`. -/
theorem first_call_too_large_not_refused :
    allocation_size 1048576 = 2097152 ∧
    (my_malloc 1048576 (setup 0 1048576 65536 Mem.init)).map (fun r => r.1) = some 65540 ∧
    (my_malloc 1048576 (setup 0 1048576 65536 Mem.init)).map
      (fun r => shape r.2.first_chunk) = some [(0, 2097152, true), (1048576, 0, false)] ∧
    allocation_size 1048577 = 2097152 ∧
    my_malloc 1048577 (setup 0 1048576 65536 Mem.init) = none := by
  refine ⟨by decide, by decide, by decide, by decide, by decide⟩

theorem later_call_too_large_refused (m : Mem) (n : Int) (htype : m.type = 0)
    (hstart : m.is_start = false) (hbig : allocation_size n > MEM_SIZE) :
    my_malloc n m = some (-1, m) := by
  simp [my_malloc, htype, buddy_system, hstart, find_hole, hbig]

/-! ## Out of memory in buddy mode -/

theorem allocation_size_ge (size : Int) : 1024 ≤ allocation_size size := by
  unfold allocation_size
  simp only [MIN_SIZE_ALLOC]
  split <;> omega

theorem find_exact_none (a sp : Int) (cs : List Chunk)
    (h : ∀ c ∈ cs, ¬ (c.chunk_size = a ∧ c.used = false)) : find_exact a sp cs = none := by
  induction cs with
  | nil => rfl
  | cons c rest ih =>
    have hc := h c (List.mem_cons_self c rest)
    have hr := ih (fun x hx => h x (List.mem_cons_of_mem c hx))
    simp only [find_exact, hc, if_false, hr]

theorem find_split_sentinel (a : Int) (m : Mem) (s : Chunk) (hs : s.start_loc = MEM_SIZE)
    (cs : List Chunk) (h : ∀ c ∈ cs, ¬ (c.used = false ∧ a ≤ c.chunk_size)) (pre : List Chunk) :
    find_split a m pre (cs ++ [s]) = some (-1, m) := by
  induction cs generalizing pre with
  | nil => simp [find_split, hs]
  | cons c rest ih =>
    have hc := h c (List.mem_cons_self c rest)
    have hr := ih (fun x hx => h x (List.mem_cons_of_mem c hx)) (pre ++ [c])
    rw [List.cons_append, find_split.eq_def]
    by_cases h1 : c.start_loc = MEM_SIZE
    · simp [h1]
    · have h2 : a > c.chunk_size ∨ c.used = true := by
        cases hu : c.used
        · left
          exact lt_of_not_ge (fun hle => hc ⟨hu, hle⟩)
        · right; rfl
      simp only [h1, if_false, h2, if_true, hr]

/-- C5. In buddy mode after the first call, when the memory map ends with the
sentinel, the rounded size is at most 1048576 and no chunk before the sentinel is
free with `chunk_size` at least the rounded size, `my_malloc` returns `-1` and leaves
every global (memory map, buddy-pair registry and the rest) as it was. -/
theorem buddy_out_of_memory (m : Mem) (cs : List Chunk) (n : Int)
    (htype : m.type = 0) (hstart : m.is_start = false)
    (hmap : m.first_chunk = cs ++ [create_chunk MEM_SIZE 0 false 0])
    (_hsize : allocation_size n ≤ MEM_SIZE)
    (hfull : ∀ c ∈ cs, ¬ (c.used = false ∧ allocation_size n ≤ c.chunk_size)) :
    my_malloc n m = some (-1, m) := by
  have hge := allocation_size_ge n
  have hex : find_exact (allocation_size n) m.start_ptr m.first_chunk = none := by
    apply find_exact_none
    intro c hc
    rw [hmap, List.mem_append, List.mem_singleton] at hc
    rcases hc with hc | hc
    · intro hh
      exact hfull c hc ⟨hh.2, le_of_eq hh.1.symm⟩
    · subst hc
      intro hh
      simp only [create_chunk] at hh
      omega
  have hsp : find_split (allocation_size n) m [] m.first_chunk = some (-1, m) := by
    rw [hmap]
    exact find_split_sentinel _ m _ rfl cs hfull []
  have hfh : find_hole (allocation_size n) m = some (-1, m) := by
    simp only [find_hole, hex, hsp]
    split <;> rfl
  simp only [my_malloc, htype, if_true, buddy_system, hstart, Bool.false_eq_true, if_false, hfh]

theorem buddy_out_of_memory_witness :
    my_malloc 2000
      { type := 0, size := 1048576, start_ptr := 65536, is_start := false,
        first_chunk := [⟨0, 1048576, true, 65536⟩] ++ [create_chunk MEM_SIZE 0 false 0],
        first_pair := [], first_slab := [] } =
    some (-1,
      { type := 0, size := 1048576, start_ptr := 65536, is_start := false,
        first_chunk := [⟨0, 1048576, true, 65536⟩] ++ [create_chunk MEM_SIZE 0 false 0],
        first_pair := [], first_slab := [] }) :=
  buddy_out_of_memory _ [⟨0, 1048576, true, 65536⟩] 2000 rfl rfl rfl (by decide) (by decide)

/-! ## Block sizes -/

theorem two_pow_bounds (k lo hi : Nat) (h1 : (2 : Int) ^ lo ≤ 2 ^ k)
    (h2 : (2 : Int) ^ k ≤ 2 ^ hi) : lo ≤ k ∧ k ≤ hi := by
  constructor
  · by_contra hcon
    have : (2 : Int) ^ (k + 1) ≤ 2 ^ lo := pow_le_pow_right₀ (by norm_num) (by omega)
    rw [pow_succ] at this
    have hp : (0 : Int) < 2 ^ k := by positivity
    omega
  · by_contra hcon
    have : (2 : Int) ^ (hi + 1) ≤ 2 ^ k := pow_le_pow_right₀ (by norm_num) (by omega)
    rw [pow_succ] at this
    have hp : (0 : Int) < 2 ^ hi := by positivity
    omega

theorem allocation_size_pow (x : Int) (h1 : 1 ≤ x + 4) (h2 : x + 4 ≤ 1073741824) :
    ∃ j : Nat, 10 ≤ j ∧ j ≤ 30 ∧ allocation_size x = 2 ^ j ∧ x + 4 ≤ 2 ^ j ∧
      allocation_size x = max 1024 (next_power_of_2 (x + 4)) := by
  have hw : wrap32 (x + OFFSET) = x + 4 := by
    simp only [OFFSET]
    rw [wrap32_of_range] <;> omega
  obtain ⟨k, hk30, hk, hle, _⟩ := next_power_of_2_bounds (x + 4) h1 h2
  unfold allocation_size
  rw [hw, hk]
  simp only [MIN_SIZE_ALLOC]
  by_cases hs : (2 : Int) ^ k < 1024
  · refine ⟨10, by omega, by omega, ?_, ?_, ?_⟩
    · simp only [hs, if_true]; norm_num
    · norm_num; omega
    · simp only [hs, if_true]
      rw [max_eq_left (le_of_lt hs)]
  · have hb := two_pow_bounds k 10 k (by norm_num; omega) (le_refl _)
    refine ⟨k, hb.1, hk30, by simp only [hs, if_false], hle, ?_⟩
    simp only [hs, if_false]
    rw [max_eq_right (by omega)]

theorem next_power_of_2_two_pow (k : Nat) (hk : k ≤ 30) :
    next_power_of_2 (2 ^ k) = 2 ^ k := by
  interval_cases k <;> decide

theorem slab_sizes (n : Int) (hn : 0 ≤ n) (hr : 64 * (n + 4) ≤ 1073741824)
    (hB : next_power_of_2 (64 * (n + 4)) ≤ 1048576) :
    ∃ j : Nat, 10 ≤ j ∧ j ≤ 20 ∧
      wrap32 (n + OFFSET) = n + 4 ∧
      slab_block_size n = next_power_of_2 (64 * (n + 4)) ∧
      wrap32 (slab_block_size n - OFFSET) ≤ MEM_SIZE ∧
      allocation_size (wrap32 (slab_block_size n - OFFSET)) = 2 ^ j ∧
      (2 : Int) ^ j = max 1024 (next_power_of_2 (64 * (n + 4))) ∧
      64 * (n + 4) ≤ 2 ^ j := by
  have hw : wrap32 (n + OFFSET) = n + 4 := by
    simp only [OFFSET]
    rw [wrap32_of_range] <;> omega
  have hw2 : wrap32 ((n + 4) * N_OBJS_PER_SLAB) = 64 * (n + 4) := by
    simp only [N_OBJS_PER_SLAB]
    rw [wrap32_of_range] <;> omega
  have hbs : slab_block_size n = next_power_of_2 (64 * (n + 4)) := by
    unfold slab_block_size
    rw [hw, hw2]
  obtain ⟨k, hk30, hk, hle, _⟩ := next_power_of_2_bounds (64 * (n + 4)) (by omega) hr
  rw [hk] at hB
  have hkb := two_pow_bounds k 0 20
    (by have : (0 : Int) < 2 ^ k := by positivity
        norm_num; omega) (by norm_num; exact hB)
  have hw3 : wrap32 (slab_block_size n - OFFSET) = 2 ^ k - 4 := by
    rw [hbs, hk]
    simp only [OFFSET]
    have hp : (0 : Int) < 2 ^ k := by positivity
    rw [wrap32_of_range] <;> omega
  have hw4 : wrap32 ((2 : Int) ^ k - 4 + OFFSET) = 2 ^ k := by
    simp only [OFFSET]
    have hp : (0 : Int) < 2 ^ k := by positivity
    rw [wrap32_of_range] <;> omega
  have hal : allocation_size (wrap32 (slab_block_size n - OFFSET)) =
      max 1024 ((2 : Int) ^ k) := by
    unfold allocation_size
    rw [hw3, hw4, next_power_of_2_two_pow k hk30]
    simp only [MIN_SIZE_ALLOC]
    by_cases hs : (2 : Int) ^ k < 1024
    · simp only [hs, if_true]
      rw [max_eq_left (le_of_lt hs)]
    · simp only [hs, if_false]
      rw [max_eq_right (by omega)]
  by_cases hs : (2 : Int) ^ k < 1024
  · refine ⟨10, by omega, by omega, hw, hbs, ?_, ?_, ?_, ?_⟩
    · rw [hw3]; simp only [MEM_SIZE]; omega
    · rw [hal, max_eq_left (le_of_lt hs)]; norm_num
    · rw [hk, max_eq_left (le_of_lt hs)]; norm_num
    · norm_num; omega
  · have hb := two_pow_bounds k 10 k (by norm_num; omega) (le_refl _)
    refine ⟨k, hb.1, hkb.2, hw, hbs, ?_, ?_, ?_, hle⟩
    · rw [hw3]; simp only [MEM_SIZE]; omega
    · rw [hal, max_eq_right (by omega)]
    · rw [hk, max_eq_right (by omega)]

/-! ## The first `buddy_system` call -/

theorem buddy_genesis (m : Mem) (size : Int) (j : Nat) (hj1 : 10 ≤ j) (hj2 : j ≤ 19)
    (hstart : m.is_start = true) (hsize : size ≤ MEM_SIZE)
    (hA : allocation_size size = 2 ^ j) :
    buddy_system size m = some (m.start_ptr + 4,
      { m with
        is_start := false,
        first_chunk := ⟨0, 2 ^ j, true, m.start_ptr⟩ ::
          (rungs m.start_ptr (20 - j) (2 ^ j) ++ [create_chunk MEM_SIZE 0 false 0]),
        first_pair := rung_pairs (20 - j) (2 ^ j) }) := by
  simp only [buddy_system, hstart, hsize, hA, if_true]
  interval_cases j <;> rfl

theorem buddy_genesis_full (m : Mem) (size : Int)
    (hstart : m.is_start = true) (hsize : size ≤ MEM_SIZE)
    (hA : allocation_size size = 2 ^ 20) :
    buddy_system size m = some (m.start_ptr + 4,
      { m with
        is_start := false,
        first_chunk := [⟨0, 2 ^ 20, true, m.start_ptr⟩, create_chunk MEM_SIZE 0 false 0] }) := by
  simp only [buddy_system, hstart, hsize, hA, if_true]
  rfl

theorem rungs_succ (b : Int) (k : Nat) (p : Int) :
    rungs b (k + 1) p = ⟨p, p, false, b + p⟩ :: rungs b k (p * 2) := rfl

/-! ## Buddy scenario -/

/-- C6. In buddy mode with region base `b ≥ 0`, for every `n ≥ 0` with `n + 4` in the
supported range of `next_power_of_2` and `A = max(1024, next_power_of_2(n + 4))` at
most 524288, the first `my_malloc(n)` returns `b + 4` and the map starts with the used
chunk `(0, A)`; a following `my_malloc(n2)` whose rounded size is `A` returns
`b + A + 4` and the map starts with the used chunks `(0, A)` and `(A, A)`. -/
theorem buddy_scenario (b sz n n2 : Int) (hb : 0 ≤ b) (hn : 0 ≤ n)
    (hr : n + 4 ≤ 2 ^ 30)
    (hA : max 1024 (next_power_of_2 (n + 4)) ≤ 524288)
    (hsame : allocation_size n2 = max 1024 (next_power_of_2 (n + 4))) :
    (run [Call.malloc n] (setup 0 sz b Mem.init) []).map
        (fun r => (r.2, (shape r.1.first_chunk).take 1)) =
      some ([b + 4], [(0, max 1024 (next_power_of_2 (n + 4)), true)]) ∧
    (run [Call.malloc n, Call.malloc n2] (setup 0 sz b Mem.init) []).map
        (fun r => (r.2, (shape r.1.first_chunk).take 2)) =
      some ([b + 4, b + max 1024 (next_power_of_2 (n + 4)) + 4],
        [(0, max 1024 (next_power_of_2 (n + 4)), true),
         (max 1024 (next_power_of_2 (n + 4)), max 1024 (next_power_of_2 (n + 4)), true)]) := by
  obtain ⟨j, hj1, _, hAj, hle, hmax⟩ :=
    allocation_size_pow n (by omega) (by norm_num at hr; omega)
  rw [← hmax] at hA hsame ⊢
  rw [hAj] at hA hsame ⊢
  have hj2 : j ≤ 19 := (two_pow_bounds j 0 19
    (by have : (0 : Int) < 2 ^ j := by positivity
        norm_num; omega) (by norm_num; exact hA)).2
  have hpos : (1024 : Int) ≤ 2 ^ j := by
    have := pow_le_pow_right₀ (show (1 : Int) ≤ 2 by norm_num) hj1
    norm_num at this ⊢
    exact this
  have hgen := buddy_genesis (setup 0 sz b Mem.init) n j hj1 hj2 rfl
    (by simp only [MEM_SIZE]; omega) hAj
  have hk : 20 - j = (19 - j) + 1 := by omega
  rw [hk, rungs_succ] at hgen
  have h1 : my_malloc n (setup 0 sz b Mem.init) = buddy_system n (setup 0 sz b Mem.init) := by
    simp [my_malloc, setup]
  constructor
  · simp only [run, h1, hgen]
    simp [shape, setup]
  · simp only [run, h1, hgen]
    have h2 : ∀ m1 : Mem, m1.type = 0 → m1.is_start = false → m1.start_ptr = b →
        ∀ rest, m1.first_chunk = ⟨0, 2 ^ j, true, b⟩ :: ⟨2 ^ j, 2 ^ j, false, b + 2 ^ j⟩ :: rest →
        my_malloc n2 m1 = some (b + 2 ^ j + 4,
          { m1 with first_chunk :=
            ⟨0, 2 ^ j, true, b⟩ :: ⟨2 ^ j, 2 ^ j, true, b + 2 ^ j⟩ :: rest }) := by
      intro m1 ht hs hp rest hfc
      have hnot : ¬ ((2 : Int) ^ j > MEM_SIZE) := by simp only [MEM_SIZE]; omega
      have hne : ¬ (b + (2 : Int) ^ j = -1) := by omega
      simp only [my_malloc, ht, if_true, buddy_system, hs, Bool.false_eq_true, if_false, hsame,
        find_hole, hnot, hfc, find_exact, hp]
      simp [hne]
    rw [h2 _ rfl rfl rfl _ rfl]
    simp [shape, setup]

theorem buddy_scenario_witness :
    (run [Call.malloc 2000, Call.malloc 2000] (setup 0 1048576 65536 Mem.init) []).map
        (fun r => (r.2, (shape r.1.first_chunk).take 2)) =
      some ([65536 + 4, 65536 + max 1024 (next_power_of_2 (2000 + 4)) + 4],
        [(0, max 1024 (next_power_of_2 (2000 + 4)), true),
         (max 1024 (next_power_of_2 (2000 + 4)), max 1024 (next_power_of_2 (2000 + 4)), true)]) :=
  (buddy_scenario 65536 1048576 2000 2000 (by decide) (by decide) (by decide) (by decide)
    (by decide)).2

/-! ## List lemmas for the memory map primitives -/

theorem new_chunk_walk_mid (tmp : Chunk) (loc : Int) (pre tail : List Chunk) (s : Chunk)
    (hpre : ∀ x ∈ pre, x.start_loc < loc) (htail : ∀ t ∈ tail, ¬ t.start_loc < loc) :
    new_chunk_walk tmp loc s (pre ++ tail) = s :: (pre ++ tmp :: tail) := by
  induction pre generalizing s with
  | nil =>
    cases tail with
    | nil => rfl
    | cons t rest =>
      have ht := htail t (List.mem_cons_self t rest)
      simp [new_chunk_walk, ht]
  | cons x pre ih =>
    have hx := hpre x (List.mem_cons_self x pre)
    have := ih x (fun y hy => hpre y (List.mem_cons_of_mem x hy))
    simp [new_chunk_walk, hx, this]

theorem new_chunk_mid (hd : Chunk) (pre tail : List Chunk) (loc size : Int) (used : Bool)
    (ptr : Int) (hhd : ¬ hd.start_loc > loc) (hpre : ∀ x ∈ pre, x.start_loc < loc)
    (htail : ∀ t ∈ tail, ¬ t.start_loc < loc) :
    new_chunk (hd :: (pre ++ tail)) loc size used ptr =
      some (hd :: (pre ++ ⟨loc, size, used, ptr⟩ :: tail)) := by
  simp only [new_chunk, hhd, if_false, create_chunk]
  rw [new_chunk_walk_mid _ _ _ _ _ hpre htail]

theorem walk_ptr_mid (p : Int) (pre rest : List Chunk) (x : Chunk) (i : Nat)
    (hpre : ∀ u ∈ pre, u.val_ptr ≠ p) (hx : x.val_ptr = p) :
    walk_ptr p (pre ++ x :: rest) i = some (i + pre.length) := by
  induction pre generalizing i with
  | nil => simp [walk_ptr, hx]
  | cons u pre ih =>
    have hu := hpre u (List.mem_cons_self u pre)
    have := ih (i + 1) (fun y hy => hpre y (List.mem_cons_of_mem u hy))
    rw [List.cons_append, walk_ptr, if_pos hu, this, List.length_cons]
    congr 1
    omega

theorem walk_loc_mid (loc : Int) (pre rest : List Chunk) (x : Chunk) (i : Nat)
    (hpre : ∀ u ∈ pre, u.start_loc ≠ loc) (hx : x.start_loc = loc) :
    walk_loc loc (pre ++ x :: rest) i = some (i + pre.length) := by
  induction pre generalizing i with
  | nil => simp [walk_loc, hx]
  | cons u pre ih =>
    have hu := hpre u (List.mem_cons_self u pre)
    have := ih (i + 1) (fun y hy => hpre y (List.mem_cons_of_mem u hy))
    rw [List.cons_append, walk_loc, if_pos hu, this, List.length_cons]
    congr 1
    omega

theorem getElem?_mid (hd : Chunk) (pre rest : List Chunk) (x : Chunk) :
    (hd :: (pre ++ x :: rest))[1 + pre.length]? = some x := by
  rw [Nat.add_comm, List.getElem?_cons_succ, List.getElem?_append_right (le_refl _)]
  simp

theorem set_mid (hd : Chunk) (pre rest : List Chunk) (x y : Chunk) :
    (hd :: (pre ++ x :: rest)).set (1 + pre.length) y = hd :: (pre ++ y :: rest) := by
  rw [Nat.add_comm, List.set_cons_succ]
  congr 1
  induction pre with
  | nil => rfl
  | cons u pre ih => simp [ih]

theorem slab_scan_mid (cr : Int) (pre rest : List Chunk) (x : Chunk)
    (hpre : ∀ u ∈ pre, u.start_loc < cr ∧ u.used = true)
    (hx : ¬ (x.start_loc < cr ∧ x.used = true)) :
    slab_scan cr (pre ++ x :: rest) = some (pre ++ { x with used := true } :: rest, x.val_ptr) := by
  induction pre with
  | nil => simp [slab_scan, hx]
  | cons u pre ih =>
    have hu := hpre u (List.mem_cons_self u pre)
    have := ih (fun y hy => hpre y (List.mem_cons_of_mem u hy))
    simp [slab_scan, hu, this]

theorem find_exact_mid (a sp : Int) (pre rest : List Chunk) (x : Chunk)
    (hpre : ∀ u ∈ pre, ¬ (u.chunk_size = a ∧ u.used = false))
    (hx : x.chunk_size = a ∧ x.used = false) :
    find_exact a sp (pre ++ x :: rest) =
      some (pre ++ { x with used := true, val_ptr := sp + x.start_loc } :: rest,
        sp + x.start_loc) := by
  induction pre with
  | nil => simp [find_exact, hx]
  | cons u pre ih =>
    have hu := hpre u (List.mem_cons_self u pre)
    have := ih (fun y hy => hpre y (List.mem_cons_of_mem u hy))
    rw [List.cons_append, find_exact]
    simp only [hu, if_false, this]
    rfl

theorem find_chunk_by_ptr_mid (hd : Chunk) (pre rest : List Chunk) (x : Chunk) (p : Int)
    (hhd : hd.val_ptr ≠ p) (hpre : ∀ u ∈ pre, u.val_ptr ≠ p) (hx : x.val_ptr = p)
    (hloc : x.start_loc ≠ MEM_SIZE) :
    find_chunk_by_ptr (hd :: (pre ++ x :: rest)) p = some (1 + pre.length) := by
  have hw : walk_ptr p (hd :: (pre ++ x :: rest)) 0 = some (1 + pre.length) := by
    simp only [walk_ptr, ne_eq, hhd, not_false_eq_true, if_true]
    rw [walk_ptr_mid p pre rest x _ hpre hx]
  simp only [find_chunk_by_ptr, hhd, if_false, hw, getElem?_mid, ne_eq, hloc,
    not_false_eq_true, if_true]

theorem free_slab_chunk_mid (hd : Chunk) (pre rest : List Chunk) (x : Chunk) (p : Int)
    (hhd : hd.val_ptr ≠ p) (hpre : ∀ u ∈ pre, u.val_ptr ≠ p) (hx : x.val_ptr = p)
    (hloc : x.start_loc ≠ MEM_SIZE) :
    free_slab_chunk (hd :: (pre ++ x :: rest)) p =
      hd :: (pre ++ { x with used := false } :: rest) := by
  have hw : walk_ptr p (hd :: (pre ++ x :: rest)) 0 = some (1 + pre.length) := by
    simp only [walk_ptr, ne_eq, hhd, not_false_eq_true, if_true]
    rw [walk_ptr_mid p pre rest x _ hpre hx]
  simp only [free_slab_chunk, hhd, if_false, hw, getElem?_mid, ne_eq, hloc,
    not_false_eq_true, if_true, set_mid]

theorem remove_chunk_second (hd x : Chunk) (rest : List Chunk) (loc : Int)
    (hhd : hd.start_loc ≠ loc) (hx : x.start_loc = loc) (hloc : loc ≠ MEM_SIZE) :
    remove_chunk (hd :: x :: rest) loc = hd :: rest := by
  have hx2 : x.start_loc ≠ MEM_SIZE := by rw [hx]; exact hloc
  simp [remove_chunk, remove_chunk_idx, walk_loc, hhd, hx, hloc]

/-! ## Slot records -/

theorem slots_zero (b c base : Int) (u : Bool) (lo : Nat) : slots b c base u lo 0 = [] := rfl

theorem slots_cons (b c base : Int) (u : Bool) (lo len : Nat) :
    slots b c base u lo (len + 1) = slot b c base u lo :: slots b c base u (lo + 1) len := by
  simp [slots, List.range'_succ]

theorem slots_snoc (b c base : Int) (u : Bool) (lo len : Nat) :
    slots b c base u lo (len + 1) = slots b c base u lo len ++ [slot b c base u (lo + len)] := by
  simp [slots, List.range'_concat]

theorem mem_slots {b c base : Int} {u : Bool} {lo len : Nat} {x : Chunk}
    (h : x ∈ slots b c base u lo len) : ∃ i, lo ≤ i ∧ i < lo + len ∧ x = slot b c base u i := by
  simp only [slots, List.mem_map, List.mem_range'_1] at h
  obtain ⟨i, ⟨h1, h2⟩, h3⟩ := h
  exact ⟨i, h1, h2, h3.symm⟩

theorem slots_length (b c base : Int) (u : Bool) (lo len : Nat) :
    (slots b c base u lo len).length = len := by
  simp [slots]

theorem mul_lt_of_lt {i a : Nat} {c : Int} (hc : 0 < c) (h : i < a) : (i : Int) * c < a * c :=
  mul_lt_mul_of_pos_right (by exact_mod_cast h) hc

theorem mul_le_of_le {i a : Nat} {c : Int} (hc : 0 < c) (h : i ≤ a) : (i : Int) * c ≤ a * c :=
  mul_le_mul_of_nonneg_right (by exact_mod_cast h) (le_of_lt hc)

theorem rungs_ge (b : Int) (k : Nat) (p : Int) (hp : 0 ≤ p) :
    ∀ t ∈ rungs b k p, p ≤ t.start_loc := by
  induction k generalizing p with
  | zero => intro t ht; simp [rungs] at ht
  | succ k ih =>
    intro t ht
    rw [rungs_succ, List.mem_cons] at ht
    rcases ht with h | h
    · rw [h]
    · have := ih (p * 2) (by omega) t h
      omega

theorem rung_pairs_spec (k : Nat) (p : Int) (hp : 0 ≤ p) :
    ∀ q ∈ rung_pairs k p, q.b1_loc = 0 ∧ p ≤ q.b2_loc := by
  induction k generalizing p with
  | zero => intro q hq; simp [rung_pairs] at hq
  | succ k ih =>
    intro q hq
    simp only [rung_pairs, List.mem_cons] at hq
    rcases hq with h | h
    · rw [h]; exact ⟨rfl, le_refl _⟩
    · have := ih (p * 2) (by omega) q h
      exact ⟨this.1, by omega⟩

/-! ## Slab mode: the first slab -/

theorem slot_start_loc (b c base : Int) (u : Bool) (i : Nat) :
    (slot b c base u i).start_loc = base + 8 + i * c := rfl

theorem slot_val_ptr (b c base : Int) (u : Bool) (i : Nat) :
    (slot b c base u i).val_ptr = b + (base + 8 + i * c) := rfl

theorem slot_chunk_size (b c base : Int) (u : Bool) (i : Nat) :
    (slot b c base u i).chunk_size = c := rfl

theorem slot_used (b c base : Int) (u : Bool) (i : Nat) : (slot b c base u i).used = u := rfl

theorem slab_genesis_loop_fill (b n c A : Int) (hd : Chunk) (tail : List Chunk)
    (hc : 4 ≤ c) (hcA : 64 * c ≤ A) (hA1 : 1024 ≤ A) (hA2 : A ≤ 1048576)
    (hw : wrap32 (n + OFFSET) = c) (hhd : hd.start_loc = 0)
    (htail : ∀ t ∈ tail, A ≤ t.start_loc) (k a : Nat) (ha : 1 ≤ a) (hak : a + k = 64) :
    slab_genesis_loop b n k a
        (hd :: (slots b c 0 true 0 1 ++ (slots b c 0 false 1 (a - 1) ++ tail))) =
      some (hd :: (slots b c 0 true 0 1 ++ (slots b c 0 false 1 63 ++ tail))) := by
  induction k generalizing a with
  | zero =>
    have : a - 1 = 63 := by omega
    rw [this]
    rfl
  | succ k ih =>
    have hac : (a : Int) * c ≤ (63 : Nat) * c := mul_le_of_le (by omega) (by omega)
    have hac0 : (0 : Int) ≤ (a : Int) * c := by positivity
    have hloc : wrap32 (2 * OFFSET + (a : Int) * c) = 0 + 8 + a * c := by
      simp only [OFFSET]
      rw [wrap32_of_range] <;> push_cast at hac <;> omega
    rw [slab_genesis_loop]
    simp only [hw, hloc]
    rw [← List.append_assoc,
      new_chunk_mid hd _ tail (0 + 8 + a * c) c false (b + (0 + 8 + a * c)) (by omega)]
    · have hsn : slots b c 0 false 1 (a - 1) ++ [slot b c 0 false a] =
          slots b c 0 false 1 (a + 1 - 1) := by
        have h1 : a + 1 - 1 = (a - 1) + 1 := by omega
        have h2 : 1 + (a - 1) = a := by omega
        rw [h1, slots_snoc, h2]
      have := ih (a + 1) (by omega) (by omega)
      rw [← hsn] at this
      simp only [List.append_assoc, List.singleton_append] at this ⊢
      push_cast at this
      exact this
    · intro x hx
      rw [List.mem_append] at hx
      rcases hx with hx | hx
      · obtain ⟨i, _, hi2, rfl⟩ := mem_slots hx
        have := mul_lt_of_lt (c := c) (by omega) (show i < a by omega)
        rw [slot_start_loc]
        omega
      · obtain ⟨i, _, hi2, rfl⟩ := mem_slots hx
        have := mul_lt_of_lt (c := c) (by omega) (show i < a by omega)
        rw [slot_start_loc]
        omega
    · intro t ht
      have := htail t ht
      push_cast at hac
      omega

theorem slab_first_spec (b sz n c : Int) (j : Nat) (tail : List Chunk) (pairs : List Buddies)
    (m : Mem)
    (hc : 4 ≤ c) (hcA : 64 * c ≤ 2 ^ j) (hA1 : (1024 : Int) ≤ 2 ^ j)
    (hA2 : (2 : Int) ^ j ≤ 1048576)
    (hw : wrap32 (n + OFFSET) = c)
    (hgen : buddy_system (wrap32 (slab_block_size n - OFFSET)) m = some (b + 4,
      { type := 1, size := sz, start_ptr := b, is_start := false,
        first_chunk := ⟨0, 2 ^ j, true, b⟩ :: tail, first_pair := pairs,
        first_slab := m.first_slab }))
    (htail : ∀ t ∈ tail, (2 : Int) ^ j ≤ t.start_loc) :
    slab_first n (slab_block_size n) m =
      some (b + 8, slab_mem1 b sz c (2 ^ j) tail pairs 1) := by
  have hslab : new_slab [create_slab b c 1] 0 0 0 = some [⟨0, 0, 0⟩, ⟨b, c, 1⟩] := by
    have : (create_slab b c 1).chunk_size > 0 := by simp only [create_slab]; omega
    simp only [new_slab, this, if_true]
    rfl
  have hfirst : new_chunk (⟨0, 2 ^ j, true, b⟩ :: tail) (2 * OFFSET) c true (b + 2 * OFFSET) =
      some (⟨0, 2 ^ j, true, b⟩ :: (slots b c 0 true 0 1 ++ (slots b c 0 false 1 (1 - 1) ++ tail))) := by
    have := new_chunk_mid ⟨0, 2 ^ j, true, b⟩ [] tail (2 * OFFSET) c true (b + 2 * OFFSET)
      (by simp) (by simp)
      (by intro t ht; have := htail t ht; simp only [OFFSET]; omega)
    simp only [List.nil_append] at this
    rw [this]
    simp [slots, slot, OFFSET]
  have hfill := slab_genesis_loop_fill b n c (2 ^ j) ⟨0, 2 ^ j, true, b⟩ tail hc hcA hA1 hA2 hw rfl
    htail 63 1 (le_refl 1) rfl
  simp only [slab_first, hgen, hw, hslab, hfirst]
  simp only [Nat.cast_one] at hfill
  rw [hfill]
  simp only [slab_mem1, OFFSET, Option.some.injEq, Prod.mk.injEq]
  refine ⟨by omega, ?_⟩
  rfl

theorem slab_alloc_step (b sz n c A : Int) (tail : List Chunk) (pairs : List Buddies) (k : Nat)
    (hk : k < 64) (hc : 4 ≤ c) (hcA : 64 * c ≤ A) (hA2 : A ≤ 1048576)
    (hw : wrap32 (n + OFFSET) = c) (hB : ¬ slab_block_size n > MEM_SIZE) :
    my_malloc n (slab_mem1 b sz c A tail pairs k) =
      some (b + (0 + 8 + k * c), slab_mem1 b sz c A tail pairs (k + 1)) := by
  have hfs : find_slab [⟨0, 0, 0⟩, ⟨b, c, (k : Int)⟩] c = some 1 := by
    have h0 : ¬ ((0 : Int) = c) := by omega
    have hk64 : ¬ ((k : Int) = 64) := by omega
    simp [find_slab, find_slab_walk, h0, hk64]
  have hcr : wrap32 (N_OBJS_PER_SLAB * c) = 64 * c := by
    simp only [N_OBJS_PER_SLAB]
    rw [wrap32_of_range] <;> omega
  have h64 : 64 - k = (63 - k) + 1 := by omega
  have hscan : slab_scan (0 + 2 * OFFSET + 64 * c)
      (slots b c 0 true 0 k ++ (slots b c 0 false k (64 - k) ++ tail)) =
      some (slots b c 0 true 0 (k + 1) ++ (slots b c 0 false (k + 1) (64 - (k + 1)) ++ tail),
        b + (0 + 8 + k * c)) := by
    rw [h64, slots_cons, List.cons_append, slab_scan_mid]
    · have h1 : 64 - (k + 1) = 63 - k := by omega
      rw [h1, slots_snoc, List.append_assoc]
      simp [slot]
    · intro u hu
      obtain ⟨i, _, hi2, rfl⟩ := mem_slots hu
      have := mul_lt_of_lt (c := c) (by omega) (show i < 64 by omega)
      rw [slot_start_loc, slot_used]
      simp only [OFFSET]
      exact ⟨by omega, trivial⟩
    · rw [slot_used]
      simp
  simp only [my_malloc, slab_mem1, slab_alloc, hB, if_false, if_true, hw, hfs, slab_take]
  simp only [show ¬ ((1 : Int) = 0) by decide, if_false, Bool.false_eq_true]
  simp only [List.getElem?_cons_succ, List.getElem?_cons_zero, find_chunk_by_ptr, if_true, hcr,
    List.drop_succ_cons, List.drop_zero, hscan]
  simp

theorem buddy_genesis_init (ty sz b size : Int) (j : Nat) (hj1 : 10 ≤ j) (hj2 : j ≤ 20)
    (hsize : size ≤ MEM_SIZE) (hA : allocation_size size = 2 ^ j) :
    buddy_system size (setup ty sz b Mem.init) = some (b + 4,
      { type := ty, size := sz, start_ptr := b, is_start := false,
        first_chunk := ⟨0, 2 ^ j, true, b⟩ ::
          (rungs b (20 - j) (2 ^ j) ++ [create_chunk MEM_SIZE 0 false 0]),
        first_pair := rung_pairs (20 - j) (2 ^ j),
        first_slab := [] }) := by
  rcases Nat.lt_or_ge j 20 with h | h
  · rw [buddy_genesis _ size j hj1 (by omega) rfl hsize hA]
    rfl
  · have hj : j = 20 := by omega
    subst hj
    rw [buddy_genesis_full _ size rfl hsize hA]
    rfl

theorem genesis_tail_ge (b : Int) (j : Nat) :
    ∀ t ∈ rungs b (20 - j) (2 ^ j) ++ [create_chunk MEM_SIZE 0 false 0],
      t.start_loc = MEM_SIZE ∨ (2 : Int) ^ j ≤ t.start_loc := by
  intro t ht
  rw [List.mem_append, List.mem_singleton] at ht
  rcases ht with h | h
  · right
    exact rungs_ge b _ _ (by positivity) t h
  · left
    rw [h]
    rfl

theorem run_slab_mallocs (b sz n c A : Int) (tail : List Chunk) (pairs : List Buddies)
    (hc : 4 ≤ c) (hcA : 64 * c ≤ A) (hA2 : A ≤ 1048576)
    (hw : wrap32 (n + OFFSET) = c) (hB : ¬ slab_block_size n > MEM_SIZE)
    (r k : Nat) (ps : List Int) (hk : k + r ≤ 64) :
    run (List.replicate r (Call.malloc n)) (slab_mem1 b sz c A tail pairs k) ps =
      some (slab_mem1 b sz c A tail pairs (k + r),
        ps ++ (List.range' k r).map (fun (i : Nat) => b + 8 + (i : Int) * c)) := by
  induction r generalizing k ps with
  | zero => simp [run]
  | succ r ih =>
    rw [List.replicate_succ, run, slab_alloc_step b sz n c A tail pairs k (by omega) hc hcA hA2 hw hB]
    simp only []
    rw [ih (k + 1) _ (by omega)]
    simp [List.range'_succ, Nat.add_assoc, Nat.add_comm 1 r, add_assoc]

theorem map_range_succ (f : Nat → Int) (r : Nat) :
    f 0 :: (List.range' 1 r).map f = (List.range (r + 1)).map f := by
  rw [List.range_eq_range', List.range'_succ]
  simp

theorem slab_pointers_nodup (b c : Int) (hc : 4 ≤ c) (k : Nat) :
    ((List.range k).map (fun (i : Nat) => b + 8 + (i : Int) * c)).Nodup := by
  apply List.Nodup.map _ (List.nodup_range k)
  intro i j hij
  simp only [add_right_inj] at hij
  have hc0 : c ≠ 0 := by omega
  have := mul_right_cancel₀ hc0 hij
  exact_mod_cast this

theorem slab_first_run (b sz n : Int) (hn : 0 ≤ n) (hr : 64 * (n + 4) ≤ 1073741824)
    (hB : next_power_of_2 (64 * (n + 4)) ≤ 1048576) :
    ∃ j : Nat, 10 ≤ j ∧ j ≤ 20 ∧
      (2 : Int) ^ j = max 1024 (next_power_of_2 (64 * (n + 4))) ∧
      64 * (n + 4) ≤ 2 ^ j ∧ wrap32 (n + OFFSET) = n + 4 ∧
      ¬ slab_block_size n > MEM_SIZE ∧
      allocation_size (wrap32 (slab_block_size n - OFFSET)) = 2 ^ j ∧
      my_malloc n (setup 1 sz b Mem.init) = some (b + 8,
        slab_mem1 b sz (n + 4) (2 ^ j)
          (rungs b (20 - j) (2 ^ j) ++ [create_chunk MEM_SIZE 0 false 0])
          (rung_pairs (20 - j) (2 ^ j)) 1) := by
  obtain ⟨j, hj1, hj2, hw, hbs, hle, hal, hmax, hcA⟩ := slab_sizes n hn hr hB
  have hnB : ¬ slab_block_size n > MEM_SIZE := by
    rw [hbs]
    simp only [MEM_SIZE]
    omega
  have hA1 : (1024 : Int) ≤ 2 ^ j := by
    rw [hmax]
    exact le_max_left _ _
  have hA2 : (2 : Int) ^ j ≤ 1048576 := by
    rw [hmax]
    exact max_le (by norm_num) hB
  refine ⟨j, hj1, hj2, hmax, hcA, hw, hnB, hal, ?_⟩
  have hgen := buddy_genesis_init 1 sz b _ j hj1 hj2 hle hal
  have hfirst := slab_first_spec b sz n (n + 4) j _ _ (setup 1 sz b Mem.init)
    (by omega) hcA hA1 hA2 hw hgen
    (by
      intro t ht
      rcases genesis_tail_ge b j t ht with h | h
      · rw [h]; simp only [MEM_SIZE]; omega
      · exact h)
  simp only [my_malloc, slab_alloc, hnB, if_false]
  simp only [setup, Mem.init, show ¬ ((1 : Int) = 0) by decide, if_false, if_true]
  exact hfirst

/-- C7. In slab mode with region base `b`, for every `n ≥ 0` with `64 * (n + 4)` in the
supported range of `next_power_of_2` and `next_power_of_2(64 * (n + 4)) ≤ 1048576`, and
every `k` with `1 ≤ k ≤ 64`, the first `k` calls `my_malloc(n)` return the pointers
`b + 8 + i * (n + 4)` for `i = 0, ..., k - 1`, which are pairwise distinct, and
afterwards the slab registry is the dummy followed by one record of class `n + 4`
with allocated count `k`. -/
theorem slab_scenario (b sz n : Int) (k : Nat) (hn : 0 ≤ n) (hr : 64 * (n + 4) ≤ 2 ^ 30)
    (hB : next_power_of_2 (64 * (n + 4)) ≤ 1048576) (hk1 : 1 ≤ k) (hk2 : k ≤ 64) :
    (run (List.replicate k (Call.malloc n)) (setup 1 sz b Mem.init) []).map
        (fun r => (r.2, r.1.first_slab)) =
      some ((List.range k).map (fun (i : Nat) => b + 8 + (i : Int) * (n + 4)),
        [⟨0, 0, 0⟩, ⟨b, n + 4, k⟩]) ∧
    ((List.range k).map (fun (i : Nat) => b + 8 + (i : Int) * (n + 4))).Nodup := by
  refine ⟨?_, slab_pointers_nodup b (n + 4) (by omega) k⟩
  obtain ⟨j, _, _, hmax, hcA, hw, hnB, _, hfirst⟩ :=
    slab_first_run b sz n hn (by norm_num at hr; exact hr) hB
  have hA2 : (2 : Int) ^ j ≤ 1048576 := by
    rw [hmax]
    exact max_le (by norm_num) hB
  obtain ⟨r, rfl⟩ : ∃ r, k = r + 1 := ⟨k - 1, by omega⟩
  rw [List.replicate_succ, run, hfirst]
  simp only []
  rw [run_slab_mallocs b sz n (n + 4) (2 ^ j) _ _ (by omega) hcA hA2 hw hnB r 1 _ (by omega)]
  simp only [Option.map_some', slab_mem1, Option.some.injEq, Prod.mk.injEq]
  refine ⟨?_, by simp [Nat.add_comm]⟩
  rw [← map_range_succ (fun (i : Nat) => b + 8 + (i : Int) * (n + 4)) r]
  simp

theorem slab_scenario_witness :
    (run (List.replicate 5 (Call.malloc 12)) (setup 1 1048576 65536 Mem.init) []).map
        (fun r => (r.2, r.1.first_slab)) =
      some ((List.range 5).map (fun (i : Nat) => 65536 + 8 + (i : Int) * (12 + 4)),
        [⟨0, 0, 0⟩, ⟨65536, 12 + 4, (5 : Nat)⟩]) :=
  (slab_scenario 65536 1048576 12 5 (by decide) (by decide) (by decide) (by decide)
    (by decide)).1

/-! ## Slab mode: the second slab -/

theorem slab_slots_loop_fill (b n c A : Int) (hd : Chunk) (pre tail : List Chunk)
    (hc : 4 ≤ c) (hcA : 64 * c ≤ A) (hA1 : 1024 ≤ A) (hA2 : A ≤ 524288)
    (hw : wrap32 (n + OFFSET) = c) (hhd : hd.start_loc = 0)
    (hpre : ∀ x ∈ pre, x.start_loc < A + 8)
    (htail : ∀ t ∈ tail, 2 * A ≤ t.start_loc) (k a : Nat) (hak : a + k = 63) :
    slab_slots_loop b n k (A + 8 + a * c)
        (hd :: (pre ++ (slots b c A true 0 1 ++ (slots b c A false 1 a ++ tail)))) =
      some (hd :: (pre ++ (slots b c A true 0 1 ++ (slots b c A false 1 63 ++ tail)))) := by
  induction k generalizing a with
  | zero =>
    have : a = 63 := by omega
    rw [this]
    rfl
  | succ k ih =>
    have hac : (a : Int) * c ≤ (62 : Nat) * c := mul_le_of_le (by omega) (by omega)
    have hac0 : (0 : Int) ≤ (a : Int) * c := by positivity
    push_cast at hac
    have hloc : A + 8 + (a : Int) * c + c = A + 8 + ((1 + a : Nat) : Int) * c := by
      push_cast
      ring
    rw [slab_slots_loop]
    simp only [hw, hloc]
    have hassoc : hd :: (pre ++ (slots b c A true 0 1 ++ (slots b c A false 1 a ++ tail))) =
        hd :: ((pre ++ (slots b c A true 0 1 ++ slots b c A false 1 a)) ++ tail) := by
      simp only [List.append_assoc]
    have hcast : ((1 + a : Nat) : Int) * c = c + a * c := by
      push_cast
      ring
    rw [hassoc, new_chunk_mid hd _ tail _ c false _ (by rw [hhd, hcast]; omega)]
    · have := ih (a + 1) (by omega)
      rw [slots_snoc b c A false 1 a] at this
      have hcast2 : A + 8 + ((a + 1 : Nat) : Int) * c = A + 8 + ((1 + a : Nat) : Int) * c := by
        push_cast
        ring
      rw [hcast2] at this
      simp only [List.append_assoc, List.singleton_append, slot] at this ⊢
      exact this
    · intro x hx
      rw [hcast]
      rw [List.mem_append, List.mem_append] at hx
      rcases hx with hx | hx | hx
      · have := hpre x hx
        omega
      · obtain ⟨i, _, hi2, rfl⟩ := mem_slots hx
        have hi0 : i = 0 := by omega
        subst hi0
        rw [slot_start_loc]
        simp only [Nat.cast_zero, zero_mul]
        omega
      · obtain ⟨i, _, hi2, rfl⟩ := mem_slots hx
        have := mul_lt_of_lt (c := c) (by omega) (show i < 1 + a by omega)
        rw [slot_start_loc]
        push_cast at this
        have h1 : (1 + (a : Int)) * c = c + a * c := by ring
        omega
    · intro t ht
      have := htail t ht
      rw [hcast]
      omega

theorem find_slab_full (b c : Int) (hc : 4 ≤ c) :
    find_slab [⟨0, 0, 0⟩, ⟨b, c, 64⟩] c = none := by
  have h0 : ¬ ((0 : Int) = c) := by omega
  simp [find_slab, find_slab_walk, h0]

theorem new_slab_second (b c x : Int) (hc : 4 ≤ c) :
    new_slab [⟨0, 0, 0⟩, ⟨b, c, 64⟩] x c 1 =
      some [⟨0, 0, 0⟩, ⟨b, c, 64⟩, ⟨x, c, 1⟩] := by
  have h0 : ¬ ((0 : Int) > c) := by omega
  simp [new_slab, new_slab_walk, h0, create_slab]

theorem slab_grow_step (b sz n c A : Int) (tail : List Chunk) (pairs : List Buddies)
    (hb : 0 ≤ b) (hc : 4 ≤ c) (hcA : 64 * c ≤ A) (hA1 : 1024 ≤ A) (hA2 : A ≤ 524288)
    (hw : wrap32 (n + OFFSET) = c) (hB : ¬ slab_block_size n > MEM_SIZE)
    (hal : allocation_size (wrap32 (slab_block_size n - OFFSET)) = A)
    (htail : ∀ t ∈ tail, 2 * A ≤ t.start_loc) :
    my_malloc n (slab_mem1 b sz c A (⟨A, A, false, b + A⟩ :: tail) pairs 64) =
      some (b + A + 8, slab_mem2 b sz c A tail pairs 0) := by
  have hcast : ((64 : Nat) : Int) = 64 := rfl
  have hfull := find_slab_full b c hc
  have hslots_start : ∀ x ∈ slots b c 0 true 0 64, x.start_loc < A ∧ x.val_ptr ≠ b + A ∧
      x.used = true := by
    intro x hx
    obtain ⟨i, _, hi2, rfl⟩ := mem_slots hx
    have h1 := mul_le_of_le (c := c) (by omega) (show i ≤ 63 by omega)
    have h2 : (0 : Int) ≤ (i : Int) * c := by positivity
    push_cast at h1
    rw [slot_start_loc, slot_val_ptr, slot_used]
    refine ⟨by omega, by omega, rfl⟩
  -- the block search of `find_hole`
  have hexact : find_exact A b
      (⟨0, A, true, b⟩ :: (slots b c 0 true 0 64 ++ (slots b c 0 false 64 (64 - 64) ++
        ⟨A, A, false, b + A⟩ :: tail))) =
      some (⟨0, A, true, b⟩ :: (slots b c 0 true 0 64 ++ ⟨A, A, true, b + A⟩ :: tail),
        b + A) := by
    have := find_exact_mid A b (⟨0, A, true, b⟩ :: slots b c 0 true 0 64) tail
      ⟨A, A, false, b + A⟩
      (by
        intro u hu
        rw [List.mem_cons] at hu
        rcases hu with h | h
        · rw [h]; simp
        · have := (hslots_start u h).2.2
          simp [this])
      ⟨rfl, rfl⟩
    simpa [slots_zero] using this
  have hfind : find_chunk_by_ptr
      (⟨0, A, true, b⟩ :: (slots b c 0 true 0 64 ++ ⟨A, A, true, b + A⟩ :: tail))
      (b + A + 4 - 4) = some (1 + (slots b c 0 true 0 64).length) :=
    find_chunk_by_ptr_mid _ _ _ _ _ (by simp only []; omega)
      (fun u hu => by have := (hslots_start u hu).2.1; omega) (by simp only []; omega)
      (by simp only [MEM_SIZE]; omega)
  have hnew : new_chunk
      (⟨0, A, true, b⟩ :: (slots b c 0 true 0 64 ++ ⟨A, A, true, b + A⟩ :: tail))
      (A + 2 * OFFSET) c true (b + A + 4 + OFFSET) =
      some (⟨0, A, true, b⟩ :: ((slots b c 0 true 0 64 ++ [⟨A, A, true, b + A⟩]) ++
        (slots b c A true 0 1 ++ (slots b c A false 1 0 ++ tail)))) := by
    have := new_chunk_mid ⟨0, A, true, b⟩ (slots b c 0 true 0 64 ++ [⟨A, A, true, b + A⟩]) tail
      (A + 2 * OFFSET) c true (b + A + 4 + OFFSET) (by simp only [OFFSET]; omega)
      (by
        intro x hx
        rw [List.mem_append, List.mem_singleton] at hx
        simp only [OFFSET]
        rcases hx with h | h
        · have := (hslots_start x h).1
          omega
        · rw [h]
          simp only []
          omega)
      (by
        intro t ht
        have := htail t ht
        simp only [OFFSET]
        omega)
    simp only [List.append_assoc, List.singleton_append] at this ⊢
    rw [this]
    simp [slots, slot, OFFSET]
    omega
  have hfill := slab_slots_loop_fill b n c A ⟨0, A, true, b⟩
    (slots b c 0 true 0 64 ++ [⟨A, A, true, b + A⟩]) tail hc hcA hA1 hA2 hw rfl
    (by
      intro x hx
      rw [List.mem_append, List.mem_singleton] at hx
      rcases hx with h | h
      · have := (hslots_start x h).1
        omega
      · rw [h]
        simp only []
        omega)
    htail 63 0 rfl
  simp only [Nat.cast_zero, zero_mul, add_zero] at hfill
  have hne1 : ¬ (b + A = -1) := by omega
  have hne2 : ¬ (b + A + 4 = -1) := by omega
  have hnot : ¬ (A > MEM_SIZE) := by simp only [MEM_SIZE]; omega
  simp only [my_malloc, slab_mem1, slab_alloc, hB, if_false, hw, hcast, hfull,
    slab_grow, buddy_system, hal, find_hole, hnot, hexact]
  simp only [show ¬ ((1 : Int) = 0) by decide, if_false, if_true, Bool.false_eq_true, hne1,
    OFFSET, hne2, hfind, getElem?_mid]
  simp only [OFFSET] at hnew hfill
  simp only [hnew, hfill]
  have hslab := new_slab_second b c (b + A) hc
  simp [slots_zero] at hfill hslab
  simp [slab_mem2, slots_zero, hfill, hslab, hfull]
  omega

theorem run_append (l1 l2 : List Call) (m : Mem) (ps : List Int) :
    run (l1 ++ l2) m ps = (run l1 m ps).bind (fun r => run l2 r.1 r.2) := by
  induction l1 generalizing m ps with
  | nil => rfl
  | cons a l1 ih =>
    cases a with
    | malloc size =>
      simp only [List.cons_append, run]
      cases my_malloc size m with
      | none => rfl
      | some r => exact ih _ _
    | free k =>
      simp only [List.cons_append, run]
      cases ps[k]? with
      | none => rfl
      | some p =>
        simp only []
        cases my_free p m with
        | none => rfl
        | some m1 => exact ih _ _

theorem find_block (hd x : Chunk) (pre rest : List Chunk) (loc : Int)
    (hhd : hd.start_loc ≠ loc) (hpre : ∀ u ∈ pre, u.start_loc ≠ loc) (hx : x.start_loc = loc) :
    (hd :: (pre ++ x :: rest)).find? (fun ch => decide (ch.start_loc = loc)) = some x := by
  rw [List.find?_cons_of_neg _ (by simpa using hhd)]
  induction pre with
  | nil => simp [hx]
  | cons u pre ih =>
    have hu := hpre u (List.mem_cons_self u pre)
    rw [List.cons_append, List.find?_cons_of_neg _ (by simpa using hu)]
    exact ih (fun y hy => hpre y (List.mem_cons_of_mem u hy))

theorem slab_run64 (b sz n : Int) (hn : 0 ≤ n) (hr : 64 * (n + 4) ≤ 1073741824)
    (hB : max 1024 (next_power_of_2 (64 * (n + 4))) ≤ 524288) :
    ∃ j : Nat, 10 ≤ j ∧ j ≤ 19 ∧
      (2 : Int) ^ j = max 1024 (next_power_of_2 (64 * (n + 4))) ∧
      64 * (n + 4) ≤ 2 ^ j ∧ wrap32 (n + OFFSET) = n + 4 ∧
      ¬ slab_block_size n > MEM_SIZE ∧
      allocation_size (wrap32 (slab_block_size n - OFFSET)) = 2 ^ j ∧
      (∀ t ∈ rungs b (19 - j) (2 ^ j * 2) ++ [create_chunk MEM_SIZE 0 false 0],
        2 * (2 : Int) ^ j ≤ t.start_loc) ∧
      run (List.replicate 64 (Call.malloc n)) (setup 1 sz b Mem.init) [] =
        some (slab_mem1 b sz (n + 4) (2 ^ j)
          (⟨2 ^ j, 2 ^ j, false, b + 2 ^ j⟩ ::
            (rungs b (19 - j) (2 ^ j * 2) ++ [create_chunk MEM_SIZE 0 false 0]))
          (rung_pairs (20 - j) (2 ^ j)) 64,
          (List.range 64).map (fun (i : Nat) => b + 8 + (i : Int) * (n + 4))) := by
  have hB2 : next_power_of_2 (64 * (n + 4)) ≤ 1048576 :=
    le_trans (le_max_right _ _) (le_trans hB (by norm_num))
  obtain ⟨j, hj1, _, hmax, hcA, hw, hnB, hal, hfirst⟩ := slab_first_run b sz n hn hr hB2
  have hA19 : (2 : Int) ^ j ≤ 524288 := by rw [hmax]; exact hB
  have hj2 : j ≤ 19 := (two_pow_bounds j 0 19
    (by have : (0 : Int) < 2 ^ j := by positivity
        norm_num; omega) (by norm_num; exact hA19)).2
  have hk : 20 - j = (19 - j) + 1 := by omega
  have htail : ∀ t ∈ rungs b (19 - j) (2 ^ j * 2) ++ [create_chunk MEM_SIZE 0 false 0],
      2 * (2 : Int) ^ j ≤ t.start_loc := by
    intro t ht
    rw [List.mem_append, List.mem_singleton] at ht
    rcases ht with h | h
    · have := rungs_ge b _ _ (by positivity) t h
      omega
    · rw [h]
      simp only [create_chunk, MEM_SIZE]
      omega
  refine ⟨j, hj1, hj2, hmax, hcA, hw, hnB, hal, htail, ?_⟩
  rw [show (64 : Nat) = 63 + 1 from rfl, List.replicate_succ, run, hfirst]
  simp only []
  rw [run_slab_mallocs b sz n (n + 4) (2 ^ j) _ _ (by omega) hcA (by omega) hw hnB 63 1 _
    (by omega)]
  rw [hk, rungs_succ]
  simp only [List.cons_append, Option.some.injEq, Prod.mk.injEq, List.nil_append, true_and]
  rw [← map_range_succ (fun (i : Nat) => b + 8 + (i : Int) * (n + 4)) 63]
  simp

/-- C8. In slab mode with region base `b ≥ 0`, for every `n ≥ 0` with `64 * (n + 4)` in
the supported range of `next_power_of_2` and slab block size
`B = max(1024, next_power_of_2(64 * (n + 4)))` at most 524288: after 64 calls
`my_malloc(n)` the chunk at offset `B` is free; the 65th call returns `b + B + 8`,
marks the chunk at offset `B` used, and leaves the slab registry as the dummy followed
by two records of class `n + 4`, one with allocated count 64 and one, on the block at
`b + B`, with allocated count 1. -/
theorem slab_overflow (b sz n : Int) (hb : 0 ≤ b) (hn : 0 ≤ n) (hr : 64 * (n + 4) ≤ 2 ^ 30)
    (hB : max 1024 (next_power_of_2 (64 * (n + 4))) ≤ 524288) :
    (run (List.replicate 64 (Call.malloc n)) (setup 1 sz b Mem.init) []).map
        (fun r => r.1.first_chunk.find?
          (fun ch => decide (ch.start_loc = max 1024 (next_power_of_2 (64 * (n + 4)))))) =
      some (some ⟨max 1024 (next_power_of_2 (64 * (n + 4))),
        max 1024 (next_power_of_2 (64 * (n + 4))), false,
        b + max 1024 (next_power_of_2 (64 * (n + 4)))⟩) ∧
    (run (List.replicate 65 (Call.malloc n)) (setup 1 sz b Mem.init) []).map
        (fun r => (r.2[64]?, r.1.first_chunk.find?
          (fun ch => decide (ch.start_loc = max 1024 (next_power_of_2 (64 * (n + 4))))),
          r.1.first_slab)) =
      some (some (b + max 1024 (next_power_of_2 (64 * (n + 4))) + 8),
        some ⟨max 1024 (next_power_of_2 (64 * (n + 4))),
          max 1024 (next_power_of_2 (64 * (n + 4))), true,
          b + max 1024 (next_power_of_2 (64 * (n + 4)))⟩,
        [⟨0, 0, 0⟩, ⟨b, n + 4, 64⟩, ⟨b + max 1024 (next_power_of_2 (64 * (n + 4))), n + 4, 1⟩]) := by
  obtain ⟨j, hj1, hj2, hmax, hcA, hw, hnB, hal, htail, hrun⟩ :=
    slab_run64 b sz n hn (by norm_num at hr; exact hr) hB
  rw [← hmax] at hB ⊢
  have hA1 : (1024 : Int) ≤ 2 ^ j := by rw [hmax]; exact le_max_left _ _
  have hslots : ∀ u ∈ slots b (n + 4) 0 true 0 64, u.start_loc ≠ 2 ^ j := by
    intro u hu
    obtain ⟨i, _, hi2, rfl⟩ := mem_slots hu
    have h1 := mul_le_of_le (c := n + 4) (by omega) (show i ≤ 63 by omega)
    have h2 : (0 : Int) ≤ (i : Int) * (n + 4) := by positivity
    push_cast at h1
    rw [slot_start_loc]
    omega
  constructor
  · rw [hrun]
    simp only [Option.map_some', slab_mem1, Option.some.injEq, Nat.sub_self, slots_zero,
      List.nil_append]
    exact find_block _ _ _ _ _ (by simp only []; omega) hslots rfl
  · rw [show (65 : Nat) = 64 + 1 from rfl, List.replicate_succ', run_append, hrun]
    simp only [Option.some_bind, run]
    rw [slab_grow_step b sz n (n + 4) (2 ^ j) _ _ hb (by omega) hcA hA1 hB hw hnB hal htail]
    simp only [Option.map_some', slab_mem2, Option.some.injEq, Prod.mk.injEq, slots_zero,
      List.nil_append, Nat.sub_zero]
    refine ⟨by simp, ?_, by simp⟩
    exact find_block _ _ _ _ _ (by simp only []; omega) hslots rfl

theorem slab_overflow_witness :
    (run (List.replicate 65 (Call.malloc 12)) (setup 1 1048576 65536 Mem.init) []).map
        (fun r => (r.2[64]?, r.1.first_chunk.find?
          (fun ch => decide (ch.start_loc = max 1024 (next_power_of_2 (64 * (12 + 4))))),
          r.1.first_slab)) =
      some (some (65536 + max 1024 (next_power_of_2 (64 * (12 + 4))) + 8),
        some ⟨max 1024 (next_power_of_2 (64 * (12 + 4))),
          max 1024 (next_power_of_2 (64 * (12 + 4))), true,
          65536 + max 1024 (next_power_of_2 (64 * (12 + 4)))⟩,
        [⟨0, 0, 0⟩, ⟨65536, 12 + 4, 64⟩,
          ⟨65536 + max 1024 (next_power_of_2 (64 * (12 + 4))), 12 + 4, 1⟩]) :=
  (slab_overflow 65536 1048576 12 (by decide) (by decide) (by decide) (by decide)).2

/-! ## Slab mode: frees -/

theorem addr_of_nonneg {x : Int} (h : 0 ≤ x) : addr x = x := by
  unfold addr
  rw [if_neg (by omega)]

theorem slab_owner_first (b c A p : Int) (a : Int) (hb : 0 ≤ b) (hc : 4 ≤ c)
    (hcA : 64 * c ≤ A) (hA2 : A ≤ 524288) (hp1 : b + 8 ≤ p) (hp2 : p < b + 8 + 64 * c)
    (m : Mem) (hs : m.first_slab = [⟨0, 0, 0⟩, ⟨b, c, a⟩, ⟨b + A, c, 1⟩]) (htype : m.type = 1) :
    my_free p m = slab_release p m 1 := by
  have hw0 : wrap32 (0 * N_OBJS_PER_SLAB) = 0 := by decide
  have hwc : wrap32 (c * N_OBJS_PER_SLAB) = 64 * c := by
    simp only [N_OBJS_PER_SLAB]
    rw [wrap32_of_range] <;> omega
  have ha0 : addr 0 = 0 := by decide
  have ha8 : addr (0 + 2 * OFFSET + 0) = 8 := by decide
  have hap : addr p = p := addr_of_nonneg (by omega)
  have hab : addr b = b := addr_of_nonneg hb
  have har : addr (b + 2 * OFFSET + 64 * c) = b + 2 * OFFSET + 64 * c :=
    addr_of_nonneg (by simp only [OFFSET]; omega)
  have h0 : ¬ (p > 0 ∧ p < 8) := by omega
  have h1 : p > b ∧ p < b + 2 * OFFSET + 64 * c := by
    simp only [OFFSET]
    omega
  simp only [my_free, htype, show ¬ ((1 : Int) = 0) by decide, if_false, if_true, slab_free, hs,
    hw0, ha0, ha8, hap, hab, h0, slab_owner_walk, hwc, har, h1, not_true_eq_false]
  simp

theorem slab_free_step (b sz c A : Int) (tail : List Chunk) (pairs : List Buddies) (j : Nat)
    (hj : j < 63) (hb : 0 ≤ b) (hc : 4 ≤ c) (hcA : 64 * c ≤ A) (hA2 : A ≤ 524288) :
    my_free (b + 8 + (j : Int) * c) (slab_mem2 b sz c A tail pairs j) =
      some (slab_mem2 b sz c A tail pairs (j + 1)) := by
  have hjc := mul_le_of_le (c := c) (by omega) (show j ≤ 62 by omega)
  have hjc0 : (0 : Int) ≤ (j : Int) * c := by positivity
  push_cast at hjc
  rw [slab_owner_first b c A _ (64 - (j : Int)) hb hc hcA hA2 (by omega) (by omega) _ rfl rfl]
  have h64 : 64 - j = (63 - j) + 1 := by omega
  have h64b : 64 - (j + 1) = 63 - j := by omega
  have hfree : free_slab_chunk (slab_mem2 b sz c A tail pairs j).first_chunk
      (b + 8 + (j : Int) * c) = (slab_mem2 b sz c A tail pairs (j + 1)).first_chunk := by
    simp only [slab_mem2]
    rw [h64, slots_cons, List.cons_append, free_slab_chunk_mid]
    · rw [h64b, slots_snoc b c 0 false 0 j, List.append_assoc]
      simp only [List.singleton_append, Nat.zero_add, slot]
    · simp only []
      omega
    · intro u hu
      obtain ⟨i, _, hi2, rfl⟩ := mem_slots hu
      have := mul_lt_of_lt (c := c) (by omega) (show i < j by omega)
      rw [slot_val_ptr]
      omega
    · rw [slot_val_ptr]
      omega
    · rw [slot_start_loc]
      simp only [MEM_SIZE]
      omega
  have hgt : (64 : Int) - j > 1 := by omega
  simp only [slab_release]
  rw [hfree]
  simp only [slab_mem2, List.getElem?_cons_succ, List.getElem?_cons_zero, hgt, if_true,
    List.set_cons_succ, List.set_cons_zero]
  simp only [Option.some.injEq, Mem.mk.injEq, true_and]
  simp only [List.cons.injEq, Slab.mk.injEq, true_and, and_true]
  push_cast
  omega

theorem slab_remove_loop_slots (b c : Int) (u : Bool) (hd : Chunk) (rest : List Chunk)
    (hc : 4 ≤ c) (hhd : hd.start_loc = 0) (len lo r : Nat) (hlen : lo + len ≤ 64)
    (hcA : 64 * c ≤ 524288) :
    slab_remove_loop c (len + r) (0 + 8 + (lo : Int) * c)
        (hd :: (slots b c 0 u lo len ++ rest)) =
      slab_remove_loop c r (0 + 8 + ((lo + len : Nat) : Int) * c) (hd :: rest) := by
  induction len generalizing lo with
  | zero => simp [slots_zero]
  | succ len ih =>
    have hlo := mul_le_of_le (c := c) (by omega) (show lo ≤ 63 by omega)
    have hlo0 : (0 : Int) ≤ (lo : Int) * c := by positivity
    push_cast at hlo
    have hstep : wrap32 (0 + 8 + (lo : Int) * c + c) = 0 + 8 + ((lo + 1 : Nat) : Int) * c := by
      rw [wrap32_of_range]
      · push_cast
        ring
      · omega
      · omega
    have hrm : remove_chunk (hd :: (slots b c 0 u lo (len + 1) ++ rest))
        (0 + 8 + (lo : Int) * c) = hd :: (slots b c 0 u (lo + 1) len ++ rest) := by
      rw [slots_cons, List.cons_append]
      exact remove_chunk_second hd _ _ _ (by rw [hhd]; omega) rfl
        (by simp only [MEM_SIZE]; omega)
    rw [show len + 1 + r = (len + r) + 1 by omega, slab_remove_loop, hrm, hstep,
      ih (lo + 1) (by omega)]
    congr 3
    omega

theorem buddy_free_loop_blocked (A : Int) (hA : 0 < A) (c0 cA : Chunk) (rest : List Chunk)
    (h0 : c0.start_loc = 0) (hu0 : c0.used = false) (hA1 : cA.start_loc = A)
    (hu1 : cA.used = true) (pairs : List Buddies)
    (hp : ∀ q ∈ pairs, q.b1_loc = 0 ∧ A ≤ q.b2_loc) :
    buddy_free_loop 0 pairs (c0 :: cA :: rest) = some (pairs, c0 :: cA :: rest) := by
  induction pairs with
  | nil => rfl
  | cons q pairs ih =>
    have hq := hp q (List.mem_cons_self q pairs)
    have hrec := ih (fun x hx => hp x (List.mem_cons_of_mem q hx))
    have hle : q.b1_loc ≤ 0 := by rw [hq.1]
    have hfc : find_chunk (c0 :: cA :: rest) q.b1_loc = some 0 := by
      simp [find_chunk, h0, hq.1]
    have hcr1 : c0.start_loc < q.b1_loc + (q.b2_loc - q.b1_loc) * 2 := by
      rw [h0, hq.1]
      omega
    have hcr2 : cA.start_loc < q.b1_loc + (q.b2_loc - q.b1_loc) * 2 := by
      rw [hA1, hq.1]
      omega
    have hscan : can_merge_scan (q.b1_loc + (q.b2_loc - q.b1_loc) * 2)
        ((c0 :: cA :: rest).drop 0) = false := by
      simp [can_merge_scan, hcr1, hcr2, hu0, hu1]
    rw [buddy_free_loop]
    simp only [hle, if_true, hfc, hscan, hrec, Bool.false_eq_true, if_false]
    split <;> rfl

theorem remove_slab_second (b c a : Int) (s : Slab) (hb : 0 < b) :
    remove_slab [⟨0, 0, 0⟩, ⟨b, c, a⟩, s] b = [⟨0, 0, 0⟩, s] := by
  have h0 : ¬ ((0 : Int) = b) := by omega
  simp [remove_slab, walk_slab_ptr, h0]

theorem slab_free_last (b sz c A : Int) (tail : List Chunk) (pairs : List Buddies)
    (hb : 0 < b) (hc : 4 ≤ c) (hcA : 64 * c ≤ A) (hA1 : 1024 ≤ A) (hA2 : A ≤ 524288)
    (hp : ∀ q ∈ pairs, q.b1_loc = 0 ∧ A ≤ q.b2_loc) :
    my_free (b + 8 + ((63 : Nat) : Int) * c) (slab_mem2 b sz c A tail pairs 63) =
      some (slab_mem3 b sz c A tail pairs) := by
  rw [slab_owner_first b c A _ (64 - ((63 : Nat) : Int)) (by omega) hc hcA hA2
    (by push_cast; omega) (by push_cast; omega) _ rfl rfl]
  have hrm1 := slab_remove_loop_slots b c false ⟨0, A, true, b⟩
    (slots b c 0 true 63 (64 - 63) ++
      ⟨A, A, true, b + A⟩ :: (slots b c A true 0 1 ++ (slots b c A false 1 63 ++ tail)))
    hc rfl 63 0 1 (by omega) (by omega)
  have hrm2 := slab_remove_loop_slots b c true ⟨0, A, true, b⟩
    (⟨A, A, true, b + A⟩ :: (slots b c A true 0 1 ++ (slots b c A false 1 63 ++ tail)))
    hc rfl 1 63 0 (by omega) (by omega)
  simp only [Nat.cast_zero, zero_mul, add_zero, Nat.zero_add] at hrm1 hrm2
  have hfree := buddy_free_loop_blocked A (by omega) ⟨0, A, false, b⟩ ⟨A, A, true, b + A⟩
    (slots b c A true 0 1 ++ (slots b c A false 1 63 ++ tail)) rfl rfl rfl rfl pairs hp
  have hrm : slab_remove_loop c 64 (0 + 2 * 4)
      (⟨0, A, true, b⟩ :: (slots b c 0 false 0 63 ++ (slots b c 0 true 63 (64 - 63) ++
        ⟨A, A, true, b + A⟩ :: (slots b c A true 0 1 ++ (slots b c A false 1 63 ++ tail))))) =
      ⟨0, A, true, b⟩ ::
        ⟨A, A, true, b + A⟩ :: (slots b c A true 0 1 ++ (slots b c A false 1 63 ++ tail)) := by
    have e1 : (0 : Int) + 2 * 4 = 0 + 8 := by norm_num
    rw [e1]
    exact hrm1.trans (hrm2.trans rfl)
  have hone : ¬ ((64 : Int) - ((63 : Nat) : Int) > 1) := by norm_num
  have hone2 : (64 : Int) - ((63 : Nat) : Int) = 1 := by norm_num
  have hone3 : ¬ ((1 : Int) > 1) := by norm_num
  have hbb : b + 4 - 4 = b := by omega
  simp only [slab_release, slab_mem2, List.getElem?_cons_succ, List.getElem?_cons_zero, hone,
    if_false, hone2, if_true, find_chunk_by_ptr, OFFSET, hone3]
  rw [hrm]
  simp only [buddy_free, mem_free, hbb, if_true, hfree, remove_slab_second b c 1 _ hb, slab_mem3]

theorem run_slab_frees (b sz c A : Int) (tail : List Chunk) (pairs : List Buddies)
    (hb : 0 ≤ b) (hc : 4 ≤ c) (hcA : 64 * c ≤ A) (hA2 : A ≤ 524288) (ps : List Int)
    (hps : ∀ i : Nat, i < 64 → ps[i]? = some (b + 8 + (i : Int) * c))
    (r j : Nat) (hjr : j + r ≤ 63) :
    run ((List.range' j r).map Call.free) (slab_mem2 b sz c A tail pairs j) ps =
      some (slab_mem2 b sz c A tail pairs (j + r), ps) := by
  induction r generalizing j with
  | zero => simp [run]
  | succ r ih =>
    rw [List.range'_succ, List.map_cons, run, hps j (by omega)]
    simp only []
    rw [slab_free_step b sz c A tail pairs j (by omega) hb hc hcA hA2]
    simp only []
    rw [ih (j + 1) (by omega)]
    simp [Nat.add_assoc, Nat.add_comm 1 r]

theorem slab_run65 (b sz n : Int) (hb : 0 ≤ b) (hn : 0 ≤ n) (hr : 64 * (n + 4) ≤ 1073741824)
    (hB : max 1024 (next_power_of_2 (64 * (n + 4))) ≤ 524288) :
    ∃ j : Nat, 10 ≤ j ∧ j ≤ 19 ∧
      (2 : Int) ^ j = max 1024 (next_power_of_2 (64 * (n + 4))) ∧
      64 * (n + 4) ≤ 2 ^ j ∧
      (∀ t ∈ rungs b (19 - j) (2 ^ j * 2) ++ [create_chunk MEM_SIZE 0 false 0],
        2 * (2 : Int) ^ j ≤ t.start_loc) ∧
      run (List.replicate 65 (Call.malloc n)) (setup 1 sz b Mem.init) [] =
        some (slab_mem2 b sz (n + 4) (2 ^ j)
          (rungs b (19 - j) (2 ^ j * 2) ++ [create_chunk MEM_SIZE 0 false 0])
          (rung_pairs (20 - j) (2 ^ j)) 0,
          (List.range 64).map (fun (i : Nat) => b + 8 + (i : Int) * (n + 4)) ++
            [b + 2 ^ j + 8]) := by
  obtain ⟨j, hj1, hj2, hmax, hcA, hw, hnB, hal, htail, hrun⟩ := slab_run64 b sz n hn hr hB
  have hA1 : (1024 : Int) ≤ 2 ^ j := by rw [hmax]; exact le_max_left _ _
  have hA2 : (2 : Int) ^ j ≤ 524288 := by rw [hmax]; exact hB
  refine ⟨j, hj1, hj2, hmax, hcA, htail, ?_⟩
  rw [show (65 : Nat) = 64 + 1 from rfl, List.replicate_succ', run_append, hrun]
  simp only [Option.some_bind, run]
  rw [slab_grow_step b sz n (n + 4) (2 ^ j) _ _ hb (by omega) hcA hA1 hA2 hw hnB hal htail]

/-- C9. In slab mode with a non-null region base `b > 0`, for every `n ≥ 0` with
`64 * (n + 4)` in the supported range of `next_power_of_2` and slab block size
`B = max(1024, next_power_of_2(64 * (n + 4)))` at most 524288: after 65 calls
`my_malloc(n)` and `my_free` of the first 64 returned pointers in the order of their
allocation, the slab registry is the dummy followed by the one record of the second
block (class `n + 4`, count 1), the chunk at offset 0 is the free block chunk of size
`B`, and no chunk record starts strictly inside `(0, B)`. -/
theorem slab_reclamation (b sz n : Int) (hb : 0 < b) (hn : 0 ≤ n)
    (hr : 64 * (n + 4) ≤ 2 ^ 30)
    (hB : max 1024 (next_power_of_2 (64 * (n + 4))) ≤ 524288) :
    (run (List.replicate 65 (Call.malloc n) ++ (List.range 64).map Call.free)
        (setup 1 sz b Mem.init) []).map
      (fun r => (r.1.first_slab, r.1.first_chunk.head?,
        r.1.first_chunk.filter (fun ch => decide (0 < ch.start_loc ∧
          ch.start_loc < max 1024 (next_power_of_2 (64 * (n + 4))))))) =
    some ([⟨0, 0, 0⟩, ⟨b + max 1024 (next_power_of_2 (64 * (n + 4))), n + 4, 1⟩],
      some ⟨0, max 1024 (next_power_of_2 (64 * (n + 4))), false, b⟩, []) := by
  obtain ⟨j, hj1, hj2, hmax, hcA, htail, hrun⟩ :=
    slab_run65 b sz n (le_of_lt hb) hn (by norm_num at hr; exact hr) hB
  rw [← hmax] at hB ⊢
  have hA1 : (1024 : Int) ≤ 2 ^ j := by rw [hmax]; exact le_max_left _ _
  have hc : (4 : Int) ≤ n + 4 := by omega
  have hps : ∀ i : Nat, i < 64 →
      ((List.range 64).map (fun (i : Nat) => b + 8 + (i : Int) * (n + 4)) ++
        [b + 2 ^ j + 8])[i]? = some (b + 8 + (i : Int) * (n + 4)) := by
    intro i hi
    rw [List.getElem?_append_left (by simpa using hi)]
    simp [List.getElem?_range hi]
  have hpairs : ∀ q ∈ rung_pairs (20 - j) (2 ^ j), q.b1_loc = 0 ∧ (2 : Int) ^ j ≤ q.b2_loc :=
    rung_pairs_spec _ _ (by positivity)
  have hfrees : (List.range 64).map Call.free =
      (List.range' 0 63).map Call.free ++ [Call.free 63] := by decide
  rw [run_append, hrun, hfrees]
  simp only [Option.some_bind]
  rw [run_append, run_slab_frees b sz (n + 4) (2 ^ j) _ _ (le_of_lt hb) hc hcA hB _ hps 63 0
    (by omega)]
  simp only [Option.some_bind, run, hps 63 (by omega)]
  rw [slab_free_last b sz (n + 4) (2 ^ j) _ _ hb hc hcA hA1 hB hpairs]
  simp only [Option.map_some', slab_mem3, List.head?_cons, Option.some.injEq, Prod.mk.injEq,
    true_and]
  rw [List.filter_eq_nil_iff]
  intro x hx
  simp only [decide_eq_true_eq, not_and, not_lt]
  intro hpos
  rw [List.mem_cons, List.mem_cons, List.mem_append, List.mem_append] at hx
  rcases hx with h | h | h | h | h
  · rw [h] at hpos
    exact absurd hpos (lt_irrefl _)
  · rw [h]
  · obtain ⟨i, _, _, rfl⟩ := mem_slots h
    have h2 : (0 : Int) ≤ (i : Int) * (n + 4) := by positivity
    rw [slot_start_loc]
    omega
  · obtain ⟨i, _, _, rfl⟩ := mem_slots h
    have h2 : (0 : Int) ≤ (i : Int) * (n + 4) := by positivity
    rw [slot_start_loc]
    omega
  · have := htail x h
    have hp : (0 : Int) < 2 ^ j := by positivity
    omega

theorem slab_reclamation_witness :
    (run (List.replicate 65 (Call.malloc 12) ++ (List.range 64).map Call.free)
        (setup 1 1048576 65536 Mem.init) []).map
      (fun r => (r.1.first_slab, r.1.first_chunk.head?,
        r.1.first_chunk.filter (fun ch => decide (0 < ch.start_loc ∧
          ch.start_loc < max 1024 (next_power_of_2 (64 * (12 + 4))))))) =
    some ([⟨0, 0, 0⟩, ⟨65536 + max 1024 (next_power_of_2 (64 * (12 + 4))), 12 + 4, 1⟩],
      some ⟨0, max 1024 (next_power_of_2 (64 * (12 + 4))), false, 65536⟩, []) :=
  slab_reclamation 65536 1048576 12 (by decide) (by decide) (by decide) (by decide)

/-! ## Invalid free in slab mode -/

theorem wrap32_le_self {x : Int} (h : 0 ≤ x) : wrap32 x ≤ x := by
  unfold wrap32
  omega

theorem slab_owner_walk_spec (p : Int) (l : List Slab) (i : Nat) :
    slab_owner_walk p l i = none ∨
    ∃ j s, slab_owner_walk p l i = some (i + j) ∧ l[j]? = some s ∧
      (addr p > addr s.ptr ∧
        addr p < addr (s.ptr + 2 * OFFSET + wrap32 (s.chunk_size * N_OBJS_PER_SLAB))) := by
  induction l generalizing i with
  | nil => left; rfl
  | cons s rest ih =>
    by_cases h : addr p > addr s.ptr ∧
        addr p < addr (s.ptr + 2 * OFFSET + wrap32 (s.chunk_size * N_OBJS_PER_SLAB))
    · right
      exact ⟨0, s, by simp only [slab_owner_walk, h]; simp, by simp, h⟩
    · rcases ih (i + 1) with hn | ⟨j, t, h1, h2, h3⟩
      · left
        simp only [slab_owner_walk, h, hn]
        simp
      · right
        refine ⟨j + 1, t, ?_, by simpa using h2, h3⟩
        simp only [slab_owner_walk, h, h1]
        simp
        omega

/-- C10 as stated fails. In slab mode with region base 65536, after `my_malloc(12)` and
two calls `my_malloc(33554428)` the registry holds the dummy, `(65536, 16, 1)` and
`(66560, 33554432, 2)`. The pointer 3000000000 lies in none of the ranges
`(ptr, ptr + 8 + 64 * chunk_size)`, the largest of which ends at 2147550216. In
`slab_free` the product `33554432 * 64` leaves the range of `int` and becomes
-2147483648, the bound `ptr + 8 - 2147483648` passes address 0 and compares above every
address, so the last record is taken as owner and `my_free(3000000000)` lowers its count
from 2 to 1. -/
theorem invalid_free_hits_wrapped_range :
    (exec [Op.malloc 12, Op.malloc 33554428, Op.malloc 33554428]
        (setup 1 1048576 65536 Mem.init)).map (fun m => m.first_slab) =
      some [⟨0, 0, 0⟩, ⟨65536, 16, 1⟩, ⟨66560, 33554432, 2⟩] ∧
    ¬ ((65536 : Int) < 3000000000 ∧ (3000000000 : Int) < 65536 + 8 + 64 * 16) ∧
    ¬ ((66560 : Int) < 3000000000 ∧ (3000000000 : Int) < 66560 + 8 + 64 * 33554432) ∧
    wrap32 (33554432 * N_OBJS_PER_SLAB) = -2147483648 ∧
    (exec [Op.malloc 12, Op.malloc 33554428, Op.malloc 33554428, Op.free 3000000000]
        (setup 1 1048576 65536 Mem.init)).map (fun m => m.first_slab) =
      some [⟨0, 0, 0⟩, ⟨65536, 16, 1⟩, ⟨66560, 33554432, 1⟩] := by
  refine ⟨?_, by decide, by decide, by decide, ?_⟩
  · set_option maxRecDepth 100000 in decide
  · set_option maxRecDepth 100000 in decide

/-- C10, amended. In slab mode with a non-empty slab registry (at least one slab
allocation has been made), let every record of the registry other than the dummy
`(NULL, 0, 0)` have a non-negative block pointer and a class size `c ≥ 0` with
`64 * c ≤ 2147483647`, so that the product in `slab_free` stays in the range of `int`.
If the address `p` does not lie strictly inside `(ptr, ptr + 8 + 64 * chunk_size)` of any
such record, `my_free p` leaves every global (memory map, slab registry with its counts,
buddy-pair registry) as it was. -/
theorem slab_invalid_free_noop (m : Mem) (p : Int) (htype : m.type = 1)
    (hne : m.first_slab ≠ []) (hp : 0 ≤ p)
    (hrec : ∀ s ∈ m.first_slab, s = create_slab 0 0 0 ∨
      (0 ≤ s.ptr ∧ 0 ≤ s.chunk_size ∧ 64 * s.chunk_size ≤ 2147483647 ∧
        ¬ (s.ptr < p ∧ p < s.ptr + 8 + 64 * s.chunk_size))) :
    my_free p m = some m := by
  have hap : addr p = p := addr_of_nonneg hp
  have hdummy : ∀ s ∈ m.first_slab,
      (addr p > addr s.ptr ∧
        addr p < addr (s.ptr + 2 * OFFSET + wrap32 (s.chunk_size * N_OBJS_PER_SLAB))) →
      s.allocated = 0 := by
    intro s hs hin
    rcases hrec s hs with h | ⟨hptr, h0, h1, hnot⟩
    · rw [h]; rfl
    · exfalso
      apply hnot
      have hw : wrap32 (s.chunk_size * N_OBJS_PER_SLAB) = 64 * s.chunk_size := by
        simp only [N_OBJS_PER_SLAB]
        rw [wrap32_of_range] <;> omega
      have hsum : addr (s.ptr + 2 * OFFSET + 64 * s.chunk_size) =
          s.ptr + 2 * OFFSET + 64 * s.chunk_size :=
        addr_of_nonneg (by simp only [OFFSET]; omega)
      rw [hw, hsum, hap, addr_of_nonneg hptr] at hin
      simp only [OFFSET] at hin
      omega
  have hfound : ∀ ri rm, m.first_slab[ri]? = some rm →
      (addr p > addr rm.ptr ∧
        addr p < addr (rm.ptr + 2 * OFFSET + wrap32 (rm.chunk_size * N_OBJS_PER_SLAB))) →
      slab_release p m ri = some m := by
    intro ri rm hget hin
    have h0 := hdummy rm (List.getElem?_mem hget) hin
    simp [slab_release, hget, h0]
  simp only [my_free, htype]
  simp only [show ¬ ((1 : Int) = 0) by decide, if_false, if_true, slab_free]
  cases hl : m.first_slab with
  | nil => exact absurd hl hne
  | cons rm0 rest =>
    simp only []
    by_cases h0 : addr p > addr rm0.ptr ∧
        addr p < addr (rm0.ptr + 2 * OFFSET + wrap32 (rm0.chunk_size * N_OBJS_PER_SLAB))
    · simp only [h0, and_self, if_true]
      exact hfound 0 rm0 (by rw [hl]; simp) h0
    · simp only [h0, if_false]
      rcases slab_owner_walk_spec p rest 1 with hn | ⟨j, s, h1, h2, h3⟩
      · simp only [hn]
      · simp only [h1]
        exact hfound (1 + j) s (by rw [hl, Nat.add_comm]; simpa using h2) h3

theorem slab_invalid_free_noop_witness :
    my_free 70000
      { type := 1, size := 1048576, start_ptr := 65536, is_start := false,
        first_chunk := [⟨0, 1024, true, 65536⟩, ⟨8, 16, true, 65544⟩, ⟨1048576, 0, false, 0⟩],
        first_pair := [], first_slab := [⟨0, 0, 0⟩, ⟨65536, 16, 1⟩] } =
    some
      { type := 1, size := 1048576, start_ptr := 65536, is_start := false,
        first_chunk := [⟨0, 1024, true, 65536⟩, ⟨8, 16, true, 65544⟩, ⟨1048576, 0, false, 0⟩],
        first_pair := [], first_slab := [⟨0, 0, 0⟩, ⟨65536, 16, 1⟩] } :=
  slab_invalid_free_noop _ 70000 rfl (by decide) (by decide) (by decide)

/-! ## Further defects found by evaluation -/

/-- C11 (the code breaks it). In buddy mode with region base 65536, the calls
`my_malloc` of 1000, 1000, 2000, 2000, 1000, `my_free` of the fifth pointer and
`my_malloc(4000)` record the pair `(6144, 10240)` together with the chunk
`(10240, 4096)`, so `b2 = b1 + s` holds with `s = 4096`; but the chunks of the map
from 6144 up to 10240 are `(6144, 4096)` and `(8192, 8192)` and span 12288 bytes: the
chunk at 6144 had the stored size 8192 from the earlier merge, so the split carves
past the chunk at 8192. -/
theorem pair_span_broken_after_merge :
    (run [Call.malloc 1000, Call.malloc 1000, Call.malloc 2000, Call.malloc 2000,
          Call.malloc 1000, Call.free 4]
        (setup 0 1048576 65536 Mem.init) []).map
      (fun r => ((shape r.1.first_chunk).take 6,
        r.1.first_pair.filter (fun q => decide (q.b1_loc = 6144)))) =
      some ([(0, 1024, true), (1024, 1024, true), (2048, 2048, true), (4096, 2048, true),
          (6144, 8192, false), (8192, 8192, false)],
        [⟨6144, 7168, false⟩]) ∧
    (run [Call.malloc 1000, Call.malloc 1000, Call.malloc 2000, Call.malloc 2000,
          Call.malloc 1000, Call.free 4, Call.malloc 4000]
        (setup 0 1048576 65536 Mem.init) []).map
      (fun r => (r.1.first_pair.filter (fun q => decide (q.b1_loc = 6144)),
        (shape r.1.first_chunk).take 7)) =
      some ([⟨6144, 7168, false⟩, ⟨6144, 10240, true⟩],
        [(0, 1024, true), (1024, 1024, true), (2048, 2048, true), (4096, 2048, true),
          (6144, 4096, true), (8192, 8192, false), (10240, 4096, false)]) ∧
    (run [Call.malloc 1000, Call.malloc 1000, Call.malloc 2000, Call.malloc 2000,
          Call.malloc 1000, Call.free 4, Call.malloc 4000]
        (setup 0 1048576 65536 Mem.init) []).map
      (fun r => (size_at 10240 r.1.first_chunk, span r.1.first_chunk 6144 10240)) =
      some (some 4096, 12288) := by
  refine ⟨by decide, by decide, by decide⟩

/-- C13 (the code breaks it). In buddy mode with region base 65536, after
`my_malloc(600000)` and `my_free` of its pointer the map is the free chunk
`(0, 1048576)` and the sentinel, and the pair registry is empty. For the request 2000
the rounded size is 2048, no free chunk has that size, the first free chunk that fits
starts at 0 with size `2048 * 2^9` and the next chunk starts at 1048576; `my_malloc(2000)`
then calls `new_buddies` on the empty registry and returns nothing. -/
theorem split_fails_on_empty_registry :
    (run [Call.malloc 600000, Call.free 0] (setup 0 1048576 65536 Mem.init) []).map
      (fun r => (r.1.first_chunk, r.1.first_pair, r.1.is_start)) =
      some ([⟨0, 1048576, false, 65536⟩, ⟨1048576, 0, false, 0⟩], [], false) ∧
    allocation_size 2000 = 2048 ∧ (1048576 : Int) = 2048 * 2 ^ 9 ∧
    (run [Call.malloc 600000, Call.free 0] (setup 0 1048576 65536 Mem.init) []).bind
      (fun r => my_malloc 2000 r.1) = none := by
  refine ⟨by decide, by decide, by decide, by decide⟩

/-- C15 (the code breaks it). In slab mode with region base 65536, the 64th call
`my_malloc(12)` returns the pointer 66552 for the slot record `(1016, 16)` of the first
slab, whose block is the chunk `(0, 1024)`: the 12 bytes end at offset 1028 and the
slot record ends at offset 1032, both past the end 1024 of the block. -/
theorem last_slot_leaves_block :
    (run (List.replicate 64 (Call.malloc 12)) (setup 1 1048576 65536 Mem.init) []).map
      (fun r => (r.2[63]?, r.1.first_slab)) =
      some (some 66552, [⟨0, 0, 0⟩, ⟨65536, 16, 64⟩]) ∧
    (run (List.replicate 64 (Call.malloc 12)) (setup 1 1048576 65536 Mem.init) []).map
      (fun r => (r.1.first_chunk[0]?, r.1.first_chunk[64]?)) =
      some (some ⟨0, 1024, true, 65536⟩, some ⟨1016, 16, true, 66552⟩) ∧
    ¬ ((66552 : Int) + 12 ≤ 65536 + 0 + 1024) ∧ ¬ ((1016 : Int) + 16 ≤ 0 + 1024) := by
  refine ⟨by decide, by decide, by decide, by decide⟩

/-- C17 (the code breaks it). In slab mode with region base 65536, the calls `my_malloc`
of 2000, 12, 2000, 12 all succeed and return 65544, 67556, 67572, 67588: the block of
the second slab is carved out of a free slot record of the first slab, and the third
pointer (2000 bytes from 67572) covers the fourth (12 bytes from 67588). -/
theorem slab_allocations_overlap :
    (run [Call.malloc 2000, Call.malloc 12, Call.malloc 2000, Call.malloc 12]
        (setup 1 1048576 65536 Mem.init) []).map (fun r => r.2) =
      some [65544, 67556, 67572, 67588] ∧
    ¬ ranges_disjoint 67572 2000 67588 12 ∧
    (run [Call.malloc 2000, Call.malloc 12, Call.malloc 2000, Call.malloc 12]
        (setup 1 1048576 65536 Mem.init) []).map
      (fun r => (r.1.first_slab, (shape r.1.first_chunk).take 6)) =
      some ([⟨0, 0, 0⟩, ⟨67548, 16, 2⟩, ⟨65536, 2004, 2⟩],
        [(0, 131072, true), (8, 2004, true), (2012, 1024, true), (2020, 16, true),
          (2036, 16, true), (2052, 16, true)]) := by
  refine ⟨by decide, ?_, by decide⟩
  unfold ranges_disjoint
  decide

/-- C19 (the code breaks it). In buddy mode with region base 65536, `my_malloc(600000)`
takes the whole region and leaves the pair registry empty; after `my_free` of its
pointer, `my_malloc(2000)` has to split the chunk `(0, 1048576)` and calls
`new_buddies` on the empty registry, which reads a field of `NULL`: the call does not
complete. -/
theorem new_buddies_on_missing_registry :
    (run [Call.malloc 600000] (setup 0 1048576 65536 Mem.init) []).map
      (fun r => (r.2, r.1.first_pair)) = some ([65540], []) ∧
    (run [Call.malloc 600000, Call.free 0] (setup 0 1048576 65536 Mem.init) []).map
      (fun r => (r.2, r.1.first_pair)) = some ([65540], []) ∧
    new_buddies [] 0 2048 true = none ∧
    run [Call.malloc 600000, Call.free 0, Call.malloc 2000]
      (setup 0 1048576 65536 Mem.init) [] = none := by
  refine ⟨by decide, by decide, by decide, by decide⟩

/-! ## The exact-fit path of `find_hole` -/

/-- C14 as stated fails. In buddy mode with region base 65536, after
`my_malloc(1048576)` and `my_free` of its pointer the map holds the free chunk
`(0, 2097152)`, and 2097152 is the rounded size of the request 1048576; the next
`my_malloc(1048576)` still returns `(void*)-1` and leaves the chunk free, because
`find_hole` first refuses every rounded size above `MEM_SIZE`. -/
theorem exact_fit_refused_above_mem_size :
    (run [Call.malloc 1048576, Call.free 0] (setup 0 1048576 65536 Mem.init) []).map
      (fun r => (r.1.first_chunk, r.1.is_start)) =
      some ([⟨0, 2097152, false, 65536⟩, ⟨1048576, 0, false, 0⟩], false) ∧
    allocation_size 1048576 = 2097152 ∧
    (run [Call.malloc 1048576, Call.free 0, Call.malloc 1048576]
        (setup 0 1048576 65536 Mem.init) []).map (fun r => (r.2, r.1.first_chunk)) =
      some ([65540, -1], [⟨0, 2097152, false, 65536⟩, ⟨1048576, 0, false, 0⟩]) := by
  refine ⟨by decide, by decide, by decide⟩

/-- C14, amended. On a later call in buddy mode, when the rounded size of the request
is at most `MEM_SIZE` and `x` is the first free chunk of the map whose `chunk_size` is
exactly the rounded size (larger free chunks may come before it), `my_malloc` returns
`base + x.start_loc + 4`, marks `x` used, and leaves every other chunk, the order of
the map and the pair registry as they were. The region base and `x.start_loc` are not
negative, as in every state the allocator builds. -/
theorem exact_fit_frame (m : Mem) (pre rest : List Chunk) (x : Chunk) (n : Int)
    (htype : m.type = 0) (hstart : m.is_start = false)
    (hmap : m.first_chunk = pre ++ x :: rest)
    (hpre : ∀ u ∈ pre, ¬ (u.chunk_size = allocation_size n ∧ u.used = false))
    (hx : x.chunk_size = allocation_size n) (hfree : x.used = false)
    (hcap : allocation_size n ≤ MEM_SIZE)
    (hb : 0 ≤ m.start_ptr) (hloc : 0 ≤ x.start_loc) :
    my_malloc n m = some (m.start_ptr + x.start_loc + 4,
      { m with first_chunk :=
          pre ++ { x with used := true, val_ptr := m.start_ptr + x.start_loc } :: rest }) := by
  have hne : ¬ (m.start_ptr + x.start_loc = -1) := by omega
  have hcap2 : ¬ (allocation_size n > MEM_SIZE) := not_lt.mpr hcap
  simp only [my_malloc, htype, buddy_system, hstart, find_hole, hcap2, hmap,
    find_exact_mid (allocation_size n) m.start_ptr pre rest x hpre ⟨hx, hfree⟩, if_true,
    if_false, hne, OFFSET]
  simp

/-- An instance of the exact-fit path: the request 1000, rounded to 1024, takes the free
chunk `(3072, 1024)` although the larger free chunk `(0, 2048)` comes before it. -/
theorem exact_fit_frame_witness :
    my_malloc 1000
      { type := 0, size := 1048576, start_ptr := 65536, is_start := false,
        first_chunk := [⟨0, 2048, false, 65536⟩, ⟨2048, 1024, true, 67584⟩,
          ⟨3072, 1024, false, 68608⟩, ⟨4096, 4096, false, 69632⟩,
          ⟨8192, 8192, true, 73728⟩, ⟨16384, 16384, false, 81920⟩],
        first_pair := [⟨0, 2048, true⟩, ⟨0, 4096, true⟩, ⟨2048, 3072, true⟩],
        first_slab := [] } =
    some (65536 + 3072 + 4,
      { type := 0, size := 1048576, start_ptr := 65536, is_start := false,
        first_chunk := [⟨0, 2048, false, 65536⟩, ⟨2048, 1024, true, 67584⟩,
          ⟨3072, 1024, true, 68608⟩, ⟨4096, 4096, false, 69632⟩,
          ⟨8192, 8192, true, 73728⟩, ⟨16384, 16384, false, 81920⟩],
        first_pair := [⟨0, 2048, true⟩, ⟨0, 4096, true⟩, ⟨2048, 3072, true⟩],
        first_slab := [] }) :=
  exact_fit_frame
    { type := 0, size := 1048576, start_ptr := 65536, is_start := false,
      first_chunk := [⟨0, 2048, false, 65536⟩, ⟨2048, 1024, true, 67584⟩,
        ⟨3072, 1024, false, 68608⟩, ⟨4096, 4096, false, 69632⟩,
        ⟨8192, 8192, true, 73728⟩, ⟨16384, 16384, false, 81920⟩],
      first_pair := [⟨0, 2048, true⟩, ⟨0, 4096, true⟩, ⟨2048, 3072, true⟩],
      first_slab := [] }
    [⟨0, 2048, false, 65536⟩, ⟨2048, 1024, true, 67584⟩]
    [⟨4096, 4096, false, 69632⟩, ⟨8192, 8192, true, 73728⟩, ⟨16384, 16384, false, 81920⟩]
    ⟨3072, 1024, false, 68608⟩ 1000 rfl rfl rfl (by decide) (by decide) rfl (by decide)
    (by decide) (by decide)

/-! ## `buddy_free` creates no new offsets -/

theorem set_keeps (P : Int → Prop) (l : List Chunk) (i : Nat) (y : Chunk)
    (hK : ∀ x ∈ l, P x.start_loc) (hy : P y.start_loc) : ∀ x ∈ l.set i y, P x.start_loc := by
  intro x hx
  rcases List.mem_or_eq_of_mem_set hx with h | h
  · exact hK x h
  · rw [h]
    exact hy

theorem merge_loop_keeps (P : Int → Prop) (cr : Int) (l first first1 : List Chunk) (i1 j1 : Nat)
    (h : merge_loop cr l first i1 = some (first1, j1)) (hK : ∀ x ∈ first, P x.start_loc) :
    ∀ x ∈ first1, P x.start_loc := by
  induction l generalizing first i1 with
  | nil =>
    rw [merge_loop] at h
    simp only [Option.some.injEq, Prod.mk.injEq] at h
    rw [← h.1]
    exact hK
  | cons rm rest ih =>
    rw [merge_loop] at h
    split at h
    · split at h
      · exact ih first i1 h hK
      · rename_i j hj
        split at h
        · simp at h
        · exact ih _ _ h (fun x hx => hK x (List.mem_of_mem_eraseIdx hx))
    · simp only [Option.some.injEq, Prod.mk.injEq] at h
      rw [← h.1]
      exact hK

theorem buddy_free_loop_keeps (P : Int → Prop) (loc : Int) (ps ps1 : List Buddies)
    (first first1 : List Chunk)
    (h : buddy_free_loop loc ps first = some (ps1, first1)) (hK : ∀ x ∈ first, P x.start_loc) :
    ∀ x ∈ first1, P x.start_loc := by
  induction ps generalizing first ps1 first1 with
  | nil =>
    rw [buddy_free_loop] at h
    simp only [Option.some.injEq, Prod.mk.injEq] at h
    rw [← h.2]
    exact hK
  | cons tmp rest ih =>
    rw [buddy_free_loop] at h
    split at h
    · split at h
      · simp only [] at h
        split at h
        · cases hr : buddy_free_loop loc rest first with
          | none => simp [hr] at h
          | some r =>
            obtain ⟨a, b⟩ := r
            rw [hr] at h
            simp only [Option.some.injEq, Prod.mk.injEq] at h
            rw [← h.2]
            exact ih a first b hr hK
        · rename_i i1 hi1
          split at h
          · split at h
            · simp at h
            · rename_i first2 j1 hm
              have hK2 := merge_loop_keeps P _ _ _ _ _ _ hm hK
              split at h
              · simp at h
              · rename_i b1 hb1
                cases hr : buddy_free_loop loc rest (first2.set j1
                    { b1 with chunk_size := tmp.b1_loc + (tmp.b2_loc - tmp.b1_loc) * 2 }) with
                | none => simp [hr] at h
                | some r =>
                  obtain ⟨a, b⟩ := r
                  rw [hr] at h
                  simp only [Option.some.injEq, Prod.mk.injEq] at h
                  rw [← h.2]
                  exact ih a _ b hr (set_keeps P _ _ _ hK2 (hK2 b1 (List.getElem?_mem hb1)))
          · cases hr : buddy_free_loop loc rest first with
            | none => simp [hr] at h
            | some r =>
              obtain ⟨a, b⟩ := r
              rw [hr] at h
              simp only [Option.some.injEq, Prod.mk.injEq] at h
              rw [← h.2]
              exact ih a first b hr hK
      · cases hr : buddy_free_loop loc rest first with
        | none => simp [hr] at h
        | some r =>
          obtain ⟨a, b⟩ := r
          rw [hr] at h
          simp only [Option.some.injEq, Prod.mk.injEq] at h
          rw [← h.2]
          exact ih a first b hr hK
    · simp only [Option.some.injEq, Prod.mk.injEq] at h
      rw [← h.2]
      exact hK

/-! ## One coalescing step of `buddy_free` -/

theorem find_chunk_at (pre rest : List Chunk) (x : Chunk) (loc : Int)
    (hpre : ∀ u ∈ pre, u.start_loc ≠ loc) (hx : x.start_loc = loc) (hloc : loc ≠ MEM_SIZE) :
    find_chunk (pre ++ x :: rest) loc = some pre.length := by
  cases pre with
  | nil => simp [find_chunk, hx]
  | cons u pre =>
    have hu := hpre u (List.mem_cons_self u pre)
    have hw := walk_loc_mid loc (u :: pre) rest x 0 hpre hx
    have hx2 : x.start_loc ≠ MEM_SIZE := by rw [hx]; exact hloc
    have hget : (u :: (pre ++ x :: rest))[0 + (u :: pre).length]? = some x := by
      rw [Nat.zero_add, List.length_cons, List.getElem?_cons_succ,
        List.getElem?_append_right (le_refl _)]
      simp
    rw [List.cons_append] at hw ⊢
    simp only [find_chunk, hu, if_false, hw, hget, ne_eq, hx2, not_false_eq_true, if_true]
    simp

theorem remove_chunk_idx_at (pre rest : List Chunk) (x : Chunk) (loc : Int)
    (hpre : ∀ u ∈ pre, u.start_loc ≠ loc) (hx : x.start_loc = loc) (hloc : loc ≠ MEM_SIZE) :
    remove_chunk_idx (pre ++ x :: rest) loc = some pre.length :=
  find_chunk_at pre rest x loc hpre hx hloc

theorem can_merge_scan_range (cr : Int) (mid post : List Chunk)
    (hmid : ∀ c ∈ mid, c.start_loc < cr ∧ c.used = false)
    (hpost : ∀ c ∈ post, cr ≤ c.start_loc) :
    can_merge_scan cr (mid ++ post) = true := by
  induction mid with
  | nil =>
    cases post with
    | nil => rfl
    | cons p post =>
      have hp := hpost p (List.mem_cons_self p post)
      simp [can_merge_scan, not_lt.mpr hp]
  | cons c mid ih =>
    have hc := hmid c (List.mem_cons_self c mid)
    have := ih (fun y hy => hmid y (List.mem_cons_of_mem c hy))
    simp [can_merge_scan, hc.1, hc.2, this]

theorem merge_loop_range (cr : Int) (pre mid post : List Chunk) (b1c : Chunk)
    (hcr : cr ≤ MEM_SIZE)
    (hpre : ∀ c ∈ pre, c.start_loc < b1c.start_loc)
    (hmid : ∀ c ∈ mid, b1c.start_loc < c.start_loc ∧ c.start_loc < cr)
    (hpost : ∀ c ∈ post, cr ≤ c.start_loc) :
    merge_loop cr (mid ++ post) (pre ++ b1c :: (mid ++ post)) pre.length =
      some (pre ++ b1c :: post, pre.length) := by
  induction mid with
  | nil =>
    cases post with
    | nil => rfl
    | cons p post =>
      have hp := hpost p (List.mem_cons_self p post)
      simp [merge_loop, not_lt.mpr hp]
  | cons c mid ih =>
    have hc := hmid c (List.mem_cons_self c mid)
    have hih := ih (fun y hy => hmid y (List.mem_cons_of_mem c hy))
    have hidx : remove_chunk_idx (pre ++ b1c :: c :: (mid ++ post)) c.start_loc =
        some (pre ++ [b1c]).length := by
      have := remove_chunk_idx_at (pre ++ [b1c]) (mid ++ post) c c.start_loc
        (by
          intro u hu
          rcases List.mem_append.mp hu with h | h
          · have := hpre u h
            omega
          · rw [List.mem_singleton] at h
            rw [h]
            omega)
        rfl (by omega)
      simpa using this
    have hlen : (pre ++ [b1c]).length = pre.length + 1 := by simp
    have herase : (pre ++ b1c :: c :: (mid ++ post)).eraseIdx (pre.length + 1) =
        pre ++ b1c :: (mid ++ post) := by
      rw [List.eraseIdx_append_of_length_le (by omega)]
      simp
    rw [List.cons_append, merge_loop, if_pos hc.2, hidx, hlen]
    simp only [Nat.succ_ne_self, if_false, herase, hih,
      show ¬ (pre.length + 1 < pre.length) by omega]

theorem buddy_free_loop_step (loc : Int) (q : Buddies) (rest : List Buddies)
    (pre mid post : List Chunk) (b1c : Chunk)
    (hq : q.b1_loc ≤ loc) (hact : q.active = true) (hlt : q.b1_loc < q.b2_loc)
    (hcr : q.b1_loc + (q.b2_loc - q.b1_loc) * 2 ≤ MEM_SIZE)
    (hpre : ∀ c ∈ pre, c.start_loc < q.b1_loc)
    (hb1 : b1c.start_loc = q.b1_loc) (hb1f : b1c.used = false)
    (hmid : ∀ c ∈ mid, q.b1_loc < c.start_loc ∧
      c.start_loc < q.b1_loc + (q.b2_loc - q.b1_loc) * 2 ∧ c.used = false)
    (hpost : ∀ c ∈ post, q.b1_loc + (q.b2_loc - q.b1_loc) * 2 ≤ c.start_loc) :
    buddy_free_loop loc (q :: rest) (pre ++ b1c :: (mid ++ post)) =
      (buddy_free_loop loc rest
        (pre ++ { b1c with chunk_size := q.b1_loc + (q.b2_loc - q.b1_loc) * 2 } :: post)).map
        (fun r => ({ q with active := false } :: r.1, r.2)) := by
  have hfind : find_chunk (pre ++ b1c :: (mid ++ post)) q.b1_loc = some pre.length :=
    find_chunk_at pre (mid ++ post) b1c q.b1_loc
      (fun u hu => by have := hpre u hu; omega) hb1
      (by simp only [MEM_SIZE] at hcr ⊢; omega)
  have hscan : can_merge_scan (q.b1_loc + (q.b2_loc - q.b1_loc) * 2)
      ((pre ++ b1c :: (mid ++ post)).drop pre.length) = true := by
    rw [List.drop_left]
    exact can_merge_scan_range _ (b1c :: mid) post
      (by
        intro c hc
        rcases List.mem_cons.mp hc with h | h
        · rw [h]
          exact ⟨by omega, hb1f⟩
        · have := hmid c h
          exact ⟨by omega, this.2.2⟩)
      (fun c hc => by have := hpost c hc; omega)
  have hdrop : (pre ++ b1c :: (mid ++ post)).drop (pre.length + 1) = mid ++ post := by
    have : pre ++ b1c :: (mid ++ post) = (pre ++ [b1c]) ++ (mid ++ post) := by simp
    rw [this, show pre.length + 1 = (pre ++ [b1c]).length by simp, List.drop_left]
  have hmerge := merge_loop_range (q.b1_loc + (q.b2_loc - q.b1_loc) * 2) pre mid post b1c
    hcr (fun c hc => by have := hpre c hc; omega)
    (fun c hc => by have := hmid c hc; omega)
    (fun c hc => by have := hpost c hc; omega)
  have hget : (pre ++ b1c :: post)[pre.length]? = some b1c := by
    rw [List.getElem?_append_right (le_refl _)]
    simp
  have hset : (pre ++ b1c :: post).set pre.length
      { b1c with chunk_size := q.b1_loc + (q.b2_loc - q.b1_loc) * 2 } =
      pre ++ { b1c with chunk_size := q.b1_loc + (q.b2_loc - q.b1_loc) * 2 } :: post := by
    rw [List.set_append_right _ _ (le_refl _)]
    simp
  rw [buddy_free_loop]
  simp only [hq, hact, if_true, hfind, hscan, hdrop, hmerge, hget, hset]
  cases buddy_free_loop loc rest
    (pre ++ { b1c with chunk_size := q.b1_loc + (q.b2_loc - q.b1_loc) * 2 } :: post) with
  | none => rfl
  | some r => rfl

/-- C12 as stated fails. In buddy mode with region base 65536, after `my_malloc(2000)`
the pair `(0, 2048)` is active, and when `my_free` of the pointer examines it the range
`[0, 4096)` holds the free chunks `(0, 2048)` and `(2048, 2048)`; after the call the
chunk at 0 has `chunk_size` 1048576 and not `2 * (2048 - 0)`, because the later pairs
`(0, 4096)`, ..., `(0, 524288)` examined by the same call enlarge it further. -/
theorem coalescing_cascades_past_first_pair :
    (run [Call.malloc 2000] (setup 0 1048576 65536 Mem.init) []).map
      (fun r => (r.1.first_pair.take 2, (shape r.1.first_chunk).take 3)) =
      some ([⟨0, 2048, true⟩, ⟨0, 4096, true⟩],
        [(0, 2048, true), (2048, 2048, false), (4096, 4096, false)]) ∧
    (run [Call.malloc 2000, Call.free 0] (setup 0 1048576 65536 Mem.init) []).map
      (fun r => (r.1.first_pair.take 2, shape r.1.first_chunk)) =
      some ([⟨0, 2048, false⟩, ⟨0, 4096, false⟩], [(0, 1048576, false), (1048576, 0, false)]) ∧
    (1048576 : Int) ≠ 2 * (2048 - 0) := by
  refine ⟨by decide, by decide, by decide⟩

/-- C12, amended. In the loop of `buddy_free` over the pair registry, let the map be
ordered by `start_loc` around the range of the active pair `q = (b1, b2)` under
examination: the chunks before the chunk `b1c` at `b1` start below `b1`, the chunks
`mid` start inside `(b1, b1 + 2 * (b2 - b1))`, the chunks `post` start at or behind the
end of the range, and the range ends at or before `MEM_SIZE`. If `b1c` and all of `mid`
are free, then the loop goes on to the later pairs with `q` inactive and with the map in
which the chunks `mid` are removed and `b1c` is kept with a new `chunk_size`; when
`b1 = 0` that size is `2 * (b2 - b1)`. When the loop has ended, `q` is inactive and no
chunk of the map starts strictly inside the range. -/
theorem coalesce_pair (loc : Int) (q : Buddies) (rest : List Buddies)
    (pre mid post : List Chunk) (b1c : Chunk)
    (hq : q.b1_loc ≤ loc) (hact : q.active = true) (hlt : q.b1_loc < q.b2_loc)
    (hcr : q.b1_loc + 2 * (q.b2_loc - q.b1_loc) ≤ MEM_SIZE)
    (hpre : ∀ c ∈ pre, c.start_loc < q.b1_loc)
    (hb1 : b1c.start_loc = q.b1_loc) (hb1f : b1c.used = false)
    (hmid : ∀ c ∈ mid, q.b1_loc < c.start_loc ∧
      c.start_loc < q.b1_loc + 2 * (q.b2_loc - q.b1_loc) ∧ c.used = false)
    (hpost : ∀ c ∈ post, q.b1_loc + 2 * (q.b2_loc - q.b1_loc) ≤ c.start_loc) :
    (∃ sz : Int, (q.b1_loc = 0 → sz = 2 * (q.b2_loc - q.b1_loc)) ∧
      buddy_free_loop loc (q :: rest) (pre ++ b1c :: (mid ++ post)) =
        (buddy_free_loop loc rest (pre ++ { b1c with chunk_size := sz } :: post)).map
          (fun r => ({ q with active := false } :: r.1, r.2))) ∧
    (∀ (ps1 : List Buddies) (first1 : List Chunk),
      buddy_free_loop loc (q :: rest) (pre ++ b1c :: (mid ++ post)) = some (ps1, first1) →
      ps1.head? = some { q with active := false } ∧
      ∀ c ∈ first1, ¬ (q.b1_loc < c.start_loc ∧
        c.start_loc < q.b1_loc + 2 * (q.b2_loc - q.b1_loc))) := by
  have h2 : q.b1_loc + (q.b2_loc - q.b1_loc) * 2 = q.b1_loc + 2 * (q.b2_loc - q.b1_loc) := by
    ring
  have hstep := buddy_free_loop_step loc q rest pre mid post b1c hq hact hlt
    (by rw [h2]; exact hcr) hpre hb1 hb1f (fun c hc => by rw [h2]; exact hmid c hc)
    (fun c hc => by rw [h2]; exact hpost c hc)
  refine ⟨⟨q.b1_loc + (q.b2_loc - q.b1_loc) * 2, fun h => by rw [h]; ring, hstep⟩, ?_⟩
  intro ps1 first1 hres
  rw [hstep] at hres
  cases hr : buddy_free_loop loc rest
      (pre ++ { b1c with chunk_size := q.b1_loc + (q.b2_loc - q.b1_loc) * 2 } :: post) with
  | none => simp [hr] at hres
  | some r =>
    obtain ⟨ps2, first2⟩ := r
    rw [hr] at hres
    simp only [Option.map_some', Option.some.injEq, Prod.mk.injEq] at hres
    refine ⟨by rw [← hres.1]; rfl, ?_⟩
    rw [← hres.2]
    apply buddy_free_loop_keeps (fun s => ¬ (q.b1_loc < s ∧
      s < q.b1_loc + 2 * (q.b2_loc - q.b1_loc))) loc rest ps2 _ first2 hr
    intro x hx
    rcases List.mem_append.mp hx with h | h
    · have := hpre x h
      omega
    · rcases List.mem_cons.mp h with h3 | h3
      · rw [h3]
        simp only []
        omega
      · have := hpost x h3
        omega

/-- An instance of one coalescing step: the pair `(0, 2048)` and the free chunks `(0, 2048)`,
`(2048, 2048)` in front of the used chunk `(4096, 4096)`. -/
theorem coalesce_pair_witness :
    buddy_free_loop 0 [⟨0, 2048, true⟩]
      [⟨0, 2048, false, 65536⟩, ⟨2048, 2048, false, 67584⟩, ⟨4096, 4096, true, 69632⟩,
        ⟨1048576, 0, false, 0⟩] =
    some ([⟨0, 2048, false⟩],
      [⟨0, 4096, false, 65536⟩, ⟨4096, 4096, true, 69632⟩, ⟨1048576, 0, false, 0⟩]) := by
  obtain ⟨⟨sz, h0, h⟩, _⟩ := coalesce_pair 0 ⟨0, 2048, true⟩ [] [] [⟨2048, 2048, false, 67584⟩]
    [⟨4096, 4096, true, 69632⟩, ⟨1048576, 0, false, 0⟩] ⟨0, 2048, false, 65536⟩
    (by decide) rfl (by decide) (by decide) (by simp) rfl rfl (by simp) (by simp)
  rw [h0 rfl] at h
  exact h

/-! ## Coalescing after the first allocation -/

theorem mem_free_head (c : Chunk) (rest : List Chunk) (p : Int) (h : c.val_ptr = p) :
    mem_free (c :: rest) p = some ({ c with used := false } :: rest, { c with used := false }) := by
  simp [mem_free, h]

theorem buddy_free_loop_rungs (b : Int) (k : Nat) (p : Int) (hp : 0 < p)
    (hend : p * 2 ^ k = 1048576) :
    buddy_free_loop 0 (rung_pairs k p)
        (⟨0, p, false, b⟩ :: (rungs b k p ++ [create_chunk MEM_SIZE 0 false 0])) =
      some ((rung_pairs k p).map (fun q => { q with active := false }),
        [⟨0, 1048576, false, b⟩, ⟨1048576, 0, false, 0⟩]) := by
  induction k generalizing p with
  | zero =>
    have : p = 1048576 := by simpa using hend
    subst this
    rfl
  | succ k ih =>
    have hend2 : p * 2 * 2 ^ k = 1048576 := by
      rw [← hend, pow_succ]
      ring
    have hpk : (1 : Int) ≤ 2 ^ k := one_le_pow₀ (by norm_num)
    have hle : p * 2 ≤ 1048576 := by nlinarith
    have hstep := buddy_free_loop_step 0 ⟨0, p, true⟩ (rung_pairs k (p * 2)) []
      [⟨p, p, false, b + p⟩] (rungs b k (p * 2) ++ [create_chunk MEM_SIZE 0 false 0])
      ⟨0, p, false, b⟩ (le_refl _) rfl hp
      (by simp only [MEM_SIZE]; omega) (by simp) rfl rfl
      (by
        intro c hc
        rw [List.mem_singleton] at hc
        rw [hc]
        exact ⟨hp, by simp only []; omega, rfl⟩)
      (by
        intro c hc
        rw [List.mem_append, List.mem_singleton] at hc
        rcases hc with h | h
        · have := rungs_ge b k (p * 2) (by omega) c h
          simp only []
          omega
        · rw [h]
          simp only [create_chunk, MEM_SIZE]
          omega)
    have hsz : (0 : Int) + (p - 0) * 2 = p * 2 := by ring
    simp only [hsz] at hstep
    rw [rung_pairs, rungs_succ]
    simp only [List.nil_append, List.singleton_append, List.cons_append] at hstep ⊢
    rw [hstep, ih (p * 2) (by omega) hend2]
    rfl

theorem buddy_free_loop_ladder (b : Int) (j : Nat) (hj2 : j ≤ 20) :
    buddy_free_loop 0 (rung_pairs (20 - j) (2 ^ j))
        (⟨0, 2 ^ j, false, b⟩ :: (rungs b (20 - j) (2 ^ j) ++ [create_chunk MEM_SIZE 0 false 0])) =
      some ((rung_pairs (20 - j) (2 ^ j)).map (fun q => { q with active := false }),
        [⟨0, 1048576, false, b⟩, ⟨1048576, 0, false, 0⟩]) := by
  apply buddy_free_loop_rungs b (20 - j) (2 ^ j) (by positivity)
  rw [← pow_add, show j + (20 - j) = 20 by omega]
  norm_num

theorem allocation_size_cap (n : Int) (h1 : 0 ≤ n) (h2 : n ≤ 1048572) :
    ∃ j : Nat, 10 ≤ j ∧ j ≤ 20 ∧ allocation_size n = 2 ^ j := by
  obtain ⟨j, hj1, _, hA, _, hmax⟩ := allocation_size_pow n (by omega) (by omega)
  obtain ⟨k, _, hk, _, hlt⟩ := next_power_of_2_bounds (n + 4) (by omega) (by omega)
  refine ⟨j, hj1, ?_, hA⟩
  have hk20 : k ≤ 20 := by
    by_contra hcon
    have : (2 : Int) ^ 21 ≤ 2 ^ k := pow_le_pow_right₀ (by norm_num) (by omega)
    norm_num at this
    omega
  have hk2 : (2 : Int) ^ k ≤ 2 ^ 20 := pow_le_pow_right₀ (by norm_num) hk20
  have hle : (2 : Int) ^ j ≤ 2 ^ 20 := by
    rw [← hA, hmax, hk]
    norm_num at hk2 ⊢
    exact hk2
  exact (two_pow_bounds j 0 20 (by rw [pow_zero]; exact one_le_pow₀ (by norm_num)) hle).2

/-- C18. In buddy mode, for every region base, every `mem_size` argument and every `n`
with `0 ≤ n ≤ 1048572`, the first `my_malloc(n)` followed by `my_free` of the pointer it
returned completes and leaves the memory map as the free chunk `(0, 1048576)` followed
by the sentinel `(1048576, 0)`, with every pair of the registry inactive. -/
theorem first_allocation_fully_coalesced (sz b n : Int) (h1 : 0 ≤ n) (h2 : n ≤ 1048572) :
    (run [Call.malloc n, Call.free 0] (setup 0 sz b Mem.init) []).map
      (fun r => (r.1.first_chunk, r.1.first_pair.all (fun q => !q.active), r.2)) =
      some ([⟨0, 1048576, false, b⟩, ⟨1048576, 0, false, 0⟩], true, [b + 4]) := by
  obtain ⟨j, hj1, hj2, hA⟩ := allocation_size_cap n h1 h2
  have hgen := buddy_genesis_init 0 sz b n j hj1 hj2 (by simp only [MEM_SIZE]; omega) hA
  have hmalloc : my_malloc n (setup 0 sz b Mem.init) = buddy_system n (setup 0 sz b Mem.init) := by
    simp [my_malloc, setup]
  have hloop := buddy_free_loop_ladder b j hj2
  simp only [run, hmalloc, hgen, List.nil_append, List.getElem?_cons_zero, my_free, if_true,
    buddy_free, OFFSET, add_sub_cancel_right, mem_free_head _ _ _ rfl, hloop, Option.map_some',
    Option.some.injEq, Prod.mk.injEq, true_and, and_true]
  simp only [List.all_eq_true, List.mem_map]
  rintro q ⟨q0, _, rfl⟩
  rfl

/-- An instance of the full coalescing: the request 2000 with region base
65536. -/
theorem first_allocation_fully_coalesced_witness :
    (run [Call.malloc 2000, Call.free 0] (setup 0 1048576 65536 Mem.init) []).map
      (fun r => (r.1.first_chunk, r.1.first_pair.all (fun q => !q.active), r.2)) =
      some ([⟨0, 1048576, false, 65536⟩, ⟨1048576, 0, false, 0⟩], true, [65536 + 4]) :=
  first_allocation_fully_coalesced 1048576 65536 2000 (by decide) (by decide)

/-! ## The `mem_size` argument of `setup` -/

theorem find_split_size (sz a : Int) (m : Mem) (pre l : List Chunk) :
    find_split a (with_size sz m) pre l =
      (find_split a m pre l).map (fun r => (r.1, with_size sz r.2)) := by
  induction l generalizing pre with
  | nil => rfl
  | cons tmp rest ih =>
    rw [find_split.eq_def, find_split.eq_def]
    simp only []
    split
    · rfl
    · split
      · exact ih _
      · cases rest with
        | nil => rfl
        | cons nxt rest2 =>
          simp only [with_size]
          cases new_buddies m.first_pair tmp.start_loc (tmp.start_loc + a) true with
          | none => rfl
          | some fp =>
            simp only []
            generalize new_chunk _ _ _ _ _ = nc
            cases nc with
            | none => rfl
            | some first2 =>
              simp only []
              generalize split_loop _ _ _ _ _ _ _ _ = sl
              cases sl with
              | none => rfl
              | some r => rfl

theorem find_hole_size (sz a : Int) (m : Mem) :
    find_hole a (with_size sz m) = (find_hole a m).map (fun r => (r.1, with_size sz r.2)) := by
  unfold find_hole
  split
  · rfl
  · rw [find_split_size]
    simp only [with_size]
    cases find_exact a m.start_ptr m.first_chunk with
    | none => rfl
    | some r => rfl

theorem buddy_system_size (sz n : Int) (m : Mem) :
    buddy_system n (with_size sz m) =
      (buddy_system n m).map (fun r => (r.1, with_size sz r.2)) := by
  unfold buddy_system
  split
  · rename_i h
    have h2 : m.is_start = true := h
    simp only [h2, if_true]
    split
    · simp only [with_size]
      generalize genesis_loop _ _ _ _ _ = g
      cases g with
      | none => rfl
      | some first1 =>
        simp only []
        generalize new_chunk _ _ _ _ _ = nc
        cases nc with
        | none => rfl
        | some l =>
          cases l with
          | nil => rfl
          | cons c0 rest =>
            simp only []
            split
            · cases rest with
              | nil => rfl
              | cons c1 rest2 =>
                simp only []
                generalize genesis_pairs _ _ _ = gp
                cases gp with
                | none => rfl
                | some fp => rfl
            · rfl
    · rfl
  · rename_i h
    have h2 : ¬ m.is_start = true := h
    simp only [h2, if_false, find_hole_size]
    cases find_hole (allocation_size n) m with
    | none => rfl
    | some r =>
      simp only [Option.map_some']
      split <;> rfl

theorem buddy_free_size (sz p : Int) (m : Mem) :
    buddy_free p (with_size sz m) = (buddy_free p m).map (with_size sz) := by
  unfold buddy_free
  simp only [with_size]
  cases mem_free m.first_chunk (p - OFFSET) with
  | none => rfl
  | some r =>
    simp only []
    cases buddy_free_loop r.2.start_loc m.first_pair r.1 with
    | none => rfl
    | some r2 => rfl

theorem slab_first_size (sz n a : Int) (m : Mem) :
    slab_first n a (with_size sz m) =
      (slab_first n a m).map (fun r => (r.1, with_size sz r.2)) := by
  unfold slab_first
  rw [buddy_system_size]
  cases buddy_system (wrap32 (a - OFFSET)) m with
  | none => rfl
  | some r =>
    simp only [Option.map_some', with_size]
    generalize new_slab _ _ _ _ = ns
    cases ns with
    | none => rfl
    | some fs =>
      simp only []
      generalize new_chunk _ _ _ _ _ = nc
      cases nc with
      | none => rfl
      | some first1 =>
        simp only []
        generalize slab_genesis_loop _ _ _ _ _ = g
        cases g with
        | none => rfl
        | some first2 => rfl

theorem slab_take_size (sz : Int) (m : Mem) (ri : Nat) :
    slab_take (with_size sz m) ri =
      (slab_take m ri).map (fun r => (r.1, with_size sz r.2)) := by
  unfold slab_take
  simp only [with_size]
  cases m.first_slab[ri]? with
  | none => rfl
  | some rec =>
    simp only []
    cases find_chunk_by_ptr m.first_chunk rec.ptr with
    | none => rfl
    | some i =>
      simp only []
      cases m.first_chunk[i]? with
      | none => rfl
      | some blk =>
        simp only []
        generalize slab_scan _ _ = sc
        cases sc with
        | none => rfl
        | some r => rfl

theorem slab_grow_size (sz n a : Int) (m : Mem) :
    slab_grow n a (with_size sz m) =
      (slab_grow n a m).map (fun r => (r.1, with_size sz r.2)) := by
  unfold slab_grow
  rw [buddy_system_size]
  cases buddy_system (wrap32 (a - OFFSET)) m with
  | none => rfl
  | some r =>
    simp only [Option.map_some', with_size]
    split
    · rfl
    · generalize new_slab _ _ _ _ = ns
      cases ns with
      | none => rfl
      | some fs =>
        simp only []
        cases find_chunk_by_ptr r.2.first_chunk (r.1 - OFFSET) with
        | none => rfl
        | some i =>
          simp only []
          cases r.2.first_chunk[i]? with
          | none => rfl
          | some a_chunk =>
            simp only []
            generalize new_chunk _ _ _ _ _ = nc
            cases nc with
            | none => rfl
            | some first1 =>
              simp only []
              generalize slab_slots_loop _ _ _ _ _ = g
              cases g with
              | none => rfl
              | some first2 => rfl

theorem slab_alloc_size (sz n : Int) (m : Mem) :
    slab_alloc n (with_size sz m) =
      (slab_alloc n m).map (fun r => (r.1, with_size sz r.2)) := by
  unfold slab_alloc
  split
  · rfl
  · rw [slab_first_size, slab_grow_size]
    have h1 : (with_size sz m).is_start = m.is_start := rfl
    have h2 : (with_size sz m).first_slab = m.first_slab := rfl
    rw [h1, h2]
    split
    · rfl
    · cases find_slab m.first_slab (wrap32 (n + OFFSET)) with
      | none => rfl
      | some ri => exact slab_take_size sz m ri

theorem slab_release_size (sz p : Int) (m : Mem) (ri : Nat) :
    slab_release p (with_size sz m) ri = (slab_release p m ri).map (with_size sz) := by
  unfold slab_release
  have h2 : (with_size sz m).first_slab = m.first_slab := rfl
  have h3 : (with_size sz m).first_chunk = m.first_chunk := rfl
  rw [h2, h3]
  cases m.first_slab[ri]? with
  | none => rfl
  | some rm =>
    simp only []
    split
    · rfl
    · split
      · cases find_chunk_by_ptr m.first_chunk rm.ptr with
        | none => rfl
        | some i =>
          simp only []
          cases m.first_chunk[i]? with
          | none => rfl
          | some remover =>
            simp only []
            have h4 := buddy_free_size sz (rm.ptr + OFFSET)
              { m with first_chunk :=
                  (slab_remove_loop rm.chunk_size 64 (remover.start_loc + 2 * OFFSET)
                    m.first_chunk) }
            simp only [with_size] at h4 ⊢
            rw [h4]
            generalize buddy_free _ _ = bf
            cases bf with
            | none => rfl
            | some m1 => rfl
      · rfl

theorem slab_free_size (sz p : Int) (m : Mem) :
    slab_free p (with_size sz m) = (slab_free p m).map (with_size sz) := by
  unfold slab_free
  have h2 : (with_size sz m).first_slab = m.first_slab := rfl
  rw [h2]
  cases m.first_slab with
  | nil => rfl
  | cons rm0 rest =>
    simp only []
    split
    · rfl
    · exact slab_release_size sz p m _

theorem my_malloc_size (sz n : Int) (m : Mem) :
    my_malloc n (with_size sz m) =
      (my_malloc n m).map (fun r => (r.1, with_size sz r.2)) := by
  unfold my_malloc
  have h1 : (with_size sz m).type = m.type := rfl
  rw [h1, buddy_system_size, slab_alloc_size]
  split
  · rfl
  · split <;> rfl

theorem my_free_size (sz p : Int) (m : Mem) :
    my_free p (with_size sz m) = (my_free p m).map (with_size sz) := by
  unfold my_free
  have h1 : (with_size sz m).type = m.type := rfl
  rw [h1, buddy_free_size, slab_free_size]
  split
  · rfl
  · split <;> rfl

theorem run_size (sz : Int) (calls : List Call) (m : Mem) (ps : List Int) :
    run calls (with_size sz m) ps =
      (run calls m ps).map (fun r => (with_size sz r.1, r.2)) := by
  induction calls generalizing m ps with
  | nil => rfl
  | cons c calls ih =>
    cases c with
    | malloc n =>
      rw [run, run, my_malloc_size]
      cases my_malloc n m with
      | none => rfl
      | some r => exact ih r.2 _
    | free k =>
      rw [run, run]
      cases ps[k]? with
      | none => rfl
      | some p =>
        simp only []
        rw [my_free_size]
        cases my_free p m with
        | none => rfl
        | some m1 => exact ih m1 ps

/-- C20. The `mem_size` argument of `setup` has no effect. For every strategy, region
base and state, `my_malloc` and `my_free` on a state whose copy of `mem_size` is replaced
return the same pointer and the same state apart from that copy; hence two runs of the
same calls after `setup` with two `mem_size` arguments either both fail to complete or
return the same pointers and end in the same memory map, pair registry and slab
registry. The only capacity compared against is the constant `MEM_SIZE = 1048576`. -/
theorem mem_size_has_no_effect (ty b sz1 sz2 : Int) (calls : List Call) :
    (∀ (m : Mem) (n : Int), my_malloc n (with_size sz2 m) =
      (my_malloc n m).map (fun r => (r.1, with_size sz2 r.2))) ∧
    (∀ (m : Mem) (p : Int), my_free p (with_size sz2 m) = (my_free p m).map (with_size sz2)) ∧
    (run calls (setup ty sz2 b Mem.init) []).map
        (fun r => (r.2, r.1.first_chunk, r.1.first_pair, r.1.first_slab)) =
      (run calls (setup ty sz1 b Mem.init) []).map
        (fun r => (r.2, r.1.first_chunk, r.1.first_pair, r.1.first_slab)) ∧
    MEM_SIZE = 1048576 := by
  refine ⟨fun m n => my_malloc_size sz2 n m, fun m p => my_free_size sz2 p m, ?_, rfl⟩
  have h : setup ty sz2 b Mem.init = with_size sz2 (setup ty sz1 b Mem.init) := rfl
  rw [h, run_size]
  cases run calls (setup ty sz1 b Mem.init) [] with
  | none => rfl
  | some r => rfl

/-! ## Slab mode: offsets in the memory map stay non-negative -/

theorem mem_new_chunk_walk (tmp : Chunk) (loc : Int) (s : Chunk) (rest : List Chunk) (x : Chunk)
    (hx : x ∈ new_chunk_walk tmp loc s rest) : x = tmp ∨ x = s ∨ x ∈ rest := by
  induction rest generalizing s with
  | nil =>
    simp only [new_chunk_walk, List.mem_cons, List.mem_singleton, List.not_mem_nil, or_false] at hx
    rcases hx with h | h
    · exact Or.inr (Or.inl h)
    · exact Or.inl h
  | cons nxt rest ih =>
    rw [new_chunk_walk] at hx
    split at hx
    · rcases List.mem_cons.mp hx with h | h
      · exact Or.inr (Or.inl h)
      · rcases ih nxt h with h1 | h1 | h1
        · exact Or.inl h1
        · exact Or.inr (Or.inr (by rw [h1]; exact List.mem_cons_self _ _))
        · exact Or.inr (Or.inr (List.mem_cons_of_mem _ h1))
    · rcases List.mem_cons.mp hx with h | h
      · exact Or.inr (Or.inl h)
      · rcases List.mem_cons.mp h with h1 | h1
        · exact Or.inl h1
        · exact Or.inr (Or.inr h1)

theorem mem_new_chunk (first l : List Chunk) (loc size : Int) (used : Bool) (ptr : Int)
    (h : new_chunk first loc size used ptr = some l) (x : Chunk) (hx : x ∈ l) :
    x = ⟨loc, size, used, ptr⟩ ∨ x ∈ first := by
  cases first with
  | nil => simp [new_chunk] at h
  | cons c rest =>
    rw [new_chunk] at h
    split at h
    · rw [Option.some.injEq] at h
      rw [← h] at hx
      rcases List.mem_cons.mp hx with h1 | h1
      · exact Or.inl h1
      · exact Or.inr h1
    · rw [Option.some.injEq] at h
      rw [← h] at hx
      rcases mem_new_chunk_walk _ _ _ _ _ hx with h1 | h1 | h1
      · exact Or.inl h1
      · exact Or.inr (by rw [h1]; exact List.mem_cons_self _ _)
      · exact Or.inr (List.mem_cons_of_mem _ h1)

theorem new_chunk_nonneg (first l : List Chunk) (loc size : Int) (used : Bool) (ptr : Int)
    (h : new_chunk first loc size used ptr = some l) (hK : offsets_nonneg first)
    (hloc : 0 ≤ loc) : offsets_nonneg l := by
  intro x hx
  rcases mem_new_chunk first l loc size used ptr h x hx with h1 | h1
  · rw [h1]
    exact hloc
  · exact hK x h1

theorem genesis_loop_nonneg (sp : Int) (fuel : Nat) (p_loc p_size : Int) (first l : List Chunk)
    (h : genesis_loop sp fuel p_loc p_size first = some l) (hloc : 0 ≤ p_loc)
    (hsize : 0 ≤ p_size) (hK : offsets_nonneg first) : offsets_nonneg l := by
  induction fuel generalizing p_loc p_size first with
  | zero =>
    rw [genesis_loop] at h
    split at h
    · exact absurd h (by simp)
    · rw [Option.some.injEq] at h
      rw [← h]
      exact hK
  | succ fuel ih =>
    rw [genesis_loop] at h
    split at h
    · cases hnc : new_chunk first p_loc p_size false (sp + p_loc) with
      | none => simp [hnc] at h
      | some first1 =>
        rw [hnc] at h
        exact ih (p_loc + p_size) (p_size * 2) first1 h (by omega) (by omega)
          (new_chunk_nonneg _ _ _ _ _ _ hnc hK hloc)
    · rw [Option.some.injEq] at h
      rw [← h]
      exact hK

theorem split_loop_nonneg (sp cl nl : Int) (fuel : Nat) (p_loc p_size : Int)
    (first l : List Chunk) (fp fp1 : List Buddies)
    (h : split_loop sp cl nl fuel p_loc p_size first fp = some (l, fp1)) (hloc : 0 ≤ p_loc)
    (hsize : 0 ≤ p_size) (hK : offsets_nonneg first) : offsets_nonneg l := by
  induction fuel generalizing p_loc p_size first fp with
  | zero =>
    rw [split_loop] at h
    split at h
    · exact absurd h (by simp)
    · rw [Option.some.injEq, Prod.mk.injEq] at h
      rw [← h.1]
      exact hK
  | succ fuel ih =>
    rw [split_loop] at h
    split at h
    · cases hnb : new_buddies fp cl p_loc true with
      | none => simp [hnb] at h
      | some fp2 =>
        rw [hnb] at h
        cases hnc : new_chunk first p_loc p_size false (sp + p_loc) with
        | none => simp [hnc] at h
        | some first1 =>
          rw [hnc] at h
          exact ih (p_loc + p_size) (p_size * 2) first1 fp2 h (by omega) (by omega)
            (new_chunk_nonneg _ _ _ _ _ _ hnc hK hloc)
    · rw [Option.some.injEq, Prod.mk.injEq] at h
      rw [← h.1]
      exact hK

theorem find_exact_nonneg (a sp : Int) (first l : List Chunk) (p : Int)
    (h : find_exact a sp first = some (l, p)) (hK : offsets_nonneg first) :
    offsets_nonneg l ∧ ∃ L : Int, 0 ≤ L ∧ p = sp + L := by
  induction first generalizing l p with
  | nil => simp [find_exact] at h
  | cons c rest ih =>
    rw [find_exact] at h
    have hc := hK c (List.mem_cons_self c rest)
    have hrest : offsets_nonneg rest := fun x hx => hK x (List.mem_cons_of_mem c hx)
    split at h
    · rw [Option.some.injEq, Prod.mk.injEq] at h
      refine ⟨?_, c.start_loc, hc, h.2.symm⟩
      rw [← h.1]
      intro x hx
      rcases List.mem_cons.mp hx with h1 | h1
      · rw [h1]
        exact hc
      · exact hrest x h1
    · cases hfe : find_exact a sp rest with
      | none => simp [hfe] at h
      | some r =>
        obtain ⟨l1, p1⟩ := r
        rw [hfe] at h
        simp only [Option.some.injEq, Prod.mk.injEq] at h
        obtain ⟨hK1, hp⟩ := ih l1 p1 hfe hrest
        refine ⟨?_, by rw [← h.2]; exact hp⟩
        rw [← h.1]
        intro x hx
        rcases List.mem_cons.mp hx with h1 | h1
        · rw [h1]
          exact hc
        · exact hK1 x h1

theorem find_split_nonneg (a : Int) (m : Mem) (pre l : List Chunk) (p : Int) (m1 : Mem)
    (h : find_split a m pre l = some (p, m1)) (hK : offsets_nonneg (pre ++ l)) (ha : 0 ≤ a)
    (hKm : offsets_nonneg m.first_chunk) :
    m1.type = m.type ∧ m1.start_ptr = m.start_ptr ∧ m1.first_slab = m.first_slab ∧
    m1.is_start = m.is_start ∧ offsets_nonneg m1.first_chunk ∧
    (p = -1 ∨ ∃ L : Int, 0 ≤ L ∧ p = m.start_ptr + L) := by
  induction l generalizing pre with
  | nil => simp [find_split] at h
  | cons tmp rest ih =>
    rw [find_split.eq_def] at h
    simp only [] at h
    split at h
    · rw [Option.some.injEq, Prod.mk.injEq] at h
      rw [← h.2]
      exact ⟨rfl, rfl, rfl, rfl, hKm, Or.inl h.1.symm⟩
    · split at h
      · exact ih (pre ++ [tmp]) h (by simpa using hK)
      · cases rest with
        | nil => simp at h
        | cons nxt rest2 =>
          simp only [] at h
          have htmp : 0 ≤ tmp.start_loc := hK tmp (by simp)
          cases hnb : new_buddies m.first_pair tmp.start_loc (tmp.start_loc + a) true with
          | none => simp [hnb] at h
          | some fp =>
            rw [hnb] at h
            simp only [] at h
            have hK1 : offsets_nonneg (pre ++ (⟨tmp.start_loc, a, true, m.start_ptr + tmp.start_loc⟩ : Chunk) :: nxt :: rest2) := by
              intro x hx
              rcases List.mem_append.mp hx with h1 | h1
              · exact hK x (List.mem_append_left _ h1)
              · rcases List.mem_cons.mp h1 with h2 | h2
                · rw [h2]
                  exact htmp
                · exact hK x (List.mem_append_right _ (List.mem_cons_of_mem _ h2))
            cases hnc : new_chunk (pre ++ (⟨tmp.start_loc, a, true, m.start_ptr + tmp.start_loc⟩ : Chunk) :: nxt :: rest2)
                (tmp.start_loc + a) a false (m.start_ptr + (tmp.start_loc + a)) with
            | none => simp [hnc] at h
            | some first2 =>
              rw [hnc] at h
              simp only [] at h
              have hK2 := new_chunk_nonneg _ _ _ _ _ _ hnc hK1 (by omega)
              cases hsl : split_loop m.start_ptr tmp.start_loc nxt.start_loc 32
                  (tmp.start_loc + a + a) (a * 2) first2 fp with
              | none => simp [hsl] at h
              | some r =>
                obtain ⟨first3, fp3⟩ := r
                rw [hsl] at h
                simp only [Option.some.injEq, Prod.mk.injEq] at h
                have hK3 := split_loop_nonneg _ _ _ _ _ _ _ _ _ _ hsl (by omega) (by omega) hK2
                rw [← h.2]
                exact ⟨rfl, rfl, rfl, rfl, hK3, Or.inr ⟨tmp.start_loc, htmp, h.1.symm⟩⟩

theorem find_hole_nonneg (a : Int) (m : Mem) (p : Int) (m1 : Mem)
    (h : find_hole a m = some (p, m1)) (hK : offsets_nonneg m.first_chunk) (ha : 0 ≤ a) :
    m1.type = m.type ∧ m1.start_ptr = m.start_ptr ∧ m1.first_slab = m.first_slab ∧
    m1.is_start = m.is_start ∧ offsets_nonneg m1.first_chunk ∧
    (p = -1 ∨ ∃ L : Int, 0 ≤ L ∧ p = m.start_ptr + L) := by
  unfold find_hole at h
  split at h
  · rw [Option.some.injEq, Prod.mk.injEq] at h
    rw [← h.2]
    exact ⟨rfl, rfl, rfl, rfl, hK, Or.inl h.1.symm⟩
  · cases hfe : find_exact a m.start_ptr m.first_chunk with
    | none =>
      rw [hfe] at h
      exact find_split_nonneg a m [] m.first_chunk p m1 h (by simpa using hK) ha hK
    | some r =>
      obtain ⟨l, q⟩ := r
      rw [hfe] at h
      simp only [Option.some.injEq, Prod.mk.injEq] at h
      obtain ⟨hK1, hL⟩ := find_exact_nonneg a m.start_ptr m.first_chunk l q hfe hK
      rw [← h.2, ← h.1]
      exact ⟨rfl, rfl, rfl, rfl, hK1, Or.inr hL⟩

theorem allocation_size_pos (n : Int) : 1024 ≤ allocation_size n := by
  unfold allocation_size
  simp only [MIN_SIZE_ALLOC]
  split <;> omega

theorem buddy_system_nonneg (n : Int) (m : Mem) (p : Int) (m1 : Mem)
    (h : buddy_system n m = some (p, m1))
    (hK : m.is_start = false → offsets_nonneg m.first_chunk) :
    m1.type = m.type ∧ m1.start_ptr = m.start_ptr ∧ m1.first_slab = m.first_slab ∧
    m1.is_start = false ∧ offsets_nonneg m1.first_chunk ∧
    (p = -1 ∨ ∃ L : Int, 0 ≤ L ∧ p = m.start_ptr + L + 4) := by
  have hA := allocation_size_pos n
  unfold buddy_system at h
  split at h
  · split at h
    · simp only [] at h
      cases hg : genesis_loop m.start_ptr 32 (allocation_size n) (allocation_size n)
          [create_chunk 0 (allocation_size n) true m.start_ptr] with
      | none => simp [hg] at h
      | some first1 =>
        rw [hg] at h
        simp only [] at h
        have hK1 := genesis_loop_nonneg _ _ _ _ _ _ hg (by omega) (by omega)
          (by intro x hx; rw [List.mem_singleton] at hx; rw [hx]; exact le_refl _)
        cases hnc : new_chunk first1 MEM_SIZE 0 false 0 with
        | none => simp [hnc] at h
        | some l =>
          rw [hnc] at h
          have hK2 := new_chunk_nonneg _ _ _ _ _ _ hnc hK1 (by simp only [MEM_SIZE]; omega)
          cases l with
          | nil => simp at h
          | cons c0 rest =>
            simp only [] at h
            split at h
            · cases rest with
              | nil => simp at h
              | cons c1 rest2 =>
                simp only [] at h
                cases hgp : genesis_pairs c0.start_loc rest2
                    [create_buddies c0.start_loc c1.start_loc true] with
                | none => simp [hgp] at h
                | some fp =>
                  rw [hgp] at h
                  simp only [Option.some.injEq, Prod.mk.injEq] at h
                  rw [← h.2, ← h.1]
                  exact ⟨rfl, rfl, rfl, rfl, hK2, Or.inr ⟨0, le_refl _, by simp only [OFFSET]; ring⟩⟩
            · simp only [Option.some.injEq, Prod.mk.injEq] at h
              rw [← h.2, ← h.1]
              exact ⟨rfl, rfl, rfl, rfl, hK2, Or.inr ⟨0, le_refl _, by simp only [OFFSET]; ring⟩⟩
    · simp at h
  · rename_i hs
    have hs2 : m.is_start = false := by simpa using hs
    cases hfh : find_hole (allocation_size n) m with
    | none => simp [hfh] at h
    | some r =>
      obtain ⟨q, m2⟩ := r
      rw [hfh] at h
      simp only [] at h
      obtain ⟨h1, h2, h3, h4, h5, h6⟩ := find_hole_nonneg _ m q m2 hfh (hK hs2) (by omega)
      split at h
      · rename_i hq
        simp only [Option.some.injEq, Prod.mk.injEq] at h
        rw [← h.2, ← h.1]
        exact ⟨h1, h2, h3, by rw [h4, hs2], h5, Or.inl hq⟩
      · rename_i hq
        simp only [Option.some.injEq, Prod.mk.injEq] at h
        rw [← h.2, ← h.1]
        refine ⟨h1, h2, h3, by rw [h4, hs2], h5, ?_⟩
        rcases h6 with h7 | ⟨L, hL, hqL⟩
        · exact absurd h7 hq
        · exact Or.inr ⟨L, hL, by simp only [OFFSET]; omega⟩

theorem set_nonneg (l : List Chunk) (i : Nat) (y : Chunk) (hK : offsets_nonneg l)
    (hy : 0 ≤ y.start_loc) : offsets_nonneg (l.set i y) := by
  intro x hx
  rcases List.mem_or_eq_of_mem_set hx with h | h
  · exact hK x h
  · rw [h]
    exact hy

theorem slab_scan_nonneg (cr : Int) (l l1 : List Chunk) (p : Int)
    (h : slab_scan cr l = some (l1, p)) (hK : offsets_nonneg l) : offsets_nonneg l1 := by
  induction l generalizing l1 p with
  | nil => simp [slab_scan] at h
  | cons tmp rest ih =>
    rw [slab_scan] at h
    have htmp := hK tmp (List.mem_cons_self tmp rest)
    have hrest : offsets_nonneg rest := fun x hx => hK x (List.mem_cons_of_mem tmp hx)
    split at h
    · cases hs : slab_scan cr rest with
      | none => simp [hs] at h
      | some r =>
        obtain ⟨l2, p2⟩ := r
        rw [hs] at h
        simp only [Option.some.injEq, Prod.mk.injEq] at h
        rw [← h.1]
        intro x hx
        rcases List.mem_cons.mp hx with h1 | h1
        · rw [h1]
          exact htmp
        · exact ih l2 p2 hs hrest x h1
    · simp only [Option.some.injEq, Prod.mk.injEq] at h
      rw [← h.1]
      intro x hx
      rcases List.mem_cons.mp hx with h1 | h1
      · rw [h1]
        exact htmp
      · exact hrest x h1

theorem slab_genesis_loop_nonneg (sp n : Int) (k : Nat) (a : Int) (first l : List Chunk)
    (h : slab_genesis_loop sp n k a first = some l) (ha : 0 ≤ a) (hak : a + k ≤ 64)
    (hc : 0 ≤ wrap32 (n + OFFSET)) (hc2 : 64 * wrap32 (n + OFFSET) ≤ 1073741824)
    (hK : offsets_nonneg first) : offsets_nonneg l := by
  induction k generalizing a first with
  | zero =>
    rw [slab_genesis_loop, Option.some.injEq] at h
    rw [← h]
    exact hK
  | succ k ih =>
    rw [slab_genesis_loop] at h
    generalize hcdef : wrap32 (n + OFFSET) = c at h hc hc2 ih
    have hprod : 0 ≤ a * c := mul_nonneg ha hc
    have hprod2 : a * c ≤ 64 * c :=
      mul_le_mul_of_nonneg_right (by push_cast at hak; omega) hc
    have hw : wrap32 (2 * OFFSET + a * c) = 8 + a * c := by
      rw [wrap32_of_range] <;> simp only [OFFSET] <;> omega
    simp only [hw] at h
    cases hnc : new_chunk first (8 + a * c) c false (sp + (8 + a * c)) with
    | none => simp [hnc] at h
    | some first1 =>
      rw [hnc] at h
      exact ih (a + 1) first1 h (by omega) (by push_cast at hak ⊢; omega)
        (new_chunk_nonneg _ _ _ _ _ _ hnc hK (by omega))

theorem slab_slots_loop_nonneg (sp n : Int) (k : Nat) (s : Int) (first l : List Chunk)
    (h : slab_slots_loop sp n k s first = some l) (hs : 0 ≤ s)
    (hc : 0 ≤ wrap32 (n + OFFSET)) (hK : offsets_nonneg first) : offsets_nonneg l := by
  induction k generalizing s first with
  | zero =>
    rw [slab_slots_loop, Option.some.injEq] at h
    rw [← h]
    exact hK
  | succ k ih =>
    rw [slab_slots_loop] at h
    cases hnc : new_chunk first (s + wrap32 (n + OFFSET)) (wrap32 (n + OFFSET)) false
        (sp + (s + wrap32 (n + OFFSET))) with
    | none => simp [hnc] at h
    | some first1 =>
      rw [hnc] at h
      exact ih (s + wrap32 (n + OFFSET)) first1 h (by omega)
        (new_chunk_nonneg _ _ _ _ _ _ hnc hK (by omega))

theorem free_slab_chunk_nonneg (l : List Chunk) (p : Int) (hK : offsets_nonneg l) :
    offsets_nonneg (free_slab_chunk l p) := by
  cases l with
  | nil => exact hK
  | cons c rest =>
    rw [free_slab_chunk]
    split
    · intro x hx
      rcases List.mem_cons.mp hx with h1 | h1
      · rw [h1]
        exact hK c (List.mem_cons_self c rest)
      · exact hK x (List.mem_cons_of_mem c h1)
    · split
      · exact hK
      · rename_i i hi
        split
        · exact hK
        · rename_i t ht
          split
          · exact set_nonneg _ _ _ hK (hK t (List.getElem?_mem ht))
          · exact hK

theorem remove_chunk_nonneg (l : List Chunk) (loc : Int) (hK : offsets_nonneg l) :
    offsets_nonneg (remove_chunk l loc) := by
  unfold remove_chunk
  split
  · exact hK
  · intro x hx
    exact hK x (List.mem_of_mem_eraseIdx hx)

theorem slab_remove_loop_nonneg (c : Int) (k : Nat) (s : Int) (l : List Chunk)
    (hK : offsets_nonneg l) : offsets_nonneg (slab_remove_loop c k s l) := by
  induction k generalizing s l with
  | zero => exact hK
  | succ k ih =>
    rw [slab_remove_loop]
    exact ih _ _ (remove_chunk_nonneg l s hK)

theorem mem_free_nonneg (l l1 : List Chunk) (p : Int) (c : Chunk)
    (h : mem_free l p = some (l1, c)) (hK : offsets_nonneg l) : offsets_nonneg l1 := by
  cases l with
  | nil => simp [mem_free] at h
  | cons c0 rest =>
    rw [mem_free] at h
    split at h
    · simp only [Option.some.injEq, Prod.mk.injEq] at h
      rw [← h.1]
      intro x hx
      rcases List.mem_cons.mp hx with h1 | h1
      · rw [h1]
        exact hK c0 (List.mem_cons_self c0 rest)
      · exact hK x (List.mem_cons_of_mem c0 h1)
    · split at h
      · simp at h
      · rename_i i hi
        split at h
        · simp at h
        · rename_i t ht
          split at h
          · simp only [Option.some.injEq, Prod.mk.injEq] at h
            rw [← h.1]
            exact set_nonneg _ _ _ hK (hK t (List.getElem?_mem ht))
          · simp at h

theorem merge_loop_nonneg (cr : Int) (l first first1 : List Chunk) (i1 j1 : Nat)
    (h : merge_loop cr l first i1 = some (first1, j1)) (hK : offsets_nonneg first) :
    offsets_nonneg first1 :=
  merge_loop_keeps (fun s => 0 ≤ s) cr l first first1 i1 j1 h hK

theorem buddy_free_loop_nonneg (loc : Int) (ps ps1 : List Buddies) (first first1 : List Chunk)
    (h : buddy_free_loop loc ps first = some (ps1, first1)) (hK : offsets_nonneg first) :
    offsets_nonneg first1 :=
  buddy_free_loop_keeps (fun s => 0 ≤ s) loc ps ps1 first first1 h hK

theorem buddy_free_nonneg (p : Int) (m m1 : Mem) (h : buddy_free p m = some m1)
    (hK : offsets_nonneg m.first_chunk) :
    m1.type = m.type ∧ m1.start_ptr = m.start_ptr ∧ m1.first_slab = m.first_slab ∧
    m1.is_start = m.is_start ∧ offsets_nonneg m1.first_chunk := by
  unfold buddy_free at h
  cases hmf : mem_free m.first_chunk (p - OFFSET) with
  | none => simp [hmf] at h
  | some r =>
    obtain ⟨first1, c⟩ := r
    rw [hmf] at h
    simp only [] at h
    have hK1 := mem_free_nonneg _ _ _ _ hmf hK
    cases hl : buddy_free_loop c.start_loc m.first_pair first1 with
    | none => simp [hl] at h
    | some r2 =>
      obtain ⟨ps, first2⟩ := r2
      rw [hl] at h
      simp only [Option.some.injEq] at h
      rw [← h]
      exact ⟨rfl, rfl, rfl, rfl, buddy_free_loop_nonneg _ _ _ _ _ hl hK1⟩

/-! ## Slab mode: the registry keeps its dummy head and its order -/

theorem new_slab_walk_spec (tmp : Slab) (s : Slab) (rest : List Slab)
    (hs : s.chunk_size ≤ tmp.chunk_size)
    (hsorted : ((s :: rest).map (fun x => x.chunk_size)).Pairwise (· ≤ ·)) :
    ∃ rest1, new_slab_walk tmp tmp.chunk_size s rest = s :: rest1 ∧
      ((s :: rest1).map (fun x => x.chunk_size)).Pairwise (· ≤ ·) ∧
      ∀ x ∈ rest1, x = tmp ∨ x ∈ rest := by
  induction rest generalizing s with
  | nil =>
    refine ⟨[tmp], rfl, ?_, fun x hx => Or.inl (List.mem_singleton.mp hx)⟩
    simp [hs]
  | cons nxt rest ih =>
    rw [new_slab_walk]
    simp only [List.map_cons, List.pairwise_cons] at hsorted
    split
    · rename_i hle
      obtain ⟨rest1, h1, h2, h3⟩ := ih nxt hle (by
        simp only [List.map_cons, List.pairwise_cons]
        exact hsorted.2)
      refine ⟨nxt :: rest1, by rw [h1], ?_, ?_⟩
      · simp only [List.map_cons, List.pairwise_cons] at h2 ⊢
        refine ⟨?_, h2⟩
        intro y hy
        rcases List.mem_cons.mp hy with h | h
        · rw [h]
          exact hsorted.1 _ (List.mem_cons_self _ _)
        · obtain ⟨x, hx, rfl⟩ := List.mem_map.mp h
          rcases h3 x hx with h4 | h4
          · rw [h4]
            exact hs
          · exact hsorted.1 _ (List.mem_cons_of_mem _ (List.mem_map.mpr ⟨x, h4, rfl⟩))
      · intro x hx
        rcases List.mem_cons.mp hx with h | h
        · exact Or.inr (by rw [h]; exact List.mem_cons_self _ _)
        · rcases h3 x h with h4 | h4
          · exact Or.inl h4
          · exact Or.inr (List.mem_cons_of_mem _ h4)
    · rename_i hgt
      refine ⟨tmp :: nxt :: rest, rfl, ?_, ?_⟩
      · simp only [List.map_cons, List.pairwise_cons]
        refine ⟨?_, ?_, hsorted.2⟩
        · intro y hy
          rcases List.mem_cons.mp hy with h | h
          · rw [h]
            exact hs
          · exact hsorted.1 y h
        · intro y hy
          have hnxt : tmp.chunk_size ≤ nxt.chunk_size := by omega
          rcases List.mem_cons.mp hy with h | h
          · rw [h]
            exact hnxt
          · exact le_trans hnxt (hsorted.2.1 y h)
      · intro x hx
        rcases List.mem_cons.mp hx with h | h
        · exact Or.inl h
        · exact Or.inr h

theorem new_slab_ok (l l1 : List Slab) (ptr c a : Int) (hok : registry_ok l)
    (hptr : 0 < ptr) (hc : 0 < c) (h : new_slab l ptr c a = some l1) : registry_ok l1 := by
  obtain ⟨rest, hl, hsorted, hrest⟩ := hok
  subst hl
  rw [new_slab] at h
  have hnot : ¬ ((⟨0, 0, 0⟩ : Slab).chunk_size > c) := by simp only []; omega
  rw [if_neg hnot, Option.some.injEq] at h
  obtain ⟨rest1, h1, h2, h3⟩ := new_slab_walk_spec (create_slab ptr c a) ⟨0, 0, 0⟩ rest
    (by simp only [create_slab]; omega) hsorted
  simp only [create_slab] at h1 h
  rw [h1] at h
  refine ⟨rest1, h.symm, by rw [← h]; exact h2, ?_⟩
  intro s hs
  rcases h3 s hs with h4 | h4
  · rw [h4]
    exact ⟨hptr, hc⟩
  · exact hrest s h4

theorem find_slab_walk_ge (c : Int) (l : List Slab) (i r : Nat)
    (h : find_slab_walk c l i = some r) : i ≤ r := by
  induction l generalizing i with
  | nil => simp [find_slab_walk] at h
  | cons s rest ih =>
    rw [find_slab_walk] at h
    split at h
    · have := ih (i + 1) h
      omega
    · simp only [Option.some.injEq] at h
      omega

theorem find_slab_not_dummy (l : List Slab) (c : Int) (hok : registry_ok l) (hc : c ≠ 0) :
    find_slab l c ≠ some 0 := by
  obtain ⟨rest, hl, _, _⟩ := hok
  subst hl
  intro h
  rw [find_slab] at h
  have h1 : ¬ ((⟨0, 0, 0⟩ : Slab).chunk_size = c ∧ (⟨0, 0, 0⟩ : Slab).allocated < N_OBJS_PER_SLAB) := by
    simp only []
    intro hh
    exact hc hh.1.symm
  rw [if_neg h1, find_slab_walk] at h
  have h2 : (⟨0, 0, 0⟩ : Slab).chunk_size ≠ c ∨ (⟨0, 0, 0⟩ : Slab).allocated = N_OBJS_PER_SLAB :=
    Or.inl (fun hh => hc hh.symm)
  rw [if_pos h2] at h
  have := find_slab_walk_ge c rest 1 0 h
  omega

theorem set_getElem?_same {α : Type} (l : List α) (i : Nat) (a : α) (h : l[i]? = some a) :
    l.set i a = l := by
  induction l generalizing i with
  | nil => rfl
  | cons x rest ih =>
    cases i with
    | zero =>
      simp only [List.getElem?_cons_zero, Option.some.injEq] at h
      rw [List.set_cons_zero, h]
    | succ k =>
      rw [List.getElem?_cons_succ] at h
      rw [List.set_cons_succ, ih k h]

theorem registry_set_ok (l : List Slab) (ri : Nat) (rec : Slab) (x : Int)
    (hok : registry_ok l) (hget : l[ri]? = some rec) (hri : ri ≠ 0) :
    registry_ok (l.set ri { rec with allocated := x }) := by
  obtain ⟨rest, hl, hsorted, hrest⟩ := hok
  subst hl
  obtain ⟨k, rfl⟩ : ∃ k, ri = k + 1 := ⟨ri - 1, by omega⟩
  rw [List.getElem?_cons_succ] at hget
  refine ⟨rest.set k { rec with allocated := x }, by rw [List.set_cons_succ], ?_, ?_⟩
  · have hmap : ((⟨0, 0, 0⟩ :: rest : List Slab).set (k + 1) { rec with allocated := x }).map
        (fun s => s.chunk_size) = (⟨0, 0, 0⟩ :: rest : List Slab).map (fun s => s.chunk_size) := by
      rw [List.map_set]
      apply set_getElem?_same
      rw [List.getElem?_map, List.getElem?_cons_succ, hget]
      rfl
    rw [hmap]
    exact hsorted
  · intro s hs
    rcases List.mem_or_eq_of_mem_set hs with h | h
    · exact hrest s h
    · rw [h]
      exact hrest rec (List.getElem?_mem hget)

theorem walk_slab_ptr_ge (p : Int) (l : List Slab) (i r : Nat)
    (h : walk_slab_ptr p l i = some r) : i ≤ r := by
  induction l generalizing i with
  | nil => simp [walk_slab_ptr] at h
  | cons s rest ih =>
    rw [walk_slab_ptr] at h
    split at h
    · have := ih (i + 1) h
      omega
    · simp only [Option.some.injEq] at h
      omega

theorem remove_slab_ok (l : List Slab) (ptr : Int) (hok : registry_ok l) (hptr : ptr ≠ 0) :
    registry_ok (remove_slab l ptr) := by
  obtain ⟨rest, hl, hsorted, hrest⟩ := hok
  subst hl
  rw [remove_slab]
  have h1 : ¬ ((⟨0, 0, 0⟩ : Slab).ptr = ptr) := fun hh => hptr hh.symm
  rw [if_neg h1]
  split
  · exact ⟨rest, rfl, hsorted, hrest⟩
  · rename_i i hi
    rw [walk_slab_ptr, if_pos (by exact fun hh => hptr hh.symm)] at hi
    have hge := walk_slab_ptr_ge ptr rest 1 i hi
    obtain ⟨k, rfl⟩ : ∃ k, i = k + 1 := ⟨i - 1, by omega⟩
    refine ⟨rest.eraseIdx k, by rw [List.eraseIdx_cons_succ], ?_, ?_⟩
    · have hsub : ((⟨0, 0, 0⟩ :: rest : List Slab).eraseIdx (k + 1)).Sublist
          (⟨0, 0, 0⟩ :: rest : List Slab) := List.eraseIdx_sublist _ _
      exact List.Pairwise.sublist (hsub.map _) hsorted
    · intro s hs
      exact hrest s (List.mem_of_mem_eraseIdx hs)

/-! ## Slab mode: the invariant along every call -/

theorem slab_first_inv (b sz n a : Int) (p : Int) (m1 : Mem) (hb : 0 < b)
    (hn : 0 ≤ n) (hr : 64 * (n + 4) ≤ 1073741824)
    (h : slab_first n a (setup 1 sz b Mem.init) = some (p, m1)) : slab_inv b sz m1 := by
  have hw : wrap32 (n + OFFSET) = n + 4 := by
    simp only [OFFSET]
    rw [wrap32_of_range] <;> omega
  unfold slab_first at h
  cases hbs : buddy_system (wrap32 (a - OFFSET)) (setup 1 sz b Mem.init) with
  | none => simp [hbs] at h
  | some r =>
    obtain ⟨ptr, m2⟩ := r
    rw [hbs] at h
    simp only [] at h
    obtain ⟨h1, h2, h3, h4, h5, _⟩ := buddy_system_nonneg _ _ ptr m2 hbs
      (fun hh => by simp [setup, Mem.init] at hh)
    have h2b : m2.start_ptr = b := h2
    have h1b : m2.type = 1 := h1
    rw [hw, h2b] at h
    have hslab : new_slab [create_slab b (n + 4) 1] 0 0 0 = some [⟨0, 0, 0⟩, ⟨b, n + 4, 1⟩] := by
      have : (create_slab b (n + 4) 1).chunk_size > 0 := by simp only [create_slab]; omega
      simp only [new_slab, this, if_true]
      rfl
    rw [hslab] at h
    simp only [] at h
    cases hnc : new_chunk m2.first_chunk (2 * OFFSET) (n + 4) true (b + 2 * OFFSET) with
    | none => simp [hnc] at h
    | some first1 =>
      rw [hnc] at h
      simp only [] at h
      have hK1 := new_chunk_nonneg _ _ _ _ _ _ hnc h5 (by simp only [OFFSET]; omega)
      cases hg : slab_genesis_loop b n 63 1 first1 with
      | none => simp [hg] at h
      | some first2 =>
        rw [hg] at h
        simp only [Option.some.injEq, Prod.mk.injEq] at h
        have hK2 := slab_genesis_loop_nonneg b n 63 1 first1 first2 hg (by omega) (by norm_num)
          (by rw [hw]; omega) (by rw [hw]; omega) hK1
        rw [← h.2]
        refine ⟨h1b, rfl, fun hh => by simp [h4] at hh, fun _ => ⟨?_, hK2⟩⟩
        refine ⟨[⟨b, n + 4, 1⟩], rfl, ?_, ?_⟩
        · simp only [List.map_cons, List.map_nil, List.pairwise_cons, List.mem_singleton,
            forall_eq, List.not_mem_nil, false_implies, implies_true, List.Pairwise.nil,
            and_true]
          omega
        · intro s hs
          rw [List.mem_singleton] at hs
          rw [hs]
          exact ⟨hb, by simp only []; omega⟩

theorem slab_take_inv (b sz : Int) (m : Mem) (ri : Nat) (p : Int) (m1 : Mem)
    (hinv : slab_inv b sz m) (hstart : m.is_start = false) (hri : ri ≠ 0)
    (h : slab_take m ri = some (p, m1)) : slab_inv b sz m1 := by
  obtain ⟨ht, hsp, _, hok⟩ := hinv
  obtain ⟨hreg, hK⟩ := hok hstart
  unfold slab_take at h
  cases hget : m.first_slab[ri]? with
  | none => simp [hget] at h
  | some rec =>
    rw [hget] at h
    simp only [] at h
    cases hf : find_chunk_by_ptr m.first_chunk rec.ptr with
    | none => simp [hf] at h
    | some i =>
      rw [hf] at h
      simp only [] at h
      cases hblk : m.first_chunk[i]? with
      | none => simp [hblk] at h
      | some blk =>
        rw [hblk] at h
        simp only [] at h
        cases hs : slab_scan (blk.start_loc + 2 * OFFSET + wrap32 (N_OBJS_PER_SLAB * rec.chunk_size))
            (m.first_chunk.drop (i + 1)) with
        | none => simp [hs] at h
        | some r =>
          obtain ⟨l, q⟩ := r
          rw [hs] at h
          simp only [Option.some.injEq, Prod.mk.injEq] at h
          have hKd : offsets_nonneg (m.first_chunk.drop (i + 1)) :=
            fun x hx => hK x (List.mem_of_mem_drop hx)
          have hKl := slab_scan_nonneg _ _ _ _ hs hKd
          rw [← h.2]
          refine ⟨ht, hsp, fun hh => by simp [hstart] at hh, fun _ => ⟨?_, ?_⟩⟩
          · exact registry_set_ok _ _ _ _ hreg hget hri
          · intro x hx
            rcases List.mem_append.mp hx with h1 | h1
            · exact hK x (List.mem_of_mem_take h1)
            · exact hKl x h1

theorem slab_grow_inv (b sz n a : Int) (m : Mem) (p : Int) (m1 : Mem) (hb : 0 < b)
    (hn : 0 ≤ n) (hr : 64 * (n + 4) ≤ 1073741824)
    (hinv : slab_inv b sz m) (hstart : m.is_start = false)
    (h : slab_grow n a m = some (p, m1)) : slab_inv b sz m1 := by
  have hw : wrap32 (n + OFFSET) = n + 4 := by
    simp only [OFFSET]
    rw [wrap32_of_range] <;> omega
  obtain ⟨ht, hsp, _, hok⟩ := hinv
  obtain ⟨hreg, hK⟩ := hok hstart
  unfold slab_grow at h
  cases hbs : buddy_system (wrap32 (a - OFFSET)) m with
  | none => simp [hbs] at h
  | some r =>
    obtain ⟨ptr, m2⟩ := r
    rw [hbs] at h
    simp only [] at h
    obtain ⟨h1, h2, h3, h4, h5, h6⟩ := buddy_system_nonneg _ _ ptr m2 hbs (fun _ => hK)
    split at h
    · simp only [Option.some.injEq, Prod.mk.injEq] at h
      rw [← h.2]
      exact ⟨by rw [h1, ht], by rw [h2, hsp], fun hh => by simp [h4] at hh,
        fun _ => ⟨by rw [h3]; exact hreg, h5⟩⟩
    · rename_i hne
      rcases h6 with h7 | ⟨L, hL, hptr⟩
      · exact absurd h7 hne
      · rw [hw] at h
        cases hns : new_slab m2.first_slab (ptr - OFFSET) (n + 4) 1 with
        | none => simp [hns] at h
        | some fs =>
          rw [hns] at h
          simp only [] at h
          have hreg2 : registry_ok fs := new_slab_ok _ _ _ _ _ (by rw [h3]; exact hreg)
            (by simp only [OFFSET]; omega) (by omega) hns
          cases hf : find_chunk_by_ptr m2.first_chunk (ptr - OFFSET) with
          | none => simp [hf] at h
          | some i =>
            rw [hf] at h
            simp only [] at h
            cases hac : m2.first_chunk[i]? with
            | none => simp [hac] at h
            | some a_chunk =>
              rw [hac] at h
              simp only [] at h
              have ha0 : 0 ≤ a_chunk.start_loc := h5 a_chunk (List.getElem?_mem hac)
              cases hnc : new_chunk m2.first_chunk (a_chunk.start_loc + 2 * OFFSET) (n + 4) true
                  (ptr + OFFSET) with
              | none => simp [hnc] at h
              | some first1 =>
                rw [hnc] at h
                simp only [] at h
                have hK1 := new_chunk_nonneg _ _ _ _ _ _ hnc h5 (by simp only [OFFSET]; omega)
                cases hsl : slab_slots_loop m2.start_ptr n 63 (a_chunk.start_loc + 2 * OFFSET)
                    first1 with
                | none => simp [hsl] at h
                | some first2 =>
                  rw [hsl] at h
                  simp only [Option.some.injEq, Prod.mk.injEq] at h
                  have hK2 := slab_slots_loop_nonneg _ _ _ _ _ _ hsl
                    (by simp only [OFFSET]; omega) (by rw [hw]; omega) hK1
                  rw [← h.2]
                  exact ⟨by rw [← ht, ← h1], by rw [← hsp, ← h2],
                    fun hh => by simp [h4] at hh, fun _ => ⟨hreg2, hK2⟩⟩

theorem slab_alloc_inv (b sz n : Int) (m : Mem) (p : Int) (m1 : Mem) (hb : 0 < b)
    (hn : 0 ≤ n) (hr : 64 * (n + 4) ≤ 1073741824) (hinv : slab_inv b sz m)
    (h : slab_alloc n m = some (p, m1)) : slab_inv b sz m1 := by
  have hw : wrap32 (n + OFFSET) = n + 4 := by
    simp only [OFFSET]
    rw [wrap32_of_range] <;> omega
  unfold slab_alloc at h
  split at h
  · simp only [Option.some.injEq, Prod.mk.injEq] at h
    rw [← h.2]
    exact hinv
  · split at h
    · rename_i hs
      rw [hinv.2.2.1 hs] at h
      exact slab_first_inv b sz n _ p m1 hb hn hr h
    · rename_i hs
      have hs2 : m.is_start = false := by simpa using hs
      cases hfs : find_slab m.first_slab (wrap32 (n + OFFSET)) with
      | none =>
        rw [hfs] at h
        exact slab_grow_inv b sz n _ m p m1 hb hn hr hinv hs2 h
      | some ri =>
        rw [hfs] at h
        have hri : ri ≠ 0 := by
          intro h0
          rw [h0] at hfs
          exact find_slab_not_dummy _ _ (hinv.2.2.2 hs2).1 (by rw [hw]; omega) hfs
        exact slab_take_inv b sz m ri p m1 hinv hs2 hri h

theorem slab_release_inv (b sz p : Int) (m : Mem) (ri : Nat) (m1 : Mem)
    (hinv : slab_inv b sz m) (hstart : m.is_start = false)
    (h : slab_release p m ri = some m1) : slab_inv b sz m1 := by
  obtain ⟨ht, hsp, h3, hok⟩ := hinv
  obtain ⟨hreg, hK⟩ := hok hstart
  unfold slab_release at h
  cases hget : m.first_slab[ri]? with
  | none => simp [hget] at h
  | some rm =>
    rw [hget] at h
    simp only [] at h
    have hrm : ri = 0 ∧ rm = ⟨0, 0, 0⟩ ∨ ri ≠ 0 ∧ 0 < rm.ptr := by
      obtain ⟨rest, hl, _, hrest⟩ := hreg
      rw [hl] at hget
      cases ri with
      | zero =>
        simp only [List.getElem?_cons_zero, Option.some.injEq] at hget
        exact Or.inl ⟨rfl, hget.symm⟩
      | succ k =>
        rw [List.getElem?_cons_succ] at hget
        exact Or.inr ⟨by omega, (hrest rm (List.getElem?_mem hget)).1⟩
    split at h
    · rename_i hgt
      simp only [Option.some.injEq] at h
      rw [← h]
      have hri : ri ≠ 0 := by
        rcases hrm with ⟨_, h0⟩ | ⟨h0, _⟩
        · rw [h0] at hgt
          simp at hgt
        · exact h0
      exact ⟨ht, hsp, fun hh => by simp [hstart] at hh, fun _ =>
        ⟨registry_set_ok _ _ _ _ hreg hget hri, free_slab_chunk_nonneg _ _ hK⟩⟩
    · split at h
      · rename_i heq
        have hptr : 0 < rm.ptr := by
          rcases hrm with ⟨_, h0⟩ | ⟨_, h0⟩
          · rw [h0] at heq
            simp at heq
          · exact h0
        cases hf : find_chunk_by_ptr m.first_chunk rm.ptr with
        | none => simp [hf] at h
        | some i =>
          rw [hf] at h
          simp only [] at h
          cases hrem : m.first_chunk[i]? with
          | none => simp [hrem] at h
          | some remover =>
            rw [hrem] at h
            simp only [] at h
            have hKr := slab_remove_loop_nonneg rm.chunk_size 64
              (remover.start_loc + 2 * OFFSET) m.first_chunk hK
            generalize slab_remove_loop rm.chunk_size 64 (remover.start_loc + 2 * OFFSET)
              m.first_chunk = rl at h hKr
            cases hbf : buddy_free (rm.ptr + OFFSET) { m with first_chunk := rl } with
            | none => simp [hbf] at h
            | some m2 =>
              rw [hbf] at h
              simp only [Option.some.injEq] at h
              obtain ⟨h1, h2, h4, h5, h6⟩ := buddy_free_nonneg _ _ m2 hbf hKr
              rw [← h]
              refine ⟨by rw [← ht]; exact h1, by rw [← hsp]; exact h2,
                fun hh => ?_, fun _ => ⟨?_, h6⟩⟩
              · have : m2.is_start = false := by rw [h5]; exact hstart
                simp [this] at hh
              · have : m2.first_slab = m.first_slab := h4
                simp only [this]
                exact remove_slab_ok _ _ hreg (by omega)
      · simp only [Option.some.injEq] at h
        rw [← h]
        exact ⟨ht, hsp, h3, hok⟩

theorem slab_free_inv (b sz p : Int) (m m1 : Mem) (hinv : slab_inv b sz m)
    (h : slab_free p m = some m1) : slab_inv b sz m1 := by
  unfold slab_free at h
  cases hfs : m.first_slab with
  | nil => simp [hfs] at h
  | cons rm0 rest =>
    rw [hfs] at h
    simp only [] at h
    have hstart : m.is_start = false := by
      cases hs : m.is_start with
      | false => rfl
      | true =>
        have hnil : m.first_slab = [] := by
          rw [hinv.2.2.1 hs]
          rfl
        rw [hnil] at hfs
        cases hfs
    split at h
    · simp only [Option.some.injEq] at h
      rw [← h]
      exact hinv
    · exact slab_release_inv b sz p m _ m1 hinv hstart h

theorem exec_inv (b sz : Int) (ops : List Op) (m m1 : Mem) (hb : 0 < b)
    (hops : ∀ n, Op.malloc n ∈ ops → 0 ≤ n ∧ 64 * (n + 4) ≤ 1073741824)
    (hinv : slab_inv b sz m) (h : exec ops m = some m1) : slab_inv b sz m1 := by
  induction ops generalizing m with
  | nil =>
    rw [exec, Option.some.injEq] at h
    rw [← h]
    exact hinv
  | cons op ops ih =>
    have hops2 : ∀ n, Op.malloc n ∈ ops → 0 ≤ n ∧ 64 * (n + 4) ≤ 1073741824 :=
      fun n hn => hops n (List.mem_cons_of_mem _ hn)
    cases op with
    | malloc n =>
      rw [exec] at h
      cases hm : my_malloc n m with
      | none => simp [hm] at h
      | some r =>
        obtain ⟨p, m2⟩ := r
        rw [hm] at h
        simp only [] at h
        have hv := hops n (List.mem_cons_self _ _)
        have hm2 : slab_alloc n m = some (p, m2) := by
          simpa [my_malloc, hinv.1] using hm
        exact ih m2 hops2 (slab_alloc_inv b sz n m p m2 hb hv.1 hv.2 hinv hm2) h
    | free p =>
      rw [exec] at h
      cases hm : my_free p m with
      | none => simp [hm] at h
      | some m2 =>
        rw [hm] at h
        simp only [] at h
        have hm2 : slab_free p m = some m2 := by
          simpa [my_free, hinv.1] using hm
        exact ih m2 hops2 (slab_free_inv b sz p m m2 hinv hm2) h

theorem setup_inv (b sz : Int) : slab_inv b sz (setup 1 sz b Mem.init) :=
  ⟨rfl, rfl, fun _ => rfl, fun h => by simp [setup, Mem.init] at h⟩

/-! ## The slab registry invariant -/

/-- C16 as stated fails. In slab mode with region base 65536, the first call
`my_malloc(2147483644)` has `n ≥ 0` and succeeds with pointer 65544, but
`size + OFFSET` leaves the range of `int` and becomes -2147483648; the record of that
class is created first and `new_slab` then puts the dummy record of class 0 behind it, so
the head of the registry is not the dummy. -/
theorem dummy_not_head_for_wrapped_class :
    wrap32 (2147483644 + OFFSET) = -2147483648 ∧
    (run [Call.malloc 2147483644] (setup 1 1048576 65536 Mem.init) []).map
      (fun r => (r.2, r.1.first_slab)) =
      some ([65544], [⟨65536, -2147483648, 1⟩, ⟨0, 0, 0⟩]) := by
  refine ⟨by decide, by decide⟩

/-- With region base 2147483640 and the first request 67108860, the product
`(size + OFFSET) * 64` is `2 ^ 32` and becomes 0 in 32 bits, the slot offsets of the
first slab wrap to negative values, and the block of the next class (request 16380) gets
the address 0; `my_free` of its pointer 8 then unlinks the dummy record, whose block
pointer is `NULL` as well. -/
theorem dummy_removed_for_wrapped_product :
    (run [Call.malloc 67108860, Call.malloc 16380] (setup 1 1048576 2147483640 Mem.init) []).map
      (fun r => (r.2, r.1.first_slab)) =
      some ([2147483648, 8], [⟨0, 0, 0⟩, ⟨0, 16384, 1⟩, ⟨2147483640, 67108864, 1⟩]) ∧
    (run [Call.malloc 67108860, Call.malloc 16380, Call.free 1]
        (setup 1 1048576 2147483640 Mem.init) []).map (fun r => r.1.first_slab) =
      some [⟨0, 16384, 1⟩, ⟨2147483640, 67108864, 1⟩] := by
  refine ⟨by decide, by decide⟩

/-- C16, amended. In slab mode with a non-null region base `b`, let `m` be the state
after any sequence of calls `my_malloc(n)` and `my_free(p)` (any pointer `p`) in which
every request has `n ≥ 0` and `64 * (n + 4) ≤ 2 ^ 30`, so that the size computations of
`slab_alloc` stay in the range of `int`. Once the first allocation has been made
(`is_start` is cleared), the head of the slab registry is the dummy record `(NULL, 0, 0)`,
the registry is sorted by ascending `chunk_size`, `find_slab` does not return the dummy
for the class `n + 4` of any `int` `n ≥ 0`, and after every `my_free` the head is still
the dummy. -/
theorem slab_registry_invariant (b sz : Int) (ops : List Op) (m : Mem) (hb : 0 < b)
    (hops : ∀ n, Op.malloc n ∈ ops → 0 ≤ n ∧ 64 * (n + 4) ≤ 1073741824)
    (hrun : exec ops (setup 1 sz b Mem.init) = some m) (hstart : m.is_start = false) :
    m.first_slab.head? = some ⟨0, 0, 0⟩ ∧
    (m.first_slab.map (fun s => s.chunk_size)).Pairwise (· ≤ ·) ∧
    (∀ n : Int, 0 ≤ n → n ≤ 2147483647 →
      find_slab m.first_slab (wrap32 (n + OFFSET)) ≠ some 0) ∧
    (∀ (p : Int) (m1 : Mem), my_free p m = some m1 →
      m1.is_start = false ∧ m1.first_slab.head? = some ⟨0, 0, 0⟩) := by
  have hinv := exec_inv b sz ops _ m hb hops (setup_inv b sz) hrun
  have hreg := (hinv.2.2.2 hstart).1
  refine ⟨?_, ?_, ?_, ?_⟩
  · obtain ⟨rest, hl, _, _⟩ := hreg
    rw [hl]
    rfl
  · exact hreg.choose_spec.2.1
  · intro n hn0 hn1
    apply find_slab_not_dummy _ _ hreg
    unfold wrap32
    simp only [OFFSET]
    omega
  · intro p m1 hfree
    have hfree2 : slab_free p m = some m1 := by
      simpa [my_free, hinv.1] using hfree
    have hinv1 := slab_free_inv b sz p m m1 hinv hfree2
    have hstart1 : m1.is_start = false := by
      cases hs : m1.is_start with
      | false => rfl
      | true =>
        have h1 := hinv1.2.2.1 hs
        have h2 : m1.first_slab = [] := by
          rw [h1]
          rfl
        exfalso
        unfold slab_free at hfree2
        obtain ⟨rest, hl, _, _⟩ := hreg
        rw [hl] at hfree2
        simp only [] at hfree2
        split at hfree2
        · simp only [Option.some.injEq] at hfree2
          rw [← hfree2, hl] at h2
          cases h2
        · rename_i ri hri
          have h3 : m1.is_start = false := by
            unfold slab_release at hfree2
            cases hget : m.first_slab[ri]? with
            | none => simp [hget] at hfree2
            | some rm =>
              rw [hget] at hfree2
              simp only [] at hfree2
              split at hfree2
              · simp only [Option.some.injEq] at hfree2
                rw [← hfree2]
                exact hstart
              · split at hfree2
                · cases hf : find_chunk_by_ptr m.first_chunk rm.ptr with
                  | none => simp [hf] at hfree2
                  | some i =>
                    rw [hf] at hfree2
                    simp only [] at hfree2
                    cases hrem : m.first_chunk[i]? with
                    | none => simp [hrem] at hfree2
                    | some remover =>
                      rw [hrem] at hfree2
                      simp only [] at hfree2
                      generalize slab_remove_loop rm.chunk_size 64
                        (remover.start_loc + 2 * OFFSET) m.first_chunk = rl at hfree2
                      cases hbf : buddy_free (rm.ptr + OFFSET) { m with first_chunk := rl } with
                      | none => simp [hbf] at hfree2
                      | some m2 =>
                        rw [hbf] at hfree2
                        simp only [Option.some.injEq] at hfree2
                        unfold buddy_free at hbf
                        simp only [] at hbf
                        split at hbf
                        · simp at hbf
                        · split at hbf
                          · simp at hbf
                          · simp only [Option.some.injEq] at hbf
                            rw [← hfree2, ← hbf]
                            exact hstart
                · simp only [Option.some.injEq] at hfree2
                  rw [← hfree2]
                  exact hstart
          rw [h3] at hs
          cases hs
    obtain ⟨rest, hl, _, _⟩ := (hinv1.2.2.2 hstart1).1
    exact ⟨hstart1, by rw [hl]; rfl⟩

/-- An instance of the registry invariant: region base 65536 and the single call
`my_malloc(12)`, after which the registry is the dummy followed by the record
`(65536, 16, 1)`. -/
theorem slab_registry_invariant_witness :
    (slab_mem1 65536 1048576 16 1024
      (rungs 65536 10 1024 ++ [create_chunk MEM_SIZE 0 false 0])
      (rung_pairs 10 1024) 1).first_slab = [⟨0, 0, 0⟩, ⟨65536, 16, 1⟩] ∧
    (∀ n : Int, 0 ≤ n → n ≤ 2147483647 →
      find_slab [⟨0, 0, 0⟩, ⟨65536, 16, 1⟩] (wrap32 (n + OFFSET)) ≠ some 0) :=
  ⟨rfl, (slab_registry_invariant 65536 1048576 [Op.malloc 12]
    (slab_mem1 65536 1048576 16 1024
      (rungs 65536 10 1024 ++ [create_chunk MEM_SIZE 0 false 0]) (rung_pairs 10 1024) 1)
    (by decide)
    (by
      intro n hn
      rw [List.mem_singleton, Op.malloc.injEq] at hn
      rw [hn]
      exact ⟨by decide, by decide⟩)
    (by decide) rfl).2.2.1⟩

end VirtualMemory
